import Mathlib

/-!
Verification of the adevs discrete-event simulation kernel.

This file shallowly embeds, in Lean 4, the parts of the adevs code base
that the specification talks about:

* the super-dense simulation clock `Time<T>` from `adevs_time.h`,
  embedded as `Adevs.STime T`.  The C++ class is a template over the
  real field type `T` (instantiated at `double` by the engines); the
  embedding keeps the genericity, requiring of `T` exactly the
  operations the C++ uses (`0`, `+`, `-`, `<`, `==`), i.e. a
  `LinearOrderedRing`.  `DBL_MAX` becomes an explicit parameter `M`
  where it is needed.
* the optimistic-engine `LogicalProcess` from `adevs_lp.h`
  (message queues, checkpoints, rollback, fossil collection);
* the sequential `Simulator` (constructors, `injectInput`,
  `setNextTime`, `computeNextOutput`, `computeNextState`, `schedule`)
  from the simulator header.

Virtual calls into user models (`delta_int`, `output_func`, ...) are
represented by function-valued fields of the model records, and the
points where the engine invokes them (and where it notifies
`EventListener`s) are additionally recorded in an event trace carried
by the simulator state, so that ordering properties of those calls can
be stated.
-/

namespace Adevs

/-! ## Super-dense time, from adevs_time.h -/

/-- The super dense simulation clock `Time<T>` of `adevs_time.h`:
a real field `t` and an unsigned integer ordinal `c`. -/
structure STime (T : Type) where
  t : T
  c : ℕ
  deriving DecidableEq, Repr

namespace STime

variable {T : Type} [LinearOrderedRing T]

/-- `Time::Inf()`: `Time(type_max<T>(), 0)`; `type_max<double>()` is
`DBL_MAX`, passed here as the parameter `M`. -/
def Inf (M : T) : STime T := ⟨M, 0⟩

/-- `operator<`: order by `t` then by `c`. -/
def lt (a b : STime T) : Prop := a.t < b.t ∨ (a.t = b.t ∧ a.c < b.c)

/-- `operator<=`: `*this == t2 || *this < t2`. -/
def le (a b : STime T) : Prop := a = b ∨ STime.lt a b

theorem lt_asymm' {a b : STime T} (h : STime.lt a b) : ¬ STime.lt b a := by
  rcases h with h | ⟨h1, h2⟩
  · rintro (h' | ⟨h1', _⟩)
    · exact absurd (h.trans h') (lt_irrefl _)
    · exact absurd h (h1' ▸ lt_irrefl _)
  · rintro (h' | ⟨_, h2'⟩)
    · exact absurd (h1 ▸ h') (lt_irrefl _)
    · exact absurd (h2.trans h2') (Nat.lt_irrefl _)

theorem lt_trans'' {a b c : STime T} (hab : STime.lt a b) (hbc : STime.lt b c) :
    STime.lt a c := by
  rcases hab with h1 | ⟨h1, h2⟩ <;> rcases hbc with h3 | ⟨h3, h4⟩
  · exact Or.inl (h1.trans h3)
  · exact Or.inl (h3 ▸ h1)
  · exact Or.inl (h1 ▸ h3)
  · exact Or.inr ⟨h1.trans h3, h2.trans h4⟩

/-- The comparison operators of `Time` form a linear order
(lexicographic on `(t, c)`). -/
instance : LinearOrder (STime T) where
  lt := STime.lt
  le := STime.le
  le_refl a := Or.inl rfl
  le_trans a b c hab hbc := by
    rcases hab with rfl | hab
    · exact hbc
    · rcases hbc with rfl | hbc
      · exact Or.inr hab
      · exact Or.inr (lt_trans'' hab hbc)
  le_antisymm a b hab hba := by
    rcases hab with rfl | hab
    · rfl
    · rcases hba with rfl | hba
      · rfl
      · exact absurd hba (lt_asymm' hab)
  le_total a b := by
    rcases lt_trichotomy a.t b.t with h | h | h
    · exact Or.inl (Or.inr (Or.inl h))
    · rcases Nat.lt_trichotomy a.c b.c with h2 | h2 | h2
      · exact Or.inl (Or.inr (Or.inr ⟨h, h2⟩))
      · rcases a with ⟨at1, ac⟩
        rcases b with ⟨bt, bc⟩
        cases h
        cases h2
        exact Or.inl (Or.inl rfl)
      · exact Or.inr (Or.inr (Or.inr ⟨h.symm, h2⟩))
    · exact Or.inr (Or.inr (Or.inl h))
  lt_iff_le_not_le a b := by
    constructor
    · intro h
      refine ⟨Or.inr h, ?_⟩
      rintro (rfl | h')
      · exact lt_asymm' h h
      · exact lt_asymm' h h'
    · rintro ⟨rfl | h, hn⟩
      · exact absurd (Or.inl rfl) hn
      · exact h
  decidableLE a b := by
    change Decidable (a = b ∨ STime.lt a b)
    have : Decidable (STime.lt a b) := by
      change Decidable (a.t < b.t ∨ (a.t = b.t ∧ a.c < b.c)); infer_instance
    infer_instance
  decidableLT a b := by
    change Decidable (a.t < b.t ∨ (a.t = b.t ∧ a.c < b.c)); infer_instance

/-- `operator+`, the advance operator of `Time` (not commutative):
`if (t2.t == 0) return Time(t, t2.c + c); else return Time(t + t2.t, 0);` -/
def add (a b : STime T) : STime T :=
  if b.t = 0 then ⟨a.t, b.c + a.c⟩ else ⟨a.t + b.t, 0⟩

instance : Add (STime T) := ⟨STime.add⟩

theorem add_def (a b : STime T) :
    a + b = if b.t = 0 then (⟨a.t, b.c + a.c⟩ : STime T) else ⟨a.t + b.t, 0⟩ :=
  rfl

theorem lt_def (a b : STime T) :
    a < b ↔ (a.t < b.t ∨ (a.t = b.t ∧ a.c < b.c)) := Iff.rfl

theorem le_def (a b : STime T) : a ≤ b ↔ (a = b ∨ a < b) := Iff.rfl

end STime

end Adevs

/-! ### Claim C9 -/

/-- C9: for all super-dense times, the advance operator of `Time`
returns `(t, c + c')` when the second argument's real field `t'` is
zero, returns `(t + t', 0)` when `t' > 0`, and is not commutative:
over `ℤ`, `(1,0) + (0,1) = (1,1)` while `(0,1) + (1,0) = (1,0)`. -/
theorem Adevs.STime.c9_add_superdense {T : Type} [LinearOrderedRing T] :
    (∀ a b : Adevs.STime T, b.t = 0 → a + b = ⟨a.t, a.c + b.c⟩) ∧
    (∀ a b : Adevs.STime T, 0 < b.t → a + b = ⟨a.t + b.t, 0⟩) ∧
    (⟨1, 0⟩ + ⟨0, 1⟩ : Adevs.STime ℤ) ≠ (⟨0, 1⟩ + ⟨1, 0⟩ : Adevs.STime ℤ) := by
  refine ⟨?_, ?_, ?_⟩
  · intro a b hb
    rw [Adevs.STime.add_def, if_pos hb, Nat.add_comm]
  · intro a b hb
    rw [Adevs.STime.add_def, if_neg (by exact ne_of_gt hb)]
  · decide

/-- Witness for C9: instantiates the two conditional clauses at
`T = ℤ`, `a = (3, 2)`, `b = (0, 5)` and `a = (3, 2)`, `b = (4, 5)`. -/
theorem Adevs.STime.c9_add_superdense_witness :
    (⟨3, 2⟩ + ⟨0, 5⟩ : Adevs.STime ℤ) = ⟨3, 7⟩ ∧
    (⟨3, 2⟩ + ⟨4, 5⟩ : Adevs.STime ℤ) = ⟨7, 0⟩ := by
  constructor
  · exact Adevs.STime.c9_add_superdense.1 ⟨3, 2⟩ ⟨0, 5⟩ (by decide)
  · exact (Adevs.STime.c9_add_superdense.2.1 ⟨3, 2⟩ ⟨4, 5⟩ (by decide)).trans (by decide)

namespace Adevs

/-! ## The optimistic engine's LogicalProcess, from adevs_lp.h

The C++ `LogicalProcess<X>` instantiates `Time` at `double`; the
embedding stays generic in the ring `T`, with the `DBL_MAX` constant
passed as a parameter `M` to the functions that mention it.  The
`void*` state handles returned by `save_state()` are modelled by saved
copies of the model state `σ` (restore installs the saved copy); the
`src` pointer of a message is modelled by a numeric LP identifier. -/

/-- Stand-in for the C++ `INT_MAX` constant, used by the LP as the
ordinal of sentinel times such as `Time(DBL_MAX, INT_MAX)`. -/
def INT_MAX : ℕ := 2 ^ 31 - 1

/-- `MessageType`: rollback or output message. -/
inductive MsgType where
  | RB
  | io
  deriving DecidableEq, Repr

/-- A simulation `Message<X>`: timestamp, source LP, value, type. -/
structure Msg (T V : Type) where
  t : STime T
  src : ℕ
  value : V
  type : MsgType
  deriving DecidableEq, Repr

/-- A state `CheckPoint`: timestamp and saved state. -/
structure ChkPt (T σ : Type) where
  t : STime T
  data : σ

/-- The behaviour of the `Atomic<X>` model assigned to a logical
process: the virtual methods the LP invokes.  `save_state`/`restore_state`
are modelled by copying `σ`, and `gc_state`/`gc_output` are resource
releases with no effect on the embedded state. -/
structure LPModel (T V σ : Type) where
  ta : σ → T
  delta_int : σ → σ
  delta_conf : List V → σ → σ
  delta_ext : T → List V → σ → σ
  output_func : σ → List V

/-- The state owned by `LogicalProcess<X>` (its queues and clocks)
together with the assigned model and that model's current state. -/
structure LPState (T V σ : Type) where
  model : LPModel T V σ
  st : σ
  time_advance : T
  tL : STime T
  input : List (Msg T V)
  avail : List (Msg T V)
  used : List (Msg T V)
  output : List (Msg T V)
  discard : List (Msg T V)
  chk_pt : List (ChkPt T σ)
  rb_pending : Bool
  rb_time : STime T

/-- Errors with which the embedded LP aborts: a violated `assert`
(or undefined behaviour such as `back()` on an empty list), and the
"Atomic model has a negative time advance" exception. -/
inductive LPErr where
  | assertFail
  | negTa
  deriving DecidableEq, Repr

variable {T V σ : Type} [LinearOrderedRing T]

/-- `LogicalProcess::insert_message`: insert into a timestamp ordered
list, before the first message with a strictly larger timestamp. -/
def insert_message (l : List (Msg T V)) (msg : Msg T V) : List (Msg T V) :=
  match l with
  | [] => [msg]
  | m :: rest => if msg.t < m.t then msg :: m :: rest else m :: insert_message rest msg

/-- The first `while` loop of the RB branch of `execDeltfunc`: erase
from `avail` every message from the RB message's sender with timestamp
`>=` the RB timestamp. -/
def rbErase (src : ℕ) (t : STime T) : List (Msg T V) → List (Msg T V)
  | [] => []
  | m :: rest =>
      if m.src = src ∧ t ≤ m.t then rbErase src t rest
      else m :: rbErase src t rest

/-- The second `while` loop of the RB branch of `execDeltfunc`: erase
the cancelled messages from `used`, recording in the flag whether any
processed message was actually erased (`used_msg_cancelled`). -/
def rbEraseUsed (src : ℕ) (t : STime T) : List (Msg T V) → List (Msg T V) × Bool
  | [] => ([], false)
  | m :: rest =>
      let r := rbEraseUsed src t rest
      if m.src = src ∧ t ≤ m.t then (r.1, true)
      else (m :: r.1, r.2)

/-- The `while (!output.empty() && output.back().t > msg.t)` loop of
the rollback in `execDeltfunc`: pop incorrect outputs from the back of
`output`, inserting each into `discard`.  The first argument list is
the output queue reversed, so that the C++ `back()` is the head;
returns the remaining (still reversed) output queue and the new
discard queue. -/
def moveBadOutputs (mt : STime T) :
    List (Msg T V) → List (Msg T V) → List (Msg T V) × List (Msg T V)
  | [], d => ([], d)
  | m :: rest, d =>
      if mt < m.t then moveBadOutputs mt rest (insert_message d m)
      else (m :: rest, d)

/-- The `while (chk_pt.back().t > msg.t)` loop of the rollback: pop
(and `gc_state`) checkpoints newer than the rollback time.  The
argument is the checkpoint stack reversed (the C++ `back()` is the
head); `none` models a violated `assert(!chk_pt.empty())`. -/
def popBadChk (mt : STime T) : List (ChkPt T σ) → Option (List (ChkPt T σ))
  | [] => none
  | c :: rest => if mt < c.t then popBadChk mt rest else some (c :: rest)

/-- The `while (!used.empty() && used.back().t >= tL)` loop of the
rollback: copy used messages with timestamp at least the restored `tL`
back to the front of `avail`.  The first argument list is the used
queue reversed; returns the remaining (still reversed) used queue and
the new avail queue. -/
def moveUsedBack (tl : STime T) :
    List (Msg T V) → List (Msg T V) → List (Msg T V) × List (Msg T V)
  | [], a => ([], a)
  | m :: rest, a =>
      if tl ≤ m.t then moveUsedBack tl rest (m :: a)
      else (m :: rest, a)

/-- The rollback block of `LogicalProcess::execDeltfunc` (executed when
a message in the past was accepted or a used message was cancelled):
discard the incorrect outputs, discard the incorrect checkpoints,
restore the model state from the last remaining checkpoint (popping
it), refresh `ta` (rejecting a negative time advance), move used
messages back to `avail`, and schedule a rollback message at
`msg.t + Time(0,1)` unless an earlier one is pending. -/
def rollback (s : LPState T V σ) (mt : STime T) : Except LPErr (LPState T V σ) :=
  let od := moveBadOutputs mt s.output.reverse s.discard
  match popBadChk mt s.chk_pt.reverse with
  | none => .error .assertFail
  | some [] => .error .assertFail
  | some (c :: revChk) =>
      let st' := c.data
      let ta' := s.model.ta st'
      if ta' < 0 then .error .negTa
      else
        let ua := moveUsedBack c.t s.used.reverse s.avail
        let t_bad := mt + (⟨0, 1⟩ : STime T)
        .ok { s with
          output := od.1.reverse
          discard := od.2
          chk_pt := revChk.reverse
          tL := c.t
          st := st'
          time_advance := ta'
          used := ua.1.reverse
          avail := ua.2
          rb_time := if ¬s.rb_pending ∨ t_bad < s.rb_time then t_bad else s.rb_time
          rb_pending := true }

/-- One iteration of the input-draining `while` loop of
`LogicalProcess::execDeltfunc`: handle one message popped from the
input queue.  An RB message erases the cancelled messages from `avail`
and `used`; an IO message is inserted into `avail`; then, if the
message is an IO message in the past or a used message was cancelled,
the rollback is performed. -/
def processMessage (s : LPState T V σ) (msg : Msg T V) :
    Except LPErr (LPState T V σ) :=
  let s1 :=
    if msg.type = MsgType.RB then
      { s with avail := rbErase msg.src msg.t s.avail
               used := (rbEraseUsed msg.src msg.t s.used).1 }
    else { s with avail := insert_message s.avail msg }
  if (msg.type ≠ MsgType.RB ∧ msg.t < s.tL) ∨
      (msg.type = MsgType.RB ∧ (rbEraseUsed msg.src msg.t s.used).2 = true) then
    rollback s1 msg.t
  else .ok s1

/-- The input-draining `while (!input.empty())` loop of
`LogicalProcess::execDeltfunc`. -/
def drainInput : List (Msg T V) → LPState T V σ → Except LPErr (LPState T V σ)
  | [], s => .ok s
  | m :: rest, s =>
      match processMessage s m with
      | .error e => .error e
      | .ok s' => drainInput rest s'

/-- The tail of `LogicalProcess::execDeltfunc` after the next event
time `tN` is fixed and the input bag is collected: retract a bad
speculative output if necessary, then (when `tN` is not at infinity)
save a checkpoint, dispatch the DEVS transition, refresh `ta` and
advance `tL` to `tN + Time(0,1)`. -/
def transitionFinish (M : T) (tN tSelf : STime T) (bag : List V)
    (s : LPState T V σ) : Except LPErr (LPState T V σ) :=
  if tN.t = M then .ok s
  else
    let c : ChkPt T σ := ⟨s.tL, s.st⟩
    let st' :=
      if bag.isEmpty then s.model.delta_int s.st
      else if tN = tSelf then s.model.delta_conf bag s.st
      else s.model.delta_ext (tN.t - s.tL.t) bag s.st
    .ok { s with chk_pt := s.chk_pt ++ [c]
                 st := st'
                 time_advance := s.model.ta st'
                 tL := tN + (⟨0, 1⟩ : STime T) }

/-- The state-transition part of `LogicalProcess::execDeltfunc`,
executed after the input queue has been drained: compute the next
event time `tN` as the smaller of the own next internal event
`tSelf = tL + (ta, 0)` and the first available input timestamp, move
the available messages with timestamp `tN` into `used` and the input
bag, retract the most recent speculative output if input pre-empts the
internal event, and perform the transition.  `M` stands for
`DBL_MAX`. -/
def transitionPhase (M : T) (s : LPState T V σ) : Except LPErr (LPState T V σ) :=
  let tSelf : STime T :=
    if s.time_advance < M then s.tL + ⟨s.time_advance, 0⟩ else ⟨M, INT_MAX⟩
  let tN : STime T :=
    match s.avail.head? with
    | some m => if m.t < tSelf then m.t else tSelf
    | none => tSelf
  let taken := s.avail.takeWhile (fun m => decide (m.t = tN))
  let bag := taken.map Msg.value
  let s1 : LPState T V σ :=
    { s with avail := s.avail.dropWhile (fun m => decide (m.t = tN))
             used := s.used ++ taken }
  if s1.rb_pending = false ∧ s1.time_advance < M ∧ tN < tSelf then
    match s1.output.getLast? with
    | none => .error .assertFail
    | some last =>
        transitionFinish M tN tSelf bag
          { s1 with rb_pending := true
                    rb_time := tSelf
                    discard := insert_message s1.discard last
                    output := s1.output.dropLast }
  else transitionFinish M tN tSelf bag s1

/-- `LogicalProcess::execDeltfunc`: drain the input queue (possibly
rolling back), then perform the state transition. -/
def execDeltfunc (M : T) (s : LPState T V σ) : Except LPErr (LPState T V σ) :=
  match drainInput s.input { s with input := [] } with
  | .error e => .error e
  | .ok s1 => transitionPhase M s1

/-- The checkpoint loop of `LogicalProcess::fossilCollect`: delete
(and `gc_state`) every checkpoint whose successor's time is still
below `gvt`, keeping the last such checkpoint as a backstop. -/
def fcChk (gvt : STime T) : List (ChkPt T σ) → List (ChkPt T σ)
  | [] => []
  | [c] => [c]
  | c1 :: c2 :: rest =>
      if c2.t < gvt then fcChk gvt (c2 :: rest)
      else c1 :: fcChk gvt (c2 :: rest)

/-- The used-message loop of `LogicalProcess::fossilCollect`:
`while (!used.empty() && used.front().t < gvt) used.pop_front();` -/
def fcUsed (gvt : STime T) : List (Msg T V) → List (Msg T V)
  | [] => []
  | m :: rest => if m.t < gvt then fcUsed gvt rest else m :: rest

/-- The output-draining loops of `LogicalProcess::fossilCollect`: pop
entries with timestamp below `gvt` from the front of a queue,
collecting their values into the `io_bag` handed to `gc_output`.
Returns the collected values and the remaining queue. -/
def fcDrain (gvt : STime T) : List (Msg T V) → List V × List (Msg T V)
  | [] => ([], [])
  | m :: rest =>
      if m.t < gvt then
        let r := fcDrain gvt rest
        (m.value :: r.1, r.2)
      else ([], m :: rest)

/-- `LogicalProcess::fossilCollect(gvt)`: garbage-collect old
checkpoints (keeping one backstop below `gvt`), delete old used
messages, and drain old discarded and committed outputs, returning the
bag of values handed to the model's `gc_output` (the bag is empty iff
`gc_output` is not called). -/
def fossilCollect (gvt : STime T) (s : LPState T V σ) : LPState T V σ × List V :=
  let d := fcDrain gvt s.discard
  let o := fcDrain gvt s.output
  ({ s with chk_pt := fcChk gvt s.chk_pt
            used := fcUsed gvt s.used
            discard := d.2
            output := o.2 },
   d.1 ++ o.1)

end Adevs

namespace Adevs

variable {T V σ : Type} [LinearOrderedRing T]

theorem rbErase_eq_filter (src : ℕ) (t : STime T) (l : List (Msg T V)) :
    rbErase src t l = l.filter (fun m => decide ¬(m.src = src ∧ t ≤ m.t)) := by
  induction l with
  | nil => rfl
  | cons m rest ih =>
      by_cases hc : m.src = src ∧ t ≤ m.t
      · rw [rbErase, if_pos hc, ih, List.filter_cons,
          decide_eq_false (not_not_intro hc)]
        rfl
      · rw [rbErase, if_neg hc, ih, List.filter_cons, decide_eq_true hc, if_pos rfl]

theorem rbEraseUsed_fst_eq_filter (src : ℕ) (t : STime T) (l : List (Msg T V)) :
    (rbEraseUsed src t l).1 = l.filter (fun m => decide ¬(m.src = src ∧ t ≤ m.t)) := by
  induction l with
  | nil => rfl
  | cons m rest ih =>
      by_cases hc : m.src = src ∧ t ≤ m.t
      · rw [rbEraseUsed, List.filter_cons, decide_eq_false (not_not_intro hc)]
        simpa [hc] using ih
      · rw [rbEraseUsed, List.filter_cons, decide_eq_true hc]
        simpa [hc] using ih

theorem rbEraseUsed_snd_iff (src : ℕ) (t : STime T) (l : List (Msg T V)) :
    (rbEraseUsed src t l).2 = true ↔ ∃ m ∈ l, m.src = src ∧ t ≤ m.t := by
  induction l with
  | nil => simp [rbEraseUsed]
  | cons m rest ih =>
      by_cases hc : m.src = src ∧ t ≤ m.t
      · simp only [rbEraseUsed, if_pos hc]
        simp [hc]
      · simp only [rbEraseUsed, if_neg hc]
        rw [List.exists_mem_cons_iff]
        simpa [hc] using ih

end Adevs

/-! ### Claim C4 -/

/-- C4: processing an RB message from source `s` with timestamp `tt` in
`execDeltfunc` erases from both `avail` and `used` exactly the
messages whose source is `s` and whose timestamp is at least `tt`
(messages from other sources, and messages from `s` with earlier
timestamps, are kept in place), records in `used_msg_cancelled`
whether any processed message was erased from `used`, and rolls back
exactly when that flag is set. -/
theorem Adevs.c4_rb_message_erasure {T V σ : Type} [LinearOrderedRing T]
    (s : Adevs.LPState T V σ) (msg : Adevs.Msg T V)
    (h : msg.type = Adevs.MsgType.RB) :
    Adevs.processMessage s msg =
      (if (Adevs.rbEraseUsed msg.src msg.t s.used).2 = true then
        Adevs.rollback
          { s with avail := Adevs.rbErase msg.src msg.t s.avail
                   used := (Adevs.rbEraseUsed msg.src msg.t s.used).1 } msg.t
      else Except.ok
          { s with avail := Adevs.rbErase msg.src msg.t s.avail
                   used := (Adevs.rbEraseUsed msg.src msg.t s.used).1 }) ∧
    Adevs.rbErase msg.src msg.t s.avail =
      s.avail.filter (fun m => decide ¬(m.src = msg.src ∧ msg.t ≤ m.t)) ∧
    (Adevs.rbEraseUsed msg.src msg.t s.used).1 =
      s.used.filter (fun m => decide ¬(m.src = msg.src ∧ msg.t ≤ m.t)) ∧
    ((Adevs.rbEraseUsed msg.src msg.t s.used).2 = true ↔
      ∃ m ∈ s.used, m.src = msg.src ∧ msg.t ≤ m.t) := by
  refine ⟨?_, Adevs.rbErase_eq_filter _ _ _, Adevs.rbEraseUsed_fst_eq_filter _ _ _,
    Adevs.rbEraseUsed_snd_iff _ _ _⟩
  by_cases hc : (Adevs.rbEraseUsed msg.src msg.t s.used).2 = true
  · simp [Adevs.processMessage, h, hc]
  · simp [Adevs.processMessage, h, hc]

namespace Adevs

/-- A trivial model behaviour used by concrete test states for the LP
claims: constant time advance `0`, identity transitions, no output. -/
def lpTestModel : Adevs.LPModel ℤ ℕ ℕ :=
  ⟨fun _ => 0, id, fun _ => id, fun _ _ => id, fun _ => []⟩

/-- A concrete LP state over `T = ℤ` whose used queue holds messages
from sources `1` and `2`. -/
def c4TestLP : Adevs.LPState ℤ ℕ ℕ :=
  ⟨Adevs.lpTestModel, 0, 0, ⟨0, 0⟩, [], [],
    [⟨⟨1, 0⟩, 1, 10, .io⟩, ⟨⟨5, 0⟩, 1, 11, .io⟩, ⟨⟨6, 0⟩, 2, 12, .io⟩],
    [], [], [], false, ⟨0, 0⟩⟩

/-- The RB message from source `1` with timestamp `(5, 0)` used by the
C4 witness. -/
def c4TestMsg : Adevs.Msg ℤ ℕ := ⟨⟨5, 0⟩, 1, 0, .RB⟩

end Adevs

/-- Witness for C4: on the concrete LP state, the RB message from
source `1` at time `(5, 0)` keeps exactly the used messages that are
not cancelled and sets the `used_msg_cancelled` flag. -/
theorem Adevs.c4_rb_message_erasure_witness :
    Adevs.c4TestMsg.type = Adevs.MsgType.RB ∧
    (Adevs.rbEraseUsed Adevs.c4TestMsg.src Adevs.c4TestMsg.t Adevs.c4TestLP.used).1 =
      Adevs.c4TestLP.used.filter
        (fun m => decide ¬(m.src = Adevs.c4TestMsg.src ∧ Adevs.c4TestMsg.t ≤ m.t)) ∧
    ((Adevs.rbEraseUsed Adevs.c4TestMsg.src Adevs.c4TestMsg.t Adevs.c4TestLP.used).2 = true ↔
      ∃ m ∈ Adevs.c4TestLP.used,
        m.src = Adevs.c4TestMsg.src ∧ Adevs.c4TestMsg.t ≤ m.t) :=
  ⟨rfl,
   (Adevs.c4_rb_message_erasure Adevs.c4TestLP Adevs.c4TestMsg rfl).2.2.1,
   (Adevs.c4_rb_message_erasure Adevs.c4TestLP Adevs.c4TestMsg rfl).2.2.2⟩

namespace Adevs

variable {T V σ : Type} [LinearOrderedRing T]

theorem msg_all_not_lt_of_sorted {gvt : STime T} {m : Msg T V} {rest : List (Msg T V)}
    (hm : ∀ b ∈ rest, m.t ≤ b.t) (hc : ¬ m.t < gvt) :
    ∀ x ∈ m :: rest, ¬ x.t < gvt := by
  intro x hx
  rcases List.mem_cons.mp hx with rfl | hx
  · exact hc
  · exact fun hlt => absurd (hlt.trans_le ((not_lt.mp hc).trans (hm x hx))) (lt_irrefl _)

theorem fcUsed_eq_filter (gvt : STime T) (l : List (Msg T V))
    (hs : l.Pairwise (fun a b => a.t ≤ b.t)) :
    fcUsed gvt l = l.filter (fun m => decide ¬ m.t < gvt) := by
  induction l with
  | nil => rfl
  | cons m rest ih =>
      rcases List.pairwise_cons.mp hs with ⟨hm, hrest⟩
      by_cases hc : m.t < gvt
      · rw [fcUsed, if_pos hc, ih hrest, List.filter_cons,
          decide_eq_false (not_not_intro hc)]
        rfl
      · rw [fcUsed, if_neg hc]
        symm
        apply List.filter_eq_self.mpr
        intro x hx
        exact decide_eq_true (msg_all_not_lt_of_sorted hm hc x hx)

theorem fcDrain_spec (gvt : STime T) (l : List (Msg T V))
    (hs : l.Pairwise (fun a b => a.t ≤ b.t)) :
    fcDrain gvt l = ((l.filter (fun m => decide (m.t < gvt))).map Msg.value,
                     l.filter (fun m => decide ¬ m.t < gvt)) := by
  induction l with
  | nil => rfl
  | cons m rest ih =>
      rcases List.pairwise_cons.mp hs with ⟨hm, hrest⟩
      by_cases hc : m.t < gvt
      · rw [fcDrain, if_pos hc, ih hrest, List.filter_cons, List.filter_cons,
          decide_eq_true hc, decide_eq_false (not_not_intro hc), if_pos rfl]
        rfl
      · rw [fcDrain, if_neg hc, List.filter_cons, List.filter_cons,
          decide_eq_false hc, decide_eq_true (show ¬ m.t < gvt from hc)]
        have hall : ∀ x ∈ rest, ¬ x.t < gvt := fun x hx =>
          msg_all_not_lt_of_sorted hm hc x (List.mem_cons_of_mem m hx)
        have h1 : rest.filter (fun m => decide (m.t < gvt)) = [] := by
          apply List.filter_eq_nil_iff.mpr
          intro x hx
          simpa using hall x hx
        have h2 : rest.filter (fun m => decide ¬ m.t < gvt) = rest :=
          List.filter_eq_self.mpr (fun x hx => decide_eq_true (hall x hx))
        rw [if_pos rfl, h1, h2]
        rfl

theorem fcChk_closed (gvt : STime T) (l : List (ChkPt T σ))
    (hs : l.Pairwise (fun a b => a.t ≤ b.t)) :
    fcChk gvt l = ((l.takeWhile (fun c => decide (c.t < gvt))).getLast?.toList)
        ++ l.dropWhile (fun c => decide (c.t < gvt)) := by
  induction l with
  | nil => rfl
  | cons c1 tl ih =>
      cases tl with
      | nil =>
          by_cases hc : c1.t < gvt
          · simp [fcChk, List.takeWhile, List.dropWhile, decide_eq_true hc]
          · simp [fcChk, List.takeWhile, List.dropWhile, decide_eq_false hc]
      | cons c2 rest =>
          rcases List.pairwise_cons.mp hs with ⟨h1, hs2⟩
          by_cases hc2 : c2.t < gvt
          · have hc1 : c1.t < gvt :=
              lt_of_le_of_lt (h1 c2 (List.mem_cons_self c2 rest)) hc2
            rw [fcChk, if_pos hc2, ih hs2]
            simp only [List.takeWhile_cons, List.dropWhile_cons, decide_eq_true_eq,
              if_pos hc1, if_pos hc2, List.getLast?_cons_cons]
          · have htl : fcChk gvt (c2 :: rest) = c2 :: rest := by
              rw [ih hs2]
              simp only [List.takeWhile_cons, List.dropWhile_cons, decide_eq_true_eq,
                if_neg hc2]
              rfl
            rw [fcChk, if_neg hc2, htl]
            by_cases hc1 : c1.t < gvt
            · simp only [List.takeWhile_cons, List.dropWhile_cons, decide_eq_true_eq,
                if_pos hc1, if_neg hc2]
              rfl
            · simp only [List.takeWhile_cons, List.dropWhile_cons, decide_eq_true_eq,
                if_neg hc1]
              rfl

theorem chk_dropWhile_all_not_lt (gvt : STime T) (l : List (ChkPt T σ))
    (hs : l.Pairwise (fun a b => a.t ≤ b.t)) :
    ∀ x ∈ l.dropWhile (fun c => decide (c.t < gvt)), ¬ x.t < gvt := by
  induction l with
  | nil => simp
  | cons c tl ih =>
      rcases List.pairwise_cons.mp hs with ⟨hc, htl⟩
      by_cases h : c.t < gvt
      · simp only [List.dropWhile_cons, decide_eq_true_eq, if_pos h]
        exact ih htl
      · simp only [List.dropWhile_cons, decide_eq_true_eq, if_neg h]
        intro x hx
        rcases List.mem_cons.mp hx with rfl | hx
        · exact h
        · exact fun hlt => absurd (hlt.trans_le ((not_lt.mp h).trans (hc x hx))) (lt_irrefl _)

theorem chain'_snd_of_tail {α : Type _} {P : α → Prop} :
    ∀ l : List α, (∀ x ∈ l.tail, P x) → l.Chain' (fun _ b => P b)
  | [], _ => List.chain'_nil
  | [_], _ => List.chain'_singleton _
  | a :: b :: tl, h => by
      rw [List.chain'_cons]
      exact ⟨h b (List.mem_cons_self b tl),
        chain'_snd_of_tail (b :: tl) (fun x hx => h x (List.mem_cons_of_mem b hx))⟩

end Adevs

/-! ### Claim C5 -/

/-- C5: after `LogicalProcess::fossilCollect(gvt)` on an LP whose
queues are time-ordered: no remaining checkpoint has a successor with
time below `gvt` (so at most one checkpoint below `gvt` remains, as a
backstop at the head of the stack); the used queue keeps exactly the
messages with timestamp at least `gvt`; the discard and output queues
keep exactly their entries with timestamp at least `gvt`, and the
removed entries' values are delivered to the model's `gc_output` bag;
and with `gvt = Time::Inf()` (all timestamps being finite) the used,
output, and discard queues are left empty. -/
theorem Adevs.c5_fossil_collect {T V σ : Type} [LinearOrderedRing T]
    (gvt : Adevs.STime T) (s : Adevs.LPState T V σ)
    (hchk : s.chk_pt.Pairwise (fun a b => a.t ≤ b.t))
    (hused : s.used.Pairwise (fun a b => a.t ≤ b.t))
    (hdisc : s.discard.Pairwise (fun a b => a.t ≤ b.t))
    (hout : s.output.Pairwise (fun a b => a.t ≤ b.t)) :
    ((Adevs.fossilCollect gvt s).1.chk_pt).Chain' (fun _ c => ¬ c.t < gvt) ∧
    (∀ c ∈ ((Adevs.fossilCollect gvt s).1.chk_pt).tail, ¬ c.t < gvt) ∧
    (Adevs.fossilCollect gvt s).1.used =
      s.used.filter (fun m => decide ¬ m.t < gvt) ∧
    (Adevs.fossilCollect gvt s).1.discard =
      s.discard.filter (fun m => decide ¬ m.t < gvt) ∧
    (Adevs.fossilCollect gvt s).1.output =
      s.output.filter (fun m => decide ¬ m.t < gvt) ∧
    (Adevs.fossilCollect gvt s).2 =
      (s.discard.filter (fun m => decide (m.t < gvt))).map Adevs.Msg.value ++
      (s.output.filter (fun m => decide (m.t < gvt))).map Adevs.Msg.value ∧
    (∀ M : T, (∀ m ∈ s.used, m.t.t < M) →
      (Adevs.fossilCollect (Adevs.STime.Inf M) s).1.used = []) ∧
    (∀ M : T, (∀ m ∈ s.output, m.t.t < M) →
      (Adevs.fossilCollect (Adevs.STime.Inf M) s).1.output = []) ∧
    (∀ M : T, (∀ m ∈ s.discard, m.t.t < M) →
      (Adevs.fossilCollect (Adevs.STime.Inf M) s).1.discard = []) := by
  have hchkr : (Adevs.fossilCollect gvt s).1.chk_pt = Adevs.fcChk gvt s.chk_pt := rfl
  have htail : ∀ c ∈ (Adevs.fcChk gvt s.chk_pt).tail, ¬ c.t < gvt := by
    rw [Adevs.fcChk_closed gvt s.chk_pt hchk]
    have hdrop := Adevs.chk_dropWhile_all_not_lt gvt s.chk_pt hchk
    intro x hx
    apply hdrop
    rcases ho : (s.chk_pt.takeWhile fun c => decide (c.t < gvt)).getLast? with _ | c
    · rw [ho] at hx
      simp only [Option.toList, List.nil_append] at hx
      exact List.mem_of_mem_tail hx
    · rw [ho] at hx
      simp only [Option.toList, List.singleton_append, List.tail_cons] at hx
      exact hx
  have hInfLt : ∀ (M : T) (m : Adevs.Msg T V), m.t.t < M → m.t < Adevs.STime.Inf M :=
    fun M m h => Or.inl h
  refine ⟨?_, ?_, ?_, ?_, ?_, ?_, ?_, ?_, ?_⟩
  · rw [hchkr]
    exact Adevs.chain'_snd_of_tail _ htail
  · rw [hchkr]
    exact htail
  · exact Adevs.fcUsed_eq_filter gvt s.used hused
  · show (Adevs.fcDrain gvt s.discard).2 = _
    rw [Adevs.fcDrain_spec gvt s.discard hdisc]
  · show (Adevs.fcDrain gvt s.output).2 = _
    rw [Adevs.fcDrain_spec gvt s.output hout]
  · show (Adevs.fcDrain gvt s.discard).1 ++ (Adevs.fcDrain gvt s.output).1 = _
    rw [Adevs.fcDrain_spec gvt s.discard hdisc, Adevs.fcDrain_spec gvt s.output hout]
  · intro M hM
    show Adevs.fcUsed (Adevs.STime.Inf M) s.used = []
    rw [Adevs.fcUsed_eq_filter _ s.used hused]
    apply List.filter_eq_nil_iff.mpr
    intro m hm
    simpa using hInfLt M m (hM m hm)
  · intro M hM
    show (Adevs.fcDrain (Adevs.STime.Inf M) s.output).2 = []
    rw [Adevs.fcDrain_spec _ s.output hout]
    apply List.filter_eq_nil_iff.mpr
    intro m hm
    simpa using hInfLt M m (hM m hm)
  · intro M hM
    show (Adevs.fcDrain (Adevs.STime.Inf M) s.discard).2 = []
    rw [Adevs.fcDrain_spec _ s.discard hdisc]
    apply List.filter_eq_nil_iff.mpr
    intro m hm
    simpa using hInfLt M m (hM m hm)

namespace Adevs

/-- A concrete LP state over `T = ℤ` with time-ordered checkpoint,
used, discard and output queues, used by the C5 witness. -/
def c5TestLP : Adevs.LPState ℤ ℕ ℕ :=
  ⟨Adevs.lpTestModel, 0, 0, ⟨20, 0⟩, [], [],
    [⟨⟨1, 0⟩, 1, 20, .io⟩, ⟨⟨12, 0⟩, 1, 21, .io⟩],
    [⟨⟨11, 0⟩, 0, 22, .io⟩],
    [⟨⟨3, 0⟩, 0, 23, .io⟩],
    [⟨⟨0, 0⟩, 7⟩, ⟨⟨2, 0⟩, 8⟩, ⟨⟨8, 0⟩, 9⟩], false, ⟨0, 0⟩⟩

end Adevs

/-- Witness for C5: on the concrete LP state with `gvt = (10, 0)`, the
sortedness hypotheses hold and fossil collection keeps exactly the
non-fossil used messages and leaves no checkpoint whose successor is
older than `gvt`. -/
theorem Adevs.c5_fossil_collect_witness :
    Adevs.c5TestLP.used.Pairwise (fun a b => a.t ≤ b.t) ∧
    (Adevs.fossilCollect ⟨10, 0⟩ Adevs.c5TestLP).1.used =
      Adevs.c5TestLP.used.filter (fun m => decide ¬ m.t < (⟨10, 0⟩ : Adevs.STime ℤ)) ∧
    (∀ c ∈ ((Adevs.fossilCollect (⟨10, 0⟩ : Adevs.STime ℤ) Adevs.c5TestLP).1.chk_pt).tail,
      ¬ c.t < (⟨10, 0⟩ : Adevs.STime ℤ)) :=
  ⟨by decide,
   (Adevs.c5_fossil_collect ⟨10, 0⟩ Adevs.c5TestLP (by decide) (by decide)
      (by decide) (by decide)).2.2.1,
   (Adevs.c5_fossil_collect ⟨10, 0⟩ Adevs.c5TestLP (by decide) (by decide)
      (by decide) (by decide)).2.1⟩

namespace Adevs

variable {T V σ : Type} [LinearOrderedRing T]

theorem insert_message_perm (l : List (Msg T V)) (msg : Msg T V) :
    (insert_message l msg).Perm (msg :: l) := by
  induction l with
  | nil => exact List.Perm.refl _
  | cons m rest ih =>
      rw [insert_message]
      by_cases hc : msg.t < m.t
      · rw [if_pos hc]
      · rw [if_neg hc]
        exact (ih.cons m).trans (List.Perm.swap msg m rest)

theorem moveBadOutputs_fst (mt : STime T) (rev d : List (Msg T V))
    (hs : rev.Pairwise (fun a b => b.t ≤ a.t)) :
    (moveBadOutputs mt rev d).1 = rev.filter (fun m => decide ¬ mt < m.t) := by
  induction rev generalizing d with
  | nil => rfl
  | cons m rest ih =>
      rcases List.pairwise_cons.mp hs with ⟨hm, hrest⟩
      by_cases hc : mt < m.t
      · rw [moveBadOutputs, if_pos hc, ih _ hrest, List.filter_cons,
          decide_eq_false (not_not_intro hc)]
        rfl
      · rw [moveBadOutputs, if_neg hc]
        symm
        apply List.filter_eq_self.mpr
        intro x hx
        apply decide_eq_true
        rcases List.mem_cons.mp hx with rfl | hx
        · exact hc
        · exact fun hlt => hc (hlt.trans_le (hm x hx))

theorem moveBadOutputs_snd (mt : STime T) (rev d : List (Msg T V))
    (hs : rev.Pairwise (fun a b => b.t ≤ a.t)) :
    (moveBadOutputs mt rev d).2.Perm
      (d ++ rev.filter (fun m => decide (mt < m.t))) := by
  induction rev generalizing d with
  | nil => simp [moveBadOutputs]
  | cons m rest ih =>
      rcases List.pairwise_cons.mp hs with ⟨hm, hrest⟩
      by_cases hc : mt < m.t
      · rw [moveBadOutputs, if_pos hc, List.filter_cons, decide_eq_true hc, if_pos rfl]
        refine (ih (insert_message d m) hrest).trans ?_
        refine (List.Perm.append_right _ (insert_message_perm d m)).trans ?_
        exact (List.perm_middle).symm
      · rw [moveBadOutputs, if_neg hc]
        have hnil : (m :: rest).filter (fun m => decide (mt < m.t)) = [] := by
          apply List.filter_eq_nil_iff.mpr
          intro x hx
          rcases List.mem_cons.mp hx with rfl | hx
          · simpa using hc
          · intro hdec
            exact hc ((of_decide_eq_true hdec).trans_le (hm x hx))
        rw [hnil, List.append_nil]

theorem popBadChk_spec (mt : STime T) (rev : List (ChkPt T σ))
    (hs : rev.Pairwise (fun a b => b.t ≤ a.t)) (res : List (ChkPt T σ))
    (h : popBadChk mt rev = some res) :
    res = rev.filter (fun c => decide ¬ mt < c.t) := by
  induction rev with
  | nil => cases h
  | cons c rest ih =>
      rcases List.pairwise_cons.mp hs with ⟨hm, hrest⟩
      by_cases hc : mt < c.t
      · rw [popBadChk, if_pos hc] at h
        rw [ih hrest h, List.filter_cons, decide_eq_false (not_not_intro hc)]
        rfl
      · rw [popBadChk, if_neg hc] at h
        cases h
        symm
        apply List.filter_eq_self.mpr
        intro x hx
        apply decide_eq_true
        rcases List.mem_cons.mp hx with rfl | hx
        · exact hc
        · exact fun hlt => hc (hlt.trans_le (hm x hx))

theorem moveUsedBack_spec (tl : STime T) (rev a : List (Msg T V))
    (hs : rev.Pairwise (fun x y => y.t ≤ x.t)) :
    (moveUsedBack tl rev a).1 = rev.filter (fun m => decide ¬ tl ≤ m.t) ∧
    (moveUsedBack tl rev a).2 =
      (rev.filter (fun m => decide (tl ≤ m.t))).reverse ++ a := by
  induction rev generalizing a with
  | nil => exact ⟨rfl, rfl⟩
  | cons m rest ih =>
      rcases List.pairwise_cons.mp hs with ⟨hm, hrest⟩
      by_cases hc : tl ≤ m.t
      · constructor
        · rw [moveUsedBack, if_pos hc, (ih (m :: a) hrest).1, List.filter_cons,
            decide_eq_false (not_not_intro hc)]
          rfl
        · rw [moveUsedBack, if_pos hc, (ih (m :: a) hrest).2, List.filter_cons,
            decide_eq_true hc, if_pos rfl, List.reverse_cons, List.append_assoc]
          rfl
      · have hall : ∀ x ∈ m :: rest, ¬ tl ≤ x.t := by
          intro x hx
          rcases List.mem_cons.mp hx with rfl | hx
          · exact hc
          · exact fun hle => hc (hle.trans (hm x hx))
        constructor
        · rw [moveUsedBack, if_neg hc]
          symm
          exact List.filter_eq_self.mpr (fun x hx => decide_eq_true (hall x hx))
        · rw [moveUsedBack, if_neg hc]
          have hnil : (m :: rest).filter (fun m => decide (tl ≤ m.t)) = [] := by
            apply List.filter_eq_nil_iff.mpr
            intro x hx
            simpa using hall x hx
          rw [hnil]
          rfl

end Adevs

namespace Adevs

variable {T V σ : Type} [LinearOrderedRing T]

theorem rollback_ok_spec (s : LPState T V σ) (mt : STime T) (s' : LPState T V σ)
    (hout : s.output.Pairwise (fun a b => a.t ≤ b.t))
    (hchk : s.chk_pt.Pairwise (fun a b => a.t ≤ b.t))
    (hused : s.used.Pairwise (fun a b => a.t ≤ b.t))
    (h : rollback s mt = Except.ok s') :
    ∃ c : ChkPt T σ,
      (s.chk_pt.filter (fun c => decide ¬ mt < c.t)).getLast? = some c ∧
      s'.tL = c.t ∧ s'.st = c.data ∧
      s'.time_advance = s.model.ta c.data ∧
      s'.chk_pt = (s.chk_pt.filter (fun c => decide ¬ mt < c.t)).dropLast ∧
      s'.output = s.output.filter (fun m => decide ¬ mt < m.t) ∧
      s'.discard.Perm (s.discard ++ s.output.filter (fun m => decide (mt < m.t))) ∧
      s'.used = s.used.filter (fun m => decide ¬ c.t ≤ m.t) ∧
      s'.avail = s.used.filter (fun m => decide (c.t ≤ m.t)) ++ s.avail ∧
      s'.rb_pending = true ∧
      ((s.rb_pending = true ∧ s.rb_time < mt + ⟨0, 1⟩) → s'.rb_time = s.rb_time) ∧
      (¬(s.rb_pending = true ∧ s.rb_time < mt + ⟨0, 1⟩) →
        s'.rb_time = mt + ⟨0, 1⟩) := by
  have hrevout : s.output.reverse.Pairwise (fun a b => b.t ≤ a.t) :=
    List.pairwise_reverse.mpr hout
  have hrevchk : s.chk_pt.reverse.Pairwise (fun a b => b.t ≤ a.t) :=
    List.pairwise_reverse.mpr hchk
  have hrevused : s.used.reverse.Pairwise (fun a b => b.t ≤ a.t) :=
    List.pairwise_reverse.mpr hused
  rw [rollback] at h
  rcases hpop : popBadChk mt s.chk_pt.reverse with _ | L
  · rw [hpop] at h
    cases h
  rcases L with _ | ⟨c, revChk⟩
  · rw [hpop] at h
    cases h
  rw [hpop] at h
  dsimp only at h
  by_cases hta : s.model.ta c.data < 0
  · rw [if_pos hta] at h
    cases h
  rw [if_neg hta] at h
  have hs' : s' = _ := (Except.ok.inj h).symm
  have hfil : c :: revChk =
      (s.chk_pt.filter (fun c => decide ¬ mt < c.t)).reverse := by
    rw [← List.filter_reverse]
    exact popBadChk_spec mt s.chk_pt.reverse hrevchk _ hpop
  have hfil2 : s.chk_pt.filter (fun c => decide ¬ mt < c.t) =
      revChk.reverse ++ [c] := by
    have h2 := congrArg List.reverse hfil
    rw [List.reverse_reverse] at h2
    rw [← h2, List.reverse_cons]
  have hmove := moveUsedBack_spec c.t s.used.reverse s.avail hrevused
  refine ⟨c, ?_, ?_, ?_, ?_, ?_, ?_, ?_, ?_, ?_, ?_, ?_, ?_⟩
  · rw [hfil2, List.getLast?_concat]
  · rw [hs']
  · rw [hs']
  · rw [hs']
  · rw [hs']
    show revChk.reverse = _
    rw [hfil2, List.dropLast_concat]
  · rw [hs']
    show (moveBadOutputs mt s.output.reverse s.discard).1.reverse = _
    rw [moveBadOutputs_fst mt s.output.reverse s.discard hrevout,
      List.filter_reverse, List.reverse_reverse]
  · rw [hs']
    show (moveBadOutputs mt s.output.reverse s.discard).2.Perm _
    refine (moveBadOutputs_snd mt s.output.reverse s.discard hrevout).trans ?_
    rw [List.filter_reverse]
    exact List.Perm.append_left _ (List.reverse_perm _)
  · rw [hs']
    show (moveUsedBack c.t s.used.reverse s.avail).1.reverse = _
    rw [hmove.1, List.filter_reverse, List.reverse_reverse]
  · rw [hs']
    show (moveUsedBack c.t s.used.reverse s.avail).2 = _
    rw [hmove.2, List.filter_reverse, List.reverse_reverse]
  · rw [hs']
  · rw [hs']
    rintro ⟨hp, hlt⟩
    show (if ¬s.rb_pending = true ∨ mt + ⟨0, 1⟩ < s.rb_time then mt + ⟨0, 1⟩
      else s.rb_time) = s.rb_time
    rw [if_neg]
    rintro (hnp | hlt2)
    · exact hnp hp
    · exact absurd hlt (lt_asymm hlt2)
  · rw [hs']
    intro hn
    show (if ¬s.rb_pending = true ∨ mt + ⟨0, 1⟩ < s.rb_time then mt + ⟨0, 1⟩
      else s.rb_time) = mt + ⟨0, 1⟩
    by_cases hcond : ¬s.rb_pending = true ∨ mt + ⟨0, 1⟩ < s.rb_time
    · rw [if_pos hcond]
    · rw [if_neg hcond]
      push_neg at hcond
      rcases hcond with ⟨hp, hge⟩
      exact le_antisymm hge (not_lt.mp (fun hlt => hn ⟨hp, hlt⟩))

end Adevs

/-! ### Claim C3 -/

/-- C3: in `execDeltfunc`, a drained IO message with timestamp before
`tL`, or an RB message that cancels a message already in the used
queue, triggers the rollback; and a successful rollback at time `mt`
(on time-ordered queues) moves every output newer than `mt` from the
output queue to the discard queue, pops every checkpoint newer than
`mt`, restores state, `tL` and a refreshed `ta` from the
chronologically latest remaining checkpoint (which is itself popped),
returns the used messages with timestamp at least the new `tL` to the
front of the avail queue, and raises a pending rollback at
`mt + (0, 1)` unless a smaller pending rollback time already exists. -/
theorem Adevs.c3_rollback_on_straggler {T V σ : Type} [LinearOrderedRing T] :
    (∀ (s : Adevs.LPState T V σ) (msg : Adevs.Msg T V),
      msg.type = Adevs.MsgType.io → msg.t < s.tL →
      Adevs.processMessage s msg =
        Adevs.rollback { s with avail := Adevs.insert_message s.avail msg } msg.t) ∧
    (∀ (s : Adevs.LPState T V σ) (msg : Adevs.Msg T V),
      msg.type = Adevs.MsgType.RB →
      (Adevs.rbEraseUsed msg.src msg.t s.used).2 = true →
      Adevs.processMessage s msg =
        Adevs.rollback
          { s with avail := Adevs.rbErase msg.src msg.t s.avail
                   used := (Adevs.rbEraseUsed msg.src msg.t s.used).1 } msg.t) ∧
    (∀ (s : Adevs.LPState T V σ) (mt : Adevs.STime T) (s' : Adevs.LPState T V σ),
      s.output.Pairwise (fun a b => a.t ≤ b.t) →
      s.chk_pt.Pairwise (fun a b => a.t ≤ b.t) →
      s.used.Pairwise (fun a b => a.t ≤ b.t) →
      Adevs.rollback s mt = Except.ok s' →
      ∃ c : Adevs.ChkPt T σ,
        (s.chk_pt.filter (fun c => decide ¬ mt < c.t)).getLast? = some c ∧
        s'.tL = c.t ∧ s'.st = c.data ∧
        s'.time_advance = s.model.ta c.data ∧
        s'.chk_pt = (s.chk_pt.filter (fun c => decide ¬ mt < c.t)).dropLast ∧
        s'.output = s.output.filter (fun m => decide ¬ mt < m.t) ∧
        s'.discard.Perm
          (s.discard ++ s.output.filter (fun m => decide (mt < m.t))) ∧
        s'.used = s.used.filter (fun m => decide ¬ c.t ≤ m.t) ∧
        s'.avail = s.used.filter (fun m => decide (c.t ≤ m.t)) ++ s.avail ∧
        s'.rb_pending = true ∧
        ((s.rb_pending = true ∧ s.rb_time < mt + ⟨0, 1⟩) →
          s'.rb_time = s.rb_time) ∧
        (¬(s.rb_pending = true ∧ s.rb_time < mt + ⟨0, 1⟩) →
          s'.rb_time = mt + ⟨0, 1⟩)) := by
  refine ⟨?_, ?_, ?_⟩
  · intro s msg htype hlt
    simp [Adevs.processMessage, htype, hlt]
  · intro s msg htype hflag
    simp [Adevs.processMessage, htype, hflag]
  · intro s mt s' hout hchk hused h
    exact Adevs.rollback_ok_spec s mt s' hout hchk hused h

namespace Adevs

/-- A concrete LP state over `T = ℤ` used by the C3 witness for the
dispatch part: `tL = (9, 0)`, so an IO message at `(5, 0)` is a
straggler. -/
def c3TestLP : Adevs.LPState ℤ ℕ ℕ :=
  ⟨Adevs.lpTestModel, 99, 5, ⟨9, 0⟩, [], [], [], [], [],
    [⟨⟨0, 0⟩, 50⟩], false, ⟨0, 0⟩⟩

/-- The straggler IO message of the C3 witness. -/
def c3TestMsg : Adevs.Msg ℤ ℕ := ⟨⟨5, 0⟩, 0, 42, .io⟩

/-- A concrete LP state over `T = ℤ` on which the C3 witness runs the
rollback at time `(5, 0)`: two outputs at `(4,0)` and `(8,0)`, two
used messages at `(2,0)` and `(6,0)`, checkpoints at `(0,0)`, `(3,0)`
and `(7,0)`. -/
def c3RbLP : Adevs.LPState ℤ ℕ ℕ :=
  ⟨Adevs.lpTestModel, 99, 5, ⟨9, 0⟩, [], [],
    [⟨⟨2, 0⟩, 0, 1, .io⟩, ⟨⟨6, 0⟩, 0, 2, .io⟩],
    [⟨⟨4, 0⟩, 0, 3, .io⟩, ⟨⟨8, 0⟩, 0, 4, .io⟩],
    [],
    [⟨⟨0, 0⟩, 50⟩, ⟨⟨3, 0⟩, 60⟩, ⟨⟨7, 0⟩, 70⟩], false, ⟨0, 0⟩⟩

/-- The state produced by rolling `c3RbLP` back to time `(5, 0)`. -/
def c3After : Adevs.LPState ℤ ℕ ℕ :=
  ⟨Adevs.lpTestModel, 60, 0, ⟨3, 0⟩, [],
    [⟨⟨6, 0⟩, 0, 2, .io⟩],
    [⟨⟨2, 0⟩, 0, 1, .io⟩],
    [⟨⟨4, 0⟩, 0, 3, .io⟩],
    [⟨⟨8, 0⟩, 0, 4, .io⟩],
    [⟨⟨0, 0⟩, 50⟩], true, ⟨5, 1⟩⟩

theorem c3_run : Adevs.rollback Adevs.c3RbLP ⟨5, 0⟩ = Except.ok Adevs.c3After := by
  rfl

end Adevs

/-- Witness for C3: the straggler IO message dispatches to the
rollback, and the concrete rollback run restores the checkpoint at
`(3, 0)`, moves the output at `(8, 0)` to discard, returns the used
message at `(6, 0)` to avail, and raises a pending rollback at
`(5, 1)`. -/
theorem Adevs.c3_rollback_on_straggler_witness :
    (Adevs.c3TestMsg.type = Adevs.MsgType.io ∧
      Adevs.c3TestMsg.t < Adevs.c3TestLP.tL ∧
      Adevs.processMessage Adevs.c3TestLP Adevs.c3TestMsg =
        Adevs.rollback
          { Adevs.c3TestLP with
              avail := Adevs.insert_message Adevs.c3TestLP.avail Adevs.c3TestMsg }
          Adevs.c3TestMsg.t) ∧
    (∃ c : Adevs.ChkPt ℤ ℕ,
      (Adevs.c3RbLP.chk_pt.filter
        (fun c => decide ¬ (⟨5, 0⟩ : Adevs.STime ℤ) < c.t)).getLast? = some c ∧
      Adevs.c3After.tL = c.t ∧ Adevs.c3After.st = c.data ∧
      Adevs.c3After.time_advance = Adevs.c3RbLP.model.ta c.data ∧
      Adevs.c3After.chk_pt = (Adevs.c3RbLP.chk_pt.filter
        (fun c => decide ¬ (⟨5, 0⟩ : Adevs.STime ℤ) < c.t)).dropLast ∧
      Adevs.c3After.output = Adevs.c3RbLP.output.filter
        (fun m => decide ¬ (⟨5, 0⟩ : Adevs.STime ℤ) < m.t) ∧
      Adevs.c3After.discard.Perm (Adevs.c3RbLP.discard ++
        Adevs.c3RbLP.output.filter
          (fun m => decide ((⟨5, 0⟩ : Adevs.STime ℤ) < m.t))) ∧
      Adevs.c3After.used = Adevs.c3RbLP.used.filter
        (fun m => decide ¬ c.t ≤ m.t) ∧
      Adevs.c3After.avail = Adevs.c3RbLP.used.filter
        (fun m => decide (c.t ≤ m.t)) ++ Adevs.c3RbLP.avail ∧
      Adevs.c3After.rb_pending = true ∧
      ((Adevs.c3RbLP.rb_pending = true ∧
          Adevs.c3RbLP.rb_time < (⟨5, 0⟩ : Adevs.STime ℤ) + ⟨0, 1⟩) →
        Adevs.c3After.rb_time = Adevs.c3RbLP.rb_time) ∧
      (¬(Adevs.c3RbLP.rb_pending = true ∧
          Adevs.c3RbLP.rb_time < (⟨5, 0⟩ : Adevs.STime ℤ) + ⟨0, 1⟩) →
        Adevs.c3After.rb_time = (⟨5, 0⟩ : Adevs.STime ℤ) + ⟨0, 1⟩)) :=
  ⟨⟨rfl, by decide,
    Adevs.c3_rollback_on_straggler.1 Adevs.c3TestLP Adevs.c3TestMsg rfl (by decide)⟩,
   Adevs.c3_rollback_on_straggler.2.2 Adevs.c3RbLP ⟨5, 0⟩ Adevs.c3After
     (by decide) (by decide) (by decide) Adevs.c3_run⟩

namespace Adevs

namespace Seq

/-! ## The sequential Simulator

Embedding of `Simulator<ValueType, TimeType>` and its helpers from the
simulator header.  `TimeType` stays a generic linearly ordered ring
`T`, as in the C++ template; the constants `adevs_inf<TimeType>()` and
`adevs_epsilon<TimeType>()` (whose defining header is not under src/)
become the per-simulator fields `inf` and `eps`, and
`adevs_zero<TimeType>()` is `0`.  Atomic models are identified by
numeric ids standing for the C++ pointers; their virtual methods are
function-valued fields.  The points where the simulator calls a model
method or notifies an `EventListener` are recorded in an event trace
field so that ordering claims can be stated. -/

/-- A `PinValue`: an output or input as a (pin, value) pair.  Pins are
numeric ids. -/
structure PinValue (V : Type) where
  pin : ℕ
  value : V
  deriving DecidableEq, Repr

/-- Which output function of a model was invoked. -/
inductive OutKind where
  /-- `output_func` of a non-Mealy (Moore) model. -/
  | moore
  /-- `output_func` of a MealyAtomic (imminent with no input). -/
  | mealyInt
  /-- `confluent_output_func` of a MealyAtomic. -/
  | mealyConf
  /-- `external_output_func` of a MealyAtomic. -/
  | mealyExt
  deriving DecidableEq, Repr

/-- Which state transition function of a model was invoked, with its
arguments. -/
inductive TransKind (T V : Type) where
  | int
  | conf (xs : List (PinValue V))
  | ext (e : T) (xs : List (PinValue V))
  deriving DecidableEq, Repr

/-- Trace events: each marks a point where the C++ simulator calls a
model method or notifies the registered `EventListener`s. -/
inductive Ev (T V : Type) where
  /-- The `listener->outputEvent(*model, y, tNext)` notification point. -/
  | outputEvent (aid : ℕ) (y : PinValue V)
  /-- The `consumer.second->inputs.push_back(x)` delivery point. -/
  | inputDelivered (aid : ℕ) (x : PinValue V)
  /-- An output function call on model `aid`. -/
  | outputComputed (aid : ℕ) (k : OutKind)
  /-- The `listener->inputEvent(*model, x, tNext)` notification point. -/
  | inputEvent (aid : ℕ) (x : PinValue V)
  /-- A `delta_int`/`delta_conf`/`delta_ext` call on model `aid`. -/
  | transition (aid : ℕ) (k : TransKind T V)
  /-- The `listener->stateChange(*model, tNext)` notification point. -/
  | stateChange (aid : ℕ)
  deriving DecidableEq, Repr

/-- One `Atomic` (or `MealyAtomic`, when `isMealy`) model as the
simulator sees it: its virtual methods, its private state `st`, and
the engine-owned fields `tL`, `tN`, `inputs`, `outputs`. -/
structure AtomicEntry (T V σ : Type) where
  isMealy : Bool
  ta : σ → T
  delta_int : σ → σ
  delta_ext : T → List (PinValue V) → σ → σ
  delta_conf : List (PinValue V) → σ → σ
  output_fn : σ → List (PinValue V)
  confluent_output_fn : List (PinValue V) → σ → List (PinValue V)
  external_output_fn : T → List (PinValue V) → σ → List (PinValue V)
  st : σ
  tL : T
  tN : T
  inputs : List (PinValue V)
  outputs : List (PinValue V)

/-- A provisional structure mutation (`Graph::graph_op`). -/
inductive GraphOp (T V σ : Type) where
  | addAtomic (aid : ℕ) (e : AtomicEntry T V σ)
  | removeAtomic (aid : ℕ)
  | removePin (p : ℕ)
  | connectPins (p q : ℕ)
  | disconnectPins (p q : ℕ)
  | connectPinAtomic (p : ℕ) (aid : ℕ)
  | disconnectPinAtomic (p : ℕ) (aid : ℕ)

/-- Modelled from the spec: the `Graph` coupling model (adevs/graph.h
is not under src/).  Spec §3.3: a set of owned atomics, pin→pin edges,
pin→atomic edges, and a provisional-mode mutation buffer. -/
structure GraphData (T V σ : Type) where
  atomics : List (ℕ × AtomicEntry T V σ)
  p2p : List (ℕ × ℕ)
  p2a : List (ℕ × ℕ)
  provisional : Bool
  pending : List (GraphOp T V σ)

/-- Modelled from the spec: `Graph::route(pin, value)` "yields the
list of (pin, receiving atomic) pairs by transitive closure over
pin→pin edges terminating at pin→atomic edges" (spec §3.3).  The fuel
argument bounds the closure depth. -/
def routeFuel {T V σ : Type} (g : GraphData T V σ) : ℕ → ℕ → List (ℕ × ℕ)
  | 0, _ => []
  | fuel + 1, p =>
      (g.p2a.filter (fun e => decide (e.1 = p))).map (fun e => (p, e.2)) ++
      (g.p2p.filter (fun e => decide (e.1 = p))).foldr
        (fun e acc => routeFuel g fuel e.2 ++ acc) []

/-- `Graph::route` with fuel that covers every acyclic pin path. -/
def route {T V σ : Type} (g : GraphData T V σ) (p : ℕ) : List (ℕ × ℕ) :=
  routeFuel g (g.p2p.length + 1) p

/-- The state of a `Simulator`: the graph, the externally injected
inputs, the active set, the schedule, `tNext`, the time constants, and
the event trace. -/
structure SimState (T V σ : Type) where
  graph : GraphData T V σ
  external_input : List (PinValue V)
  active : List ℕ
  sched : List (ℕ × T)
  tNext : T
  inf : T
  eps : T
  trace : List (Ev T V)

/-- The errors with which a simulation call aborts: the
"Negative time advance" and "Feedback loop of Mealy models is illegal"
`adevs::exception`s (each carrying the offending model), a routing
target with no entry in the graph (impossible in the C++, where the
graph hands back its own atomics), and exhaustion of the fuel that
bounds the Mealy output loop. -/
inductive SimErr where
  | negativeTa (aid : ℕ)
  | mealyFeedback (aid : ℕ)
  | badId (aid : ℕ)
  | fuelExhausted
  deriving DecidableEq, Repr

variable {T V σ : Type} [LinearOrderedRing T]

/-- Modelled from the spec: `Schedule::schedule(atomic, t)` inserts or
updates the key of an atomic (spec §4.1). -/
def schedPut (sched : List (ℕ × T)) (aid : ℕ) (t : T) : List (ℕ × T) :=
  if sched.any (fun e => decide (e.1 = aid)) then
    sched.map (fun e => if e.1 = aid then (aid, t) else e)
  else sched ++ [(aid, t)]

/-- Modelled from the spec: `Schedule::minPriority()` peeks the
smallest key and returns `+∞` (here `inf`) if the schedule is empty
(spec §4.1). -/
def minPriority (inf : T) (sched : List (ℕ × T)) : T :=
  sched.foldr (fun e acc => min e.2 acc) inf

/-- Modelled from the spec: `Schedule::visitImminent()` returns all
atomics whose key equals `minPriority()` (spec §4.1). -/
def visitImminent (inf : T) (sched : List (ℕ × T)) : List ℕ :=
  (sched.filter (fun e => decide (e.2 = minPriority inf sched))).map Prod.fst

/-- Find the atomic with the given id in the graph. -/
def lookupA (s : SimState T V σ) (aid : ℕ) : Option (AtomicEntry T V σ) :=
  (s.graph.atomics.find? (fun e => decide (e.1 = aid))).map Prod.snd

/-- Replace the entry of the atomic with the given id. -/
def updateA (s : SimState T V σ) (aid : ℕ)
    (f : AtomicEntry T V σ → AtomicEntry T V σ) : SimState T V σ :=
  { s with graph := { s.graph with
      atomics := s.graph.atomics.map
        (fun e => if e.1 = aid then (e.1, f e.2) else e) } }

/-- `Simulator::schedule(model, t)`: set `tL := t`, compute
`dt := ta()`; at `dt = ∞` schedule at infinity, otherwise set
`tN := tL + dt`, reject a negative `dt` with the "Negative time
advance" exception, and insert the atomic into the schedule at `tN`. -/
def scheduleA (s : SimState T V σ) (aid : ℕ) (t : T) :
    Except SimErr (SimState T V σ) :=
  match lookupA s aid with
  | none => .error (.badId aid)
  | some e =>
      let dt := e.ta e.st
      if dt = s.inf then
        let s1 := updateA s aid (fun e0 => { e0 with tL := t, tN := s.inf })
        .ok { s1 with sched := schedPut s1.sched aid s1.inf }
      else
        if dt < 0 then .error (.negativeTa aid)
        else
          let s1 := updateA s aid (fun e0 => { e0 with tL := t, tN := t + dt })
          .ok { s1 with sched := schedPut s1.sched aid (t + dt) }

end Seq

end Adevs

namespace Adevs

namespace Seq

variable {T V σ : Type} [LinearOrderedRing T]

/-- The loop state of `computeNextOutput`: the simulator state plus
the local `pending_active` set of Mealy models whose output is still
to be computed. -/
structure OutSt (T V σ : Type) where
  sim : SimState T V σ
  pending : List ℕ

variable [DecidableEq V]

/-- Append a trace event. -/
def pushTrace (ev : Ev T V) (o : OutSt T V σ) : OutSt T V σ :=
  { o with sim := { o.sim with trace := o.sim.trace ++ [ev] } }

/-- `active.insert(model)` (a `std::set` insert: no duplicates). -/
def addActive (aid : ℕ) (o : OutSt T V σ) : OutSt T V σ :=
  if aid ∈ o.sim.active then o
  else { o with sim := { o.sim with active := o.sim.active ++ [aid] } }

/-- `pending_active.insert(model)` (a `std::set` insert). -/
def addPending (aid : ℕ) (o : OutSt T V σ) : OutSt T V σ :=
  if aid ∈ o.pending then o else { o with pending := o.pending ++ [aid] }

/-- `consumer.second->inputs.push_back(x)`, recorded in the trace. -/
def pushInput (aid : ℕ) (x : PinValue V) (o : OutSt T V σ) : OutSt T V σ :=
  pushTrace (.inputDelivered aid x)
    { o with sim := updateA o.sim aid (fun e => { e with inputs := e.inputs ++ [x] }) }

/-- Deliver one routed value to its resolved consumers: Mealy
receivers join `pending_active` and the rest join `active`, and each
receives the (pin, value) pair on its input list.  When `check` is set
(the Mealy output loop), delivery to a Mealy model already in `active`
raises the "Feedback loop of Mealy models is illegal" exception
carrying the emitting model `src`. -/
def deliver (check : Bool) (src : ℕ) (v : V) :
    List (ℕ × ℕ) → OutSt T V σ → Except SimErr (OutSt T V σ)
  | [], o => .ok o
  | (pin, aid) :: rest, o =>
      match lookupA o.sim aid with
      | none => .error (.badId aid)
      | some e =>
          if e.isMealy then
            if check = true ∧ aid ∈ o.sim.active then .error (.mealyFeedback src)
            else deliver check src v rest (pushInput aid ⟨pin, v⟩ (addPending aid o))
          else deliver check src v rest (pushInput aid ⟨pin, v⟩ (addActive aid o))

/-- Notify the listeners of one output value of model `src` and route
it through the graph to its consumers. -/
def routeOutput (check : Bool) (src : ℕ) (y : PinValue V) (o : OutSt T V σ) :
    Except SimErr (OutSt T V σ) :=
  deliver check src y.value (route o.sim.graph y.pin)
    (pushTrace (.outputEvent src y) o)

/-- Route a list of output values of model `src` in order. -/
def routeOutputs (check : Bool) (src : ℕ) :
    List (PinValue V) → OutSt T V σ → Except SimErr (OutSt T V σ)
  | [], o => .ok o
  | y :: rest, o =>
      match routeOutput check src y o with
      | .error e => .error e
      | .ok o1 => routeOutputs check src rest o1

/-- Step 1 of `computeNextOutput`: undo the prior output calculation
(clear the `outputs` and `inputs` of every model still in the active
set) and clear the active set. -/
def clearActive (s : SimState T V σ) : SimState T V σ :=
  { s.active.foldl
      (fun s1 aid => updateA s1 aid (fun e => { e with outputs := [], inputs := [] }))
      s with active := [] }

/-- Step 2 of `computeNextOutput`: route each externally supplied
(injected) input through the graph and deliver it (Mealy consumers
pend, others activate).  No listener notification and no feedback
check happen here. -/
def routeInjected :
    List (PinValue V) → OutSt T V σ → Except SimErr (OutSt T V σ)
  | [], o => .ok o
  | y :: rest, o =>
      match deliver false 0 y.value (route o.sim.graph y.pin) o with
      | .error e => .error e
      | .ok o1 => routeInjected rest o1

/-- Step 3 of `computeNextOutput`: for each imminent model, defer a
Mealy model to `pending_active`; otherwise activate it, call its
`output_func` (which appends to its `outputs`), notify the listeners
and route each output value. -/
def imminentPhase :
    List ℕ → OutSt T V σ → Except SimErr (OutSt T V σ)
  | [], o => .ok o
  | aid :: rest, o =>
      match lookupA o.sim aid with
      | none => .error (.badId aid)
      | some e =>
          if e.isMealy then imminentPhase rest (addPending aid o)
          else
            let ys := e.outputs ++ e.output_fn e.st
            let o1 := pushTrace (.outputComputed aid .moore)
              { (addActive aid o) with
                sim := updateA (addActive aid o).sim aid
                  (fun e0 => { e0 with outputs := ys }) }
            match routeOutputs false aid ys o1 with
            | .error er => .error er
            | .ok o2 => imminentPhase rest o2

/-- Step 4 of `computeNextOutput`: while `pending_active` is not
empty, move one Mealy model into `active` (its output is now
committed), call the appropriate Mealy output function —
`output_func()` when imminent with no input, `confluent_output_func`
when imminent with input, `external_output_func(tNext - tL, inputs)`
otherwise — and route the outputs with the feedback check on.  The
fuel bounds the loop; the C++ loop terminates because each iteration
moves one model into `active` and models in `active` are never
re-pended (the feedback exception fires instead). -/
def pendingLoop : ℕ → OutSt T V σ → Except SimErr (OutSt T V σ)
  | 0, o => match o.pending with
      | [] => .ok o
      | _ :: _ => .error .fuelExhausted
  | fuel + 1, o =>
      match o.pending with
      | [] => .ok o
      | aid :: rest =>
          match lookupA o.sim aid with
          | none => .error (.badId aid)
          | some e =>
              let yk : List (PinValue V) × OutKind :=
                if e.inputs = [] ∧ e.tN = o.sim.tNext then
                  (e.output_fn e.st, .mealyInt)
                else if e.tN = o.sim.tNext then
                  (e.confluent_output_fn e.inputs e.st, .mealyConf)
                else
                  (e.external_output_fn (o.sim.tNext - e.tL) e.inputs e.st, .mealyExt)
              let ys := e.outputs ++ yk.1
              let o1 := addActive aid { o with pending := rest }
              let o2 := pushTrace (.outputComputed aid yk.2)
                { o1 with sim := updateA o1.sim aid (fun e0 => { e0 with outputs := ys }) }
              match routeOutputs true aid ys o2 with
              | .error er => .error er
              | .ok o3 => pendingLoop fuel o3

/-- `Simulator::computeNextOutput()`: undo the previous output
calculation, route the injected inputs (clearing the buffer), route
the output of the Moore imminent models when the schedule minimum
equals `tNext`, then compute and route the Mealy outputs. -/
def computeNextOutput (s : SimState T V σ) : Except SimErr (SimState T V σ) :=
  let s1 := clearActive s
  match routeInjected s1.external_input ⟨{ s1 with external_input := [] }, []⟩ with
  | .error e => .error e
  | .ok o1 =>
      match (if minPriority o1.sim.inf o1.sim.sched = o1.sim.tNext then
              imminentPhase (visitImminent o1.sim.inf o1.sim.sched) o1
             else .ok o1) with
      | .error e => .error e
      | .ok o2 =>
          match pendingLoop (o2.sim.graph.atomics.length + o2.pending.length + 1) o2 with
          | .error e => .error e
          | .ok o3 => .ok o3.sim

/-- The pipeline of `computeNextOutput` with the imminent-model phase
skipped: what the call does when the schedule minimum differs from
`tNext` (only injected inputs and the Mealy outputs they trigger are
processed). -/
def computeInjectedOnly (s : SimState T V σ) : Except SimErr (SimState T V σ) :=
  let s1 := clearActive s
  match routeInjected s1.external_input ⟨{ s1 with external_input := [] }, []⟩ with
  | .error e => .error e
  | .ok o1 =>
      match pendingLoop (o1.sim.graph.atomics.length + o1.pending.length + 1) o1 with
      | .error e => .error e
      | .ok o3 => .ok o3.sim

end Seq

end Adevs

namespace Adevs

namespace Seq

variable {T V σ : Type} [LinearOrderedRing T] [DecidableEq V]

/-- `Simulator::injectInput(x)`: append the PinValue to the
injected-input buffer; it will be applied at the next
`computeNextOutput()`. -/
def injectInput (x : PinValue V) (s : SimState T V σ) : SimState T V σ :=
  { s with external_input := s.external_input ++ [x] }

/-- `Simulator::clearInjectedInput()`. -/
def clearInjectedInput (s : SimState T V σ) : SimState T V σ :=
  { s with external_input := [] }

/-- `Simulator::setNextTime(t)`: force `tNext := t`. -/
def setNextTime (t : T) (s : SimState T V σ) : SimState T V σ :=
  { s with tNext := t }

/-- One iteration of the `for (auto model : active)` loop of
`computeNextState`: notify the listeners of the model's input events,
dispatch the state transition (`delta_int` when the input list is
empty, `delta_conf(inputs)` when the model's `tN` equals `tNext`,
`delta_ext(tNext - tL, inputs)` otherwise, clearing the inputs in the
latter two cases), notify the state change, clear the outputs and
reschedule the model at `t`. -/
def cnsStep (tNext t : T) (s : SimState T V σ) (aid : ℕ) :
    Except SimErr (SimState T V σ) :=
  match lookupA s aid with
  | none => .error (.badId aid)
  | some e =>
      let s1 := { s with trace := s.trace ++ e.inputs.map (fun x => Ev.inputEvent aid x) }
      let r : σ × TransKind T V × List (PinValue V) :=
        if e.inputs = [] then (e.delta_int e.st, .int, e.inputs)
        else if e.tN = tNext then (e.delta_conf e.inputs e.st, .conf e.inputs, [])
        else (e.delta_ext (tNext - e.tL) e.inputs e.st,
          .ext (tNext - e.tL) e.inputs, [])
      let s2 := updateA s1 aid
        (fun e0 => { e0 with st := r.1, inputs := r.2.2, outputs := [] })
      scheduleA
        { s2 with trace := s2.trace ++ [Ev.transition aid r.2.1, Ev.stateChange aid] }
        aid t

/-- The `for (auto model : active)` loop of `computeNextState`. -/
def cnsLoop (tNext t : T) : List ℕ → SimState T V σ → Except SimErr (SimState T V σ)
  | [], s => .ok s
  | aid :: rest, s =>
      match cnsStep tNext t s aid with
      | .error e => .error e
      | .ok s1 => cnsLoop tNext t rest s1

/-- The `switch (op.op)` of `computeNextState` draining the Graph's
provisional operation queue.  The scheduler effects (`schedule` the
added atomic at `t`, move a removed atomic to infinity) are from the
simulator source; the graph mutations themselves are modelled from the
spec (§3.3), adevs/graph.h being absent from src/: removing a pin
removes the edges incident to it. -/
def drainOps (t : T) : List (GraphOp T V σ) → SimState T V σ → Except SimErr (SimState T V σ)
  | [], s => .ok s
  | op :: rest, s =>
      match op with
      | .addAtomic aid e =>
          let s1 := { s with graph :=
            { s.graph with atomics := s.graph.atomics ++ [(aid, e)] } }
          match scheduleA s1 aid t with
          | .error er => .error er
          | .ok s2 => drainOps t rest s2
      | .removeAtomic aid =>
          drainOps t rest
            { s with
                sched := schedPut s.sched aid s.inf
                graph := { s.graph with atomics :=
                  s.graph.atomics.filter (fun e => decide ¬ e.1 = aid) } }
      | .removePin p =>
          drainOps t rest
            { s with graph := { s.graph with
                p2p := s.graph.p2p.filter (fun e => decide ¬ (e.1 = p ∨ e.2 = p))
                p2a := s.graph.p2a.filter (fun e => decide ¬ e.1 = p) } }
      | .connectPins p q =>
          drainOps t rest
            { s with graph := { s.graph with p2p := s.graph.p2p ++ [(p, q)] } }
      | .disconnectPins p q =>
          drainOps t rest
            { s with graph := { s.graph with
                p2p := s.graph.p2p.filter (fun e => decide ¬ e = (p, q)) } }
      | .connectPinAtomic p aid =>
          drainOps t rest
            { s with graph := { s.graph with p2a := s.graph.p2a ++ [(p, aid)] } }
      | .disconnectPinAtomic p aid =>
          drainOps t rest
            { s with graph := { s.graph with
                p2a := s.graph.p2a.filter (fun e => decide ¬ e = (p, aid)) } }

/-- `Simulator::computeNextState()`: with `t := tNext + epsilon`,
transition every model in the active set, clear the active set, apply
the provisional structure changes, recompute
`tNext := sched.minPriority()` and return `t`. -/
def computeNextState (s : SimState T V σ) : Except SimErr (T × SimState T V σ) :=
  let t := s.tNext + s.eps
  match cnsLoop s.tNext t s.active s with
  | .error e => .error e
  | .ok s1 =>
      let s2 := { s1 with active := []
                          graph := { s1.graph with provisional := false, pending := [] } }
      match drainOps t s1.graph.pending s2 with
      | .error e => .error e
      | .ok s3 =>
          let s4 := { s3 with graph := { s3.graph with provisional := true } }
          .ok (t, { s4 with tNext := minPriority s4.inf s4.sched })

/-- `Simulator::execNextEvent()`: `computeNextOutput` then
`computeNextState`. -/
def execNextEvent (s : SimState T V σ) : Except SimErr (T × SimState T V σ) :=
  match computeNextOutput s with
  | .error e => .error e
  | .ok s1 => computeNextState s1

/-- The `Simulator(Graph)` constructor: set the graph provisional,
schedule every atomic at time zero, and set
`tNext := sched.minPriority()`. -/
def initLoop (t : T) : List ℕ → SimState T V σ → Except SimErr (SimState T V σ)
  | [], s => .ok s
  | aid :: rest, s =>
      match scheduleA s aid t with
      | .error e => .error e
      | .ok s1 => initLoop t rest s1

/-- The `Simulator(Graph)` constructor body. -/
def initSim (inf eps : T) (g : GraphData T V σ) : Except SimErr (SimState T V σ) :=
  let s0 : SimState T V σ :=
    ⟨{ g with provisional := true }, [], [], [], inf, inf, eps, []⟩
  match initLoop 0 (g.atomics.map Prod.fst) s0 with
  | .error e => .error e
  | .ok s1 => .ok { s1 with tNext := minPriority s1.inf s1.sched }

end Seq

end Adevs

namespace Adevs

namespace Seq

variable {T V σ : Type} [LinearOrderedRing T] [DecidableEq V]

/-- The priority currently stored in the schedule for an atomic. -/
def lookupSched (sched : List (ℕ × T)) (aid : ℕ) : Option T :=
  (sched.find? (fun e => decide (e.1 = aid))).map Prod.snd

omit [LinearOrderedRing T] [DecidableEq V] in
theorem lookupSched_schedPut (sched : List (ℕ × T)) (aid : ℕ) (t : T) :
    lookupSched (schedPut sched aid t) aid = some t := by
  rw [schedPut]
  by_cases hany : sched.any (fun e => decide (e.1 = aid)) = true
  · rw [if_pos hany]
    induction sched with
    | nil => cases hany
    | cons en rest ih =>
        by_cases he : en.1 = aid
        · simp [lookupSched, List.find?, he]
        · have hany2 : rest.any (fun e => decide (e.1 = aid)) = true := by
            rcases List.any_eq_true.mp hany with ⟨x, hx, hxx⟩
            rcases List.mem_cons.mp hx with rfl | hx
            · exact absurd (of_decide_eq_true hxx) he
            · exact List.any_eq_true.mpr ⟨x, hx, hxx⟩
          simp only [List.map_cons, if_neg he]
          rw [lookupSched, List.find?]
          rw [show (decide (en.1 = aid)) = false from decide_eq_false he]
          exact ih hany2
  · rw [if_neg hany]
    induction sched with
    | nil => simp [lookupSched, List.find?]
    | cons en rest ih =>
        have he : ¬ en.1 = aid := by
          intro hx
          exact hany (List.any_eq_true.mpr ⟨en, List.mem_cons_self _ _, decide_eq_true hx⟩)
        have hany2 : ¬ rest.any (fun e => decide (e.1 = aid)) = true := by
          intro hx
          rcases List.any_eq_true.mp hx with ⟨x, hx2, hxx⟩
          exact hany (List.any_eq_true.mpr ⟨x, List.mem_cons_of_mem _ hx2, hxx⟩)
        rw [List.cons_append, lookupSched, List.find?]
        rw [show (decide (en.1 = aid)) = false from decide_eq_false he]
        exact ih hany2

omit [LinearOrderedRing T] [DecidableEq V] in
theorem lookupA_updateA_self (s : SimState T V σ) (aid : ℕ)
    (f : AtomicEntry T V σ → AtomicEntry T V σ) :
    lookupA (updateA s aid f) aid = (lookupA s aid).map f := by
  rw [lookupA, lookupA, updateA]
  induction s.graph.atomics with
  | nil => rfl
  | cons en rest ih =>
      by_cases he : en.1 = aid
      · simp [List.find?, he]
      · simp only [List.map_cons, if_neg he]
        rw [List.find?, List.find?,
          show (decide (en.1 = aid)) = false from decide_eq_false he]
        exact ih

omit [LinearOrderedRing T] [DecidableEq V] in
theorem lookupA_updateA_ne (s : SimState T V σ) (aid b : ℕ)
    (f : AtomicEntry T V σ → AtomicEntry T V σ) (h : b ≠ aid) :
    lookupA (updateA s aid f) b = lookupA s b := by
  rw [lookupA, lookupA, updateA]
  induction s.graph.atomics with
  | nil => rfl
  | cons en rest ih =>
      rw [List.map_cons]
      by_cases he : en.1 = aid
      · have hb : ¬ en.1 = b := fun hx => h (by rw [← hx, he])
        rw [if_pos he,
          List.find?_cons_of_neg _ (by simpa using hb),
          List.find?_cons_of_neg _ (by simpa using hb)]
        exact ih
      · rw [if_neg he]
        by_cases hb : en.1 = b
        · rw [List.find?_cons_of_pos _ (by simpa using hb),
            List.find?_cons_of_pos _ (by simpa using hb)]
        · rw [List.find?_cons_of_neg _ (by simpa using hb),
            List.find?_cons_of_neg _ (by simpa using hb)]
          exact ih

end Seq

end Adevs

/-! ### Claim C6 -/

/-- C6: whenever the simulator schedules an atomic (the constructors
do so at time zero; `computeNextState` reschedules each transitioned
model), `Simulator::schedule` sets the atomic's `tL` to the scheduling
time and computes `dt = ta()`; a negative finite `dt` raises the
"Negative time advance" `adevs::exception` carrying the offending
model and the call aborts; otherwise `tN` becomes `tL + dt` (or `+∞`
when `dt = +∞`) and the atomic is inserted into the schedule at `tN`,
so that afterwards `tN = tL + ta()` or `ta() = +∞`. -/
theorem Adevs.Seq.c6_schedule_sets_clocks {T V σ : Type} [LinearOrderedRing T]
    (s : Adevs.Seq.SimState T V σ) (aid : ℕ) (t : T)
    (e : Adevs.Seq.AtomicEntry T V σ)
    (hlook : Adevs.Seq.lookupA s aid = some e) :
    ((e.ta e.st < 0 ∧ e.ta e.st ≠ s.inf) →
      Adevs.Seq.scheduleA s aid t = Except.error (Adevs.Seq.SimErr.negativeTa aid)) ∧
    (∀ s', Adevs.Seq.scheduleA s aid t = Except.ok s' →
      ∃ e', Adevs.Seq.lookupA s' aid = some e' ∧
        e'.tL = t ∧
        e'.tN = (if e.ta e.st = s.inf then s.inf else t + e.ta e.st) ∧
        (e'.tN = e'.tL + e.ta e.st ∨ e.ta e.st = s.inf) ∧
        e'.ta = e.ta ∧ e'.st = e.st ∧ e'.isMealy = e.isMealy ∧
        Adevs.Seq.lookupSched s'.sched aid = some e'.tN) := by
  constructor
  · rintro ⟨hneg, hninf⟩
    rw [Adevs.Seq.scheduleA, hlook]
    dsimp only
    rw [if_neg hninf, if_pos hneg]
  · intro s' hok
    rw [Adevs.Seq.scheduleA, hlook] at hok
    dsimp only at hok
    by_cases hinf : e.ta e.st = s.inf
    · rw [if_pos hinf] at hok
      have hs' := (Except.ok.inj hok).symm
      refine ⟨{ e with tL := t, tN := s.inf }, ?_, rfl, ?_, Or.inr hinf, rfl, rfl, rfl, ?_⟩
      · rw [hs']
        have hu := Adevs.Seq.lookupA_updateA_self s aid
          (fun e0 => { e0 with tL := t, tN := s.inf })
        rw [hlook] at hu
        exact hu
      · rw [if_pos hinf]
      · rw [hs']
        exact Adevs.Seq.lookupSched_schedPut _ aid _
    · rw [if_neg hinf] at hok
      by_cases hneg : e.ta e.st < 0
      · rw [if_pos hneg] at hok
        cases hok
      · rw [if_neg hneg] at hok
        have hs' := (Except.ok.inj hok).symm
        refine ⟨{ e with tL := t, tN := t + e.ta e.st }, ?_, rfl, ?_,
          Or.inl rfl, rfl, rfl, rfl, ?_⟩
        · rw [hs']
          have hu := Adevs.Seq.lookupA_updateA_self s aid
            (fun e0 => { e0 with tL := t, tN := t + e.ta e.st })
          rw [hlook] at hu
          exact hu
        · rw [if_neg hinf]
        · rw [hs']
          exact Adevs.Seq.lookupSched_schedPut _ aid _

namespace Adevs

namespace Seq

/-- A concrete Moore atomic over `T = ℤ` whose `ta()` returns its
state (here `5`), used by the C6 witness. -/
def c6Entry : AtomicEntry ℤ ℕ ℕ :=
  ⟨false, fun st => (st : ℤ), id, fun _ _ => id, fun _ => id,
    fun _ => [], fun _ _ => [], fun _ _ _ => [], 5, 0, 0, [], []⟩

/-- A concrete atomic whose `ta()` returns `-1`, used by the C6
witness for the negative-time-advance error. -/
def c6BadEntry : AtomicEntry ℤ ℕ ℕ :=
  ⟨false, fun _ => (-1 : ℤ), id, fun _ _ => id, fun _ => id,
    fun _ => [], fun _ _ => [], fun _ _ _ => [], 0, 0, 0, [], []⟩

/-- A simulator state holding only `c6Entry` (id 0). -/
def c6Sim : SimState ℤ ℕ ℕ :=
  ⟨⟨[(0, c6Entry)], [], [], true, []⟩, [], [], [], 0, 2 ^ 62, 0, []⟩

/-- A simulator state holding only `c6BadEntry` (id 0). -/
def c6BadSim : SimState ℤ ℕ ℕ :=
  ⟨⟨[(0, c6BadEntry)], [], [], true, []⟩, [], [], [], 0, 2 ^ 62, 0, []⟩

/-- The state produced by scheduling `c6Entry` at time `3`. -/
def c6After : SimState ℤ ℕ ℕ :=
  ⟨⟨[(0, { c6Entry with tL := 3, tN := 8 })], [], [], true, []⟩,
    [], [], [(0, 8)], 0, 2 ^ 62, 0, []⟩

theorem c6_run : scheduleA c6Sim 0 3 = Except.ok c6After := rfl

end Seq

end Adevs

/-- Witness for C6: scheduling the atomic with `ta() = -1` raises the
negative-time-advance error, and scheduling the atomic with
`ta() = 5` at time `3` sets `tL = 3`, `tN = 8` and inserts it at
priority `8`. -/
theorem Adevs.Seq.c6_schedule_sets_clocks_witness :
    Adevs.Seq.scheduleA Adevs.Seq.c6BadSim 0 3 =
      Except.error (Adevs.Seq.SimErr.negativeTa 0) ∧
    (∃ e', Adevs.Seq.lookupA Adevs.Seq.c6After 0 = some e' ∧
      e'.tL = 3 ∧
      e'.tN = (if Adevs.Seq.c6Entry.ta Adevs.Seq.c6Entry.st = Adevs.Seq.c6Sim.inf
        then Adevs.Seq.c6Sim.inf else 3 + Adevs.Seq.c6Entry.ta Adevs.Seq.c6Entry.st) ∧
      (e'.tN = e'.tL + Adevs.Seq.c6Entry.ta Adevs.Seq.c6Entry.st ∨
        Adevs.Seq.c6Entry.ta Adevs.Seq.c6Entry.st = Adevs.Seq.c6Sim.inf) ∧
      e'.ta = Adevs.Seq.c6Entry.ta ∧ e'.st = Adevs.Seq.c6Entry.st ∧
      e'.isMealy = Adevs.Seq.c6Entry.isMealy ∧
      Adevs.Seq.lookupSched Adevs.Seq.c6After.sched 0 = some e'.tN) :=
  ⟨(Adevs.Seq.c6_schedule_sets_clocks Adevs.Seq.c6BadSim 0 3
      Adevs.Seq.c6BadEntry rfl).1 (by constructor <;> decide),
   (Adevs.Seq.c6_schedule_sets_clocks Adevs.Seq.c6Sim 0 3
      Adevs.Seq.c6Entry rfl).2 Adevs.Seq.c6After Adevs.Seq.c6_run⟩

namespace Adevs

/-- The error discriminator of a simulation call's result. -/
def errOf {E A : Type _} (r : Except E A) : Option E :=
  match r with
  | .error e => some e
  | .ok _ => none

namespace Seq

/-- A Mealy atomic (id 0) over `T = ℤ` that emits on pin 10; both its
output functions produce a value there. -/
def c2EntryA : AtomicEntry ℤ ℕ ℕ :=
  ⟨true, fun _ => (1 : ℤ), id, fun _ _ => id, fun _ => id,
    fun _ => [⟨10, 1⟩], fun _ _ => [⟨10, 2⟩], fun _ _ _ => [⟨10, 3⟩],
    0, 0, 1, [], []⟩

/-- A Mealy atomic (id 1) that emits on pin 11. -/
def c2EntryB : AtomicEntry ℤ ℕ ℕ :=
  ⟨true, fun _ => (1 : ℤ), id, fun _ _ => id, fun _ => id,
    fun _ => [⟨11, 1⟩], fun _ _ => [⟨11, 2⟩], fun _ _ _ => [⟨11, 3⟩],
    0, 0, 1, [], []⟩

/-- Two cross-coupled Mealy atomics, both imminent at `tNext = 1`:
pin 10 feeds atomic 1 and pin 11 feeds atomic 0. -/
def c2TwoMealy : SimState ℤ ℕ ℕ :=
  ⟨⟨[(0, c2EntryA), (1, c2EntryB)], [], [(10, 1), (11, 0)], true, []⟩,
    [], [], [(0, 1), (1, 1)], 1, 2 ^ 62, 0, []⟩

/-- The delivery state used by the C2 witness: atomic 0 is already
active (its output has been computed) and atomic 1 is pending. -/
def c2DeliverO : OutSt ℤ ℕ ℕ :=
  ⟨{ c2TwoMealy with active := [0] }, [1]⟩

end Seq

end Adevs

/-! ### Claim C2 -/

/-- C2: in `computeNextOutput`, routing an output value to a Mealy
atomic that is already in the active set (its output for this event
has been computed) raises the "Feedback loop of Mealy models is
illegal" `adevs::exception` carrying the emitting model, aborting the
call; in particular, on two cross-coupled Mealy atomics that are both
imminent, `computeNextOutput` fails with this error. -/
theorem Adevs.Seq.c2_mealy_feedback_rejected {T V σ : Type}
    [LinearOrderedRing T] [DecidableEq V] :
    (∀ (o : Adevs.Seq.OutSt T V σ) (pin aid : ℕ) (rest : List (ℕ × ℕ))
      (src : ℕ) (v : V) (e : Adevs.Seq.AtomicEntry T V σ),
      Adevs.Seq.lookupA o.sim aid = some e → e.isMealy = true →
      aid ∈ o.sim.active →
      Adevs.Seq.deliver true src v ((pin, aid) :: rest) o =
        Except.error (Adevs.Seq.SimErr.mealyFeedback src)) ∧
    Adevs.errOf (Adevs.Seq.computeNextOutput Adevs.Seq.c2TwoMealy) =
      some (Adevs.Seq.SimErr.mealyFeedback 1) := by
  constructor
  · intro o pin aid rest src v e hlook hmealy hmem
    rw [Adevs.Seq.deliver, hlook]
    dsimp only
    rw [if_pos (show e.isMealy = true from hmealy), if_pos ⟨rfl, hmem⟩]
  · rfl

/-- Witness for C2: delivering the output of the already-active Mealy
atomic 0 back to itself (via atomic 1's pin 11) fails with the
feedback-loop error. -/
theorem Adevs.Seq.c2_mealy_feedback_rejected_witness :
    Adevs.Seq.deliver true 1 2 [(11, 0)] Adevs.Seq.c2DeliverO =
      Except.error (Adevs.Seq.SimErr.mealyFeedback 1) :=
  Adevs.Seq.c2_mealy_feedback_rejected.1 Adevs.Seq.c2DeliverO 11 0 [] 1 2
    Adevs.Seq.c2EntryA rfl rfl (by decide)

namespace Adevs

namespace Seq

variable {T V σ : Type} [LinearOrderedRing T] [DecidableEq V]

/-- What every phase of `computeNextOutput` leaves untouched: the
injected buffer, `tNext`, the time constants, the schedule and the
graph's couplings; the trace only grows, the active set only grows,
and every atomic keeps its behaviour, clocks and state, with inputs
only appended. -/
def Stable (o o' : OutSt T V σ) : Prop :=
  o'.sim.external_input = o.sim.external_input ∧
  o'.sim.tNext = o.sim.tNext ∧
  o'.sim.inf = o.sim.inf ∧
  o'.sim.eps = o.sim.eps ∧
  o'.sim.sched = o.sim.sched ∧
  o'.sim.graph.p2p = o.sim.graph.p2p ∧
  o'.sim.graph.p2a = o.sim.graph.p2a ∧
  (∃ d, o'.sim.trace = o.sim.trace ++ d) ∧
  (∀ a, a ∈ o.sim.active → a ∈ o'.sim.active) ∧
  (∀ a e, lookupA o.sim a = some e → ∃ e2, lookupA o'.sim a = some e2 ∧
    e2.isMealy = e.isMealy ∧ e2.ta = e.ta ∧ e2.tN = e.tN ∧ e2.tL = e.tL ∧
    e2.st = e.st ∧ ∃ zs, e2.inputs = e.inputs ++ zs)

omit [LinearOrderedRing T] [DecidableEq V] in
theorem stable_rfl (o : OutSt T V σ) : Stable o o := by
  refine ⟨rfl, rfl, rfl, rfl, rfl, rfl, rfl, ⟨[], by simp⟩, fun a h => h, ?_⟩
  intro a e h
  exact ⟨e, h, rfl, rfl, rfl, rfl, rfl, [], by simp⟩

omit [LinearOrderedRing T] [DecidableEq V] in
theorem stable_trans {o1 o2 o3 : OutSt T V σ}
    (h12 : Stable o1 o2) (h23 : Stable o2 o3) : Stable o1 o3 := by
  obtain ⟨a1, b1, c1, d1, e1, f1, g1, ⟨t1, ht1⟩, i1, j1⟩ := h12
  obtain ⟨a2, b2, c2, d2, e2, f2, g2, ⟨t2, ht2⟩, i2, j2⟩ := h23
  refine ⟨a2.trans a1, b2.trans b1, c2.trans c1, d2.trans d1, e2.trans e1,
    f2.trans f1, g2.trans g1, ⟨t1 ++ t2, by rw [ht2, ht1, List.append_assoc]⟩,
    fun a h => i2 a (i1 a h), ?_⟩
  intro a e h
  obtain ⟨e2, he2, hm, hta, htn, htl, hst, zs, hzs⟩ := j1 a e h
  obtain ⟨e3, he3, hm2, hta2, htn2, htl2, hst2, zs2, hzs2⟩ := j2 a e2 he2
  exact ⟨e3, he3, hm2.trans hm, hta2.trans hta, htn2.trans htn, htl2.trans htl,
    hst2.trans hst, zs ++ zs2, by rw [hzs2, hzs, List.append_assoc]⟩

omit [LinearOrderedRing T] [DecidableEq V] in
theorem stable_pushTrace (ev : Ev T V) (o : OutSt T V σ) :
    Stable o (pushTrace ev o) := by
  refine ⟨rfl, rfl, rfl, rfl, rfl, rfl, rfl, ⟨[ev], rfl⟩, fun a h => h, ?_⟩
  intro a e h
  exact ⟨e, h, rfl, rfl, rfl, rfl, rfl, [], by simp⟩

omit [LinearOrderedRing T] [DecidableEq V] in
theorem stable_addPending (aid : ℕ) (o : OutSt T V σ) :
    Stable o (addPending aid o) := by
  rw [addPending]
  by_cases hmem : aid ∈ o.pending
  · rw [if_pos hmem]
    exact stable_rfl o
  · rw [if_neg hmem]
    exact stable_rfl o

omit [LinearOrderedRing T] [DecidableEq V] in
theorem stable_addActive (aid : ℕ) (o : OutSt T V σ) :
    Stable o (addActive aid o) := by
  rw [addActive]
  by_cases hmem : aid ∈ o.sim.active
  · rw [if_pos hmem]
    exact stable_rfl o
  · rw [if_neg hmem]
    refine ⟨rfl, rfl, rfl, rfl, rfl, rfl, rfl, ⟨[], by simp⟩,
      fun a h => List.mem_append_left _ h, ?_⟩
    intro a e h
    exact ⟨e, h, rfl, rfl, rfl, rfl, rfl, [], by simp⟩

omit [LinearOrderedRing T] [DecidableEq V] in
theorem stable_pushInput (aid : ℕ) (x : PinValue V) (o : OutSt T V σ) :
    Stable o (pushInput aid x o) := by
  refine ⟨rfl, rfl, rfl, rfl, rfl, rfl, rfl, ⟨[Ev.inputDelivered aid x], rfl⟩,
    fun a h => h, ?_⟩
  intro a e h
  by_cases ha : a = aid
  · subst ha
    have hu := lookupA_updateA_self o.sim a
      (fun e0 => { e0 with inputs := e0.inputs ++ [x] })
    rw [h] at hu
    exact ⟨{ e with inputs := e.inputs ++ [x] }, hu, rfl, rfl, rfl, rfl, rfl,
      [x], rfl⟩
  · have hu := lookupA_updateA_ne o.sim aid a
      (fun e0 => { e0 with inputs := e0.inputs ++ [x] }) ha
    rw [h] at hu
    exact ⟨e, hu, rfl, rfl, rfl, rfl, rfl, [], by simp⟩

omit [LinearOrderedRing T] [DecidableEq V] in
theorem stable_updOutputs (aid : ℕ) (ys : List (PinValue V)) (o : OutSt T V σ) :
    Stable o { o with sim := updateA o.sim aid (fun e0 => { e0 with outputs := ys }) } := by
  refine ⟨rfl, rfl, rfl, rfl, rfl, rfl, rfl, ⟨[], by simp [updateA]⟩,
    fun a h => h, ?_⟩
  intro a e h
  by_cases ha : a = aid
  · subst ha
    have hu := lookupA_updateA_self o.sim a (fun e0 => { e0 with outputs := ys })
    rw [h] at hu
    exact ⟨{ e with outputs := ys }, hu, rfl, rfl, rfl, rfl, rfl, [], by simp⟩
  · have hu := lookupA_updateA_ne o.sim aid a
      (fun e0 => { e0 with outputs := ys }) ha
    rw [h] at hu
    exact ⟨e, hu, rfl, rfl, rfl, rfl, rfl, [], by simp⟩

theorem stable_deliver {check : Bool} {src : ℕ} {v : V} :
    ∀ (cs : List (ℕ × ℕ)) (o o' : OutSt T V σ),
    deliver check src v cs o = Except.ok o' → Stable o o'
  | [], o, o', h => by
      cases h
      exact stable_rfl _
  | (pin, aid) :: rest, o, o', h => by
      rw [deliver] at h
      rcases hl : lookupA o.sim aid with _ | e
      · rw [hl] at h
        cases h
      rw [hl] at h
      dsimp only at h
      by_cases hm : e.isMealy = true
      · rw [if_pos hm] at h
        by_cases hc : check = true ∧ aid ∈ o.sim.active
        · rw [if_pos hc] at h
          cases h
        · rw [if_neg hc] at h
          exact stable_trans
            (stable_trans (stable_addPending aid o)
              (stable_pushInput aid ⟨pin, v⟩ (addPending aid o)))
            (stable_deliver rest _ o' h)
      · rw [if_neg hm] at h
        exact stable_trans
          (stable_trans (stable_addActive aid o)
            (stable_pushInput aid ⟨pin, v⟩ (addActive aid o)))
          (stable_deliver rest _ o' h)

theorem stable_routeOutput {check : Bool} {src : ℕ} {y : PinValue V}
    {o o' : OutSt T V σ} (h : routeOutput check src y o = Except.ok o') :
    Stable o o' := by
  rw [routeOutput] at h
  exact stable_trans (stable_pushTrace _ o) (stable_deliver _ _ o' h)

theorem stable_routeOutputs {check : Bool} {src : ℕ} :
    ∀ (ys : List (PinValue V)) (o o' : OutSt T V σ),
    routeOutputs check src ys o = Except.ok o' → Stable o o'
  | [], o, o', h => by
      cases h
      exact stable_rfl _
  | y :: rest, o, o', h => by
      rw [routeOutputs] at h
      rcases hr : routeOutput check src y o with e1 | o1
      · rw [hr] at h
        cases h
      rw [hr] at h
      exact stable_trans (stable_routeOutput hr) (stable_routeOutputs rest o1 o' h)

theorem stable_routeInjected :
    ∀ (ys : List (PinValue V)) (o o' : OutSt T V σ),
    routeInjected ys o = Except.ok o' → Stable o o'
  | [], o, o', h => by
      cases h
      exact stable_rfl _
  | y :: rest, o, o', h => by
      rw [routeInjected] at h
      rcases hr : deliver false 0 y.value (route o.sim.graph y.pin) o with e1 | o1
      · rw [hr] at h
        cases h
      rw [hr] at h
      exact stable_trans (stable_deliver _ _ _ hr) (stable_routeInjected rest o1 o' h)

theorem stable_imminentPhase :
    ∀ (l : List ℕ) (o o' : OutSt T V σ),
    imminentPhase l o = Except.ok o' → Stable o o'
  | [], o, o', h => by
      cases h
      exact stable_rfl _
  | aid :: rest, o, o', h => by
      rw [imminentPhase] at h
      rcases hl : lookupA o.sim aid with _ | e
      · rw [hl] at h
        cases h
      rw [hl] at h
      dsimp only at h
      by_cases hm : e.isMealy = true
      · rw [if_pos hm] at h
        exact stable_trans (stable_addPending aid o)
          (stable_imminentPhase rest _ o' h)
      · rw [if_neg hm] at h
        rcases hr : routeOutputs false aid (e.outputs ++ e.output_fn e.st)
            (pushTrace (.outputComputed aid .moore)
              { (addActive aid o) with
                sim := updateA (addActive aid o).sim aid
                  (fun e0 => { e0 with outputs := e.outputs ++ e.output_fn e.st }) })
          with e1 | o2
        · rw [hr] at h
          cases h
        · rw [hr] at h
          refine stable_trans (stable_addActive aid o) (stable_trans ?_
            (stable_trans (stable_routeOutputs _ _ _ hr)
              (stable_imminentPhase rest o2 o' h)))
          exact stable_trans (stable_updOutputs aid _ (addActive aid o))
            (stable_pushTrace _ _)

theorem stable_pendingLoop :
    ∀ (fuel : ℕ) (o o' : OutSt T V σ),
    pendingLoop fuel o = Except.ok o' → Stable o o'
  | 0, o, o', h => by
      rw [pendingLoop] at h
      rcases hp : o.pending with _ | ⟨a, rest⟩
      · rw [hp] at h
        cases h
        exact stable_rfl _
      · rw [hp] at h
        cases h
  | fuel + 1, o, o', h => by
      rw [pendingLoop] at h
      rcases hp : o.pending with _ | ⟨aid, rest⟩
      · rw [hp] at h
        cases h
        exact stable_rfl _
      rw [hp] at h
      dsimp only at h
      rcases hl : lookupA o.sim aid with _ | e
      · rw [hl] at h
        cases h
      rw [hl] at h
      dsimp only at h
      rcases hr : routeOutputs true aid
          (e.outputs ++ (if e.inputs = [] ∧ e.tN = o.sim.tNext then
              (e.output_fn e.st, OutKind.mealyInt)
            else if e.tN = o.sim.tNext then
              (e.confluent_output_fn e.inputs e.st, OutKind.mealyConf)
            else
              (e.external_output_fn (o.sim.tNext - e.tL) e.inputs e.st,
                OutKind.mealyExt)).1)
          (pushTrace (.outputComputed aid
            (if e.inputs = [] ∧ e.tN = o.sim.tNext then
                (e.output_fn e.st, OutKind.mealyInt)
              else if e.tN = o.sim.tNext then
                (e.confluent_output_fn e.inputs e.st, OutKind.mealyConf)
              else
                (e.external_output_fn (o.sim.tNext - e.tL) e.inputs e.st,
                  OutKind.mealyExt)).2)
            { (addActive aid { o with pending := rest }) with
              sim := updateA (addActive aid { o with pending := rest }).sim aid
                (fun e0 => { e0 with outputs := e.outputs ++
                  (if e.inputs = [] ∧ e.tN = o.sim.tNext then
                      (e.output_fn e.st, OutKind.mealyInt)
                    else if e.tN = o.sim.tNext then
                      (e.confluent_output_fn e.inputs e.st, OutKind.mealyConf)
                    else
                      (e.external_output_fn (o.sim.tNext - e.tL) e.inputs e.st,
                        OutKind.mealyExt)).1 }) })
        with e1 | o2
      · rw [hr] at h
        cases h
      · rw [hr] at h
        have hs1 : Stable o (addActive aid { o with pending := rest }) := by
          refine stable_trans ?_ (stable_addActive aid { o with pending := rest })
          exact ⟨rfl, rfl, rfl, rfl, rfl, rfl, rfl, ⟨[], by simp⟩, fun a h => h,
            fun a e h => ⟨e, h, rfl, rfl, rfl, rfl, rfl, [], by simp⟩⟩
        exact stable_trans hs1 (stable_trans
          (stable_trans (stable_updOutputs aid _ _) (stable_pushTrace _ _))
          (stable_trans (stable_routeOutputs _ _ _ hr)
            (stable_pendingLoop fuel o2 o' h)))

end Seq

end Adevs

namespace Adevs

namespace Seq

variable {T V σ : Type} [LinearOrderedRing T] [DecidableEq V]

omit [LinearOrderedRing T] [DecidableEq V] in
theorem foldl_clear_fields :
    ∀ (l : List ℕ) (s : SimState T V σ),
    (l.foldl (fun s1 aid => updateA s1 aid
      (fun e => { e with outputs := [], inputs := [] })) s).external_input
        = s.external_input ∧
    (l.foldl (fun s1 aid => updateA s1 aid
      (fun e => { e with outputs := [], inputs := [] })) s).tNext = s.tNext ∧
    (l.foldl (fun s1 aid => updateA s1 aid
      (fun e => { e with outputs := [], inputs := [] })) s).inf = s.inf ∧
    (l.foldl (fun s1 aid => updateA s1 aid
      (fun e => { e with outputs := [], inputs := [] })) s).eps = s.eps ∧
    (l.foldl (fun s1 aid => updateA s1 aid
      (fun e => { e with outputs := [], inputs := [] })) s).sched = s.sched ∧
    (l.foldl (fun s1 aid => updateA s1 aid
      (fun e => { e with outputs := [], inputs := [] })) s).graph.p2p = s.graph.p2p ∧
    (l.foldl (fun s1 aid => updateA s1 aid
      (fun e => { e with outputs := [], inputs := [] })) s).graph.p2a = s.graph.p2a ∧
    (l.foldl (fun s1 aid => updateA s1 aid
      (fun e => { e with outputs := [], inputs := [] })) s).trace = s.trace ∧
    (l.foldl (fun s1 aid => updateA s1 aid
      (fun e => { e with outputs := [], inputs := [] })) s).active = s.active
  | [], s => ⟨rfl, rfl, rfl, rfl, rfl, rfl, rfl, rfl, rfl⟩
  | aid :: rest, s => by
      have ih := foldl_clear_fields rest
        (updateA s aid (fun e => { e with outputs := [], inputs := [] }))
      exact ih

omit [LinearOrderedRing T] [DecidableEq V] in
/-- `clearActive` changes only the atomics' input/output buffers and
the active set. -/
theorem clearActive_fields (s : SimState T V σ) :
    (clearActive s).external_input = s.external_input ∧
    (clearActive s).tNext = s.tNext ∧
    (clearActive s).inf = s.inf ∧
    (clearActive s).eps = s.eps ∧
    (clearActive s).sched = s.sched ∧
    (clearActive s).graph.p2p = s.graph.p2p ∧
    (clearActive s).graph.p2a = s.graph.p2a ∧
    (clearActive s).trace = s.trace ∧
    (clearActive s).active = [] := by
  have h := foldl_clear_fields s.active s
  exact ⟨h.1, h.2.1, h.2.2.1, h.2.2.2.1, h.2.2.2.2.1, h.2.2.2.2.2.1,
    h.2.2.2.2.2.2.1, h.2.2.2.2.2.2.2.1, rfl⟩

omit [LinearOrderedRing T] [DecidableEq V] in
theorem foldl_clear_lookup :
    ∀ (l : List ℕ) (s : SimState T V σ) (a : ℕ) (e : AtomicEntry T V σ),
    lookupA s a = some e →
    ∃ e2, lookupA (l.foldl (fun s1 aid => updateA s1 aid
        (fun e0 => { e0 with outputs := [], inputs := [] })) s) a = some e2 ∧
      e2.isMealy = e.isMealy ∧ e2.ta = e.ta ∧ e2.tN = e.tN ∧ e2.tL = e.tL ∧
      e2.st = e.st
  | [], s, a, e, h => ⟨e, h, rfl, rfl, rfl, rfl, rfl⟩
  | aid :: rest, s, a, e, h => by
      by_cases ha : a = aid
      · subst ha
        have hu := lookupA_updateA_self s a
          (fun e0 => { e0 with outputs := [], inputs := [] })
        rw [h] at hu
        obtain ⟨e2, he2, hprops⟩ := foldl_clear_lookup rest _ a _ hu
        exact ⟨e2, he2, hprops⟩
      · have hu := lookupA_updateA_ne s aid a
          (fun e0 => { e0 with outputs := [], inputs := [] }) ha
        rw [h] at hu
        exact foldl_clear_lookup rest _ a e hu

omit [LinearOrderedRing T] [DecidableEq V] in
theorem clearActive_lookup (s : SimState T V σ) (a : ℕ) (e : AtomicEntry T V σ)
    (h : lookupA s a = some e) :
    ∃ e2, lookupA (clearActive s) a = some e2 ∧
      e2.isMealy = e.isMealy ∧ e2.ta = e.ta ∧ e2.tN = e.tN ∧ e2.tL = e.tL ∧
      e2.st = e.st :=
  foldl_clear_lookup s.active s a e h

omit [LinearOrderedRing T] [DecidableEq V] in
theorem routeFuel_congr {g1 g2 : GraphData T V σ}
    (hp : g1.p2p = g2.p2p) (ha : g1.p2a = g2.p2a) :
    ∀ (n p : ℕ), routeFuel g1 n p = routeFuel g2 n p
  | 0, _ => rfl
  | n + 1, p => by
      rw [routeFuel, routeFuel, hp, ha]
      congr 1
      induction g2.p2p.filter (fun e => decide (e.1 = p)) with
      | nil => rfl
      | cons x xs ih2 =>
          rw [List.foldr_cons, List.foldr_cons, ih2, routeFuel_congr hp ha n x.2]

omit [LinearOrderedRing T] [DecidableEq V] in
theorem route_congr {g1 g2 : GraphData T V σ}
    (hp : g1.p2p = g2.p2p) (ha : g1.p2a = g2.p2a) (p : ℕ) :
    route g1 p = route g2 p := by
  rw [route, route, hp, routeFuel_congr hp ha]

omit [LinearOrderedRing T] [DecidableEq V] in
theorem mem_trace_of_stable {o o' : OutSt T V σ} (h : Stable o o')
    {ev : Ev T V} (hmem : ev ∈ o.sim.trace) : ev ∈ o'.sim.trace := by
  obtain ⟨d, hd⟩ := h.2.2.2.2.2.2.2.1
  rw [hd]
  exact List.mem_append_left _ hmem

theorem deliver_delivers {check : Bool} {src : ℕ} {v : V} :
    ∀ (cs : List (ℕ × ℕ)) (o o' : OutSt T V σ),
    deliver check src v cs o = Except.ok o' →
    ∀ pr ∈ cs, Ev.inputDelivered pr.2 ⟨pr.1, v⟩ ∈ o'.sim.trace
  | [], o, o', h => by
      intro pr hpr
      cases hpr
  | (pin, aid) :: rest, o, o', h => by
      intro pr hpr
      rw [deliver] at h
      rcases hl : lookupA o.sim aid with _ | e
      · rw [hl] at h
        cases h
      rw [hl] at h
      dsimp only at h
      rcases List.mem_cons.mp hpr with rfl | hpr
      all_goals by_cases hm : e.isMealy = true
      · rw [if_pos hm] at h
        by_cases hc : check = true ∧ aid ∈ o.sim.active
        · rw [if_pos hc] at h
          cases h
        · rw [if_neg hc] at h
          refine mem_trace_of_stable (stable_deliver rest _ o' h) ?_
          exact List.mem_append_right _ (List.mem_singleton_self _)
      · rw [if_neg hm] at h
        refine mem_trace_of_stable (stable_deliver rest _ o' h) ?_
        exact List.mem_append_right _ (List.mem_singleton_self _)
      · rw [if_pos hm] at h
        by_cases hc : check = true ∧ aid ∈ o.sim.active
        · rw [if_pos hc] at h
          cases h
        · rw [if_neg hc] at h
          exact deliver_delivers rest _ o' h pr hpr
      · rw [if_neg hm] at h
        exact deliver_delivers rest _ o' h pr hpr

theorem routeInjected_delivers :
    ∀ (ys : List (PinValue V)) (o o' : OutSt T V σ),
    routeInjected ys o = Except.ok o' →
    ∀ y ∈ ys, ∀ pr ∈ route o.sim.graph y.pin,
      Ev.inputDelivered pr.2 ⟨pr.1, y.value⟩ ∈ o'.sim.trace
  | [], o, o', h => by
      intro y hy
      cases hy
  | y0 :: rest, o, o', h => by
      intro y hy pr hpr
      rw [routeInjected] at h
      rcases hr : deliver false 0 y0.value (route o.sim.graph y0.pin) o with e1 | o1
      · rw [hr] at h
        cases h
      rw [hr] at h
      rcases List.mem_cons.mp hy with rfl | hy
      · exact mem_trace_of_stable (stable_routeInjected rest o1 o' h)
          (deliver_delivers _ o o1 hr pr hpr)
      · have hst := stable_deliver _ o o1 hr
        have hroute : route o1.sim.graph y.pin = route o.sim.graph y.pin :=
          route_congr hst.2.2.2.2.2.1 hst.2.2.2.2.2.2.1 y.pin
        exact routeInjected_delivers rest o1 o' h y hy pr (hroute ▸ hpr)

end Seq

end Adevs

/-! ### Claim C8 -/

/-- C8: `injectInput` appends its PinValue to the injected-input
buffer and changes nothing else; a successful `computeNextOutput`
routes every buffered injection through the graph to its resolved
receivers (each receiver's delivery appears in the trace) and leaves
the buffer empty, so that a second call with no intervening
`injectInput` has no injected input to process (routing an empty
injection list is the identity). -/
theorem Adevs.Seq.c8_injection_consumed {T V σ : Type}
    [LinearOrderedRing T] [DecidableEq V] :
    (∀ (s : Adevs.Seq.SimState T V σ) (x : Adevs.Seq.PinValue V),
      Adevs.Seq.injectInput x s =
        { s with external_input := s.external_input ++ [x] }) ∧
    (∀ (s s' : Adevs.Seq.SimState T V σ),
      Adevs.Seq.computeNextOutput s = Except.ok s' →
      s'.external_input = [] ∧
      (∀ y ∈ s.external_input, ∀ pr ∈ Adevs.Seq.route s.graph y.pin,
        Adevs.Seq.Ev.inputDelivered pr.2 ⟨pr.1, y.value⟩ ∈ s'.trace)) ∧
    (∀ o : Adevs.Seq.OutSt T V σ, Adevs.Seq.routeInjected [] o = Except.ok o) := by
  refine ⟨fun s x => rfl, ?_, fun o => rfl⟩
  intro s s' h
  rw [Adevs.Seq.computeNextOutput] at h
  have hcf := Adevs.Seq.clearActive_fields s
  rcases hr : Adevs.Seq.routeInjected (Adevs.Seq.clearActive s).external_input
      (⟨{ Adevs.Seq.clearActive s with external_input := [] }, []⟩ :
        Adevs.Seq.OutSt T V σ) with e1 | o1
  · rw [hr] at h
    cases h
  rw [hr] at h
  dsimp only at h
  rcases hi : (if Adevs.Seq.minPriority o1.sim.inf o1.sim.sched = o1.sim.tNext then
      Adevs.Seq.imminentPhase (Adevs.Seq.visitImminent o1.sim.inf o1.sim.sched) o1
    else Except.ok o1) with e2 | o2
  · rw [hi] at h
    cases h
  rw [hi] at h
  dsimp only at h
  rcases hp : Adevs.Seq.pendingLoop
      (o2.sim.graph.atomics.length + o2.pending.length + 1) o2 with e3 | o3
  · rw [hp] at h
    cases h
  rw [hp] at h
  dsimp only at h
  cases h
  have hst1 := Adevs.Seq.stable_routeInjected _ _ _ hr
  have hst2 : Adevs.Seq.Stable o1 o2 := by
    by_cases hmin : Adevs.Seq.minPriority o1.sim.inf o1.sim.sched = o1.sim.tNext
    · rw [if_pos hmin] at hi
      exact Adevs.Seq.stable_imminentPhase _ _ _ hi
    · rw [if_neg hmin] at hi
      cases hi
      exact Adevs.Seq.stable_rfl _
  have hst3 := Adevs.Seq.stable_pendingLoop _ _ _ hp
  have hst := Adevs.Seq.stable_trans hst1 (Adevs.Seq.stable_trans hst2 hst3)
  constructor
  · rw [hst.1]
  · intro y hy pr hpr
    have hy2 : y ∈ (Adevs.Seq.clearActive s).external_input := by
      rw [hcf.1]
      exact hy
    have hroute : Adevs.Seq.route
        (⟨{ Adevs.Seq.clearActive s with external_input := [] }, []⟩ :
          Adevs.Seq.OutSt T V σ).sim.graph y.pin =
        Adevs.Seq.route s.graph y.pin :=
      Adevs.Seq.route_congr hcf.2.2.2.2.2.1 hcf.2.2.2.2.2.2.1 y.pin
    have hdel := Adevs.Seq.routeInjected_delivers _ _ _ hr y hy2 pr (by
      rw [hroute]
      exact hpr)
    exact Adevs.Seq.mem_trace_of_stable (Adevs.Seq.stable_trans hst2 hst3) hdel

namespace Adevs

namespace Seq

/-- A Moore atomic (id 0) over `T = ℤ` with no output, used by the C8
witness. -/
def c8Entry : AtomicEntry ℤ ℕ ℕ :=
  ⟨false, fun _ => (9 : ℤ), id, fun _ _ => id, fun _ => id,
    fun _ => [], fun _ _ => [], fun _ _ _ => [], 0, 0, 9, [], []⟩

/-- A simulator state with one atomic fed by pin 5, one injected
input `(5, 7)`, and `tNext = 4` below the schedule minimum `9`. -/
def c8Test : SimState ℤ ℕ ℕ :=
  ⟨⟨[(0, c8Entry)], [], [(5, 0)], true, []⟩, [⟨5, 7⟩], [], [(0, 9)], 4,
    2 ^ 62, 0, []⟩

/-- The state `computeNextOutput` produces on `c8Test`: the injection
is delivered to atomic 0 and the buffer is empty. -/
def c8After : SimState ℤ ℕ ℕ :=
  ⟨⟨[(0, { c8Entry with inputs := [⟨5, 7⟩] })], [], [(5, 0)], true, []⟩,
    [], [0], [(0, 9)], 4, 2 ^ 62, 0, [.inputDelivered 0 ⟨5, 7⟩]⟩

theorem c8_run : computeNextOutput c8Test = Except.ok c8After := rfl

end Seq

end Adevs

/-- Witness for C8: on the concrete state, `injectInput` appends to
the buffer, and `computeNextOutput` empties the buffer and delivers
the injected value to atomic 0. -/
theorem Adevs.Seq.c8_injection_consumed_witness :
    Adevs.Seq.injectInput ⟨5, 7⟩ Adevs.Seq.c8Test =
      { Adevs.Seq.c8Test with
          external_input := Adevs.Seq.c8Test.external_input ++ [⟨5, 7⟩] } ∧
    Adevs.Seq.c8After.external_input = [] ∧
    (∀ y ∈ Adevs.Seq.c8Test.external_input,
      ∀ pr ∈ Adevs.Seq.route Adevs.Seq.c8Test.graph y.pin,
      Adevs.Seq.Ev.inputDelivered pr.2 ⟨pr.1, y.value⟩ ∈ Adevs.Seq.c8After.trace) :=
  ⟨Adevs.Seq.c8_injection_consumed.1 Adevs.Seq.c8Test ⟨5, 7⟩,
   (Adevs.Seq.c8_injection_consumed.2.1 Adevs.Seq.c8Test Adevs.Seq.c8After
     Adevs.Seq.c8_run).1,
   (Adevs.Seq.c8_injection_consumed.2.1 Adevs.Seq.c8Test Adevs.Seq.c8After
     Adevs.Seq.c8_run).2⟩

namespace Adevs

namespace Seq

variable {T V σ : Type} [LinearOrderedRing T] [DecidableEq V]

/-- Every model in `pending_active` has already received at least one
input (the simulator pends a Mealy model only while delivering an
input to it, except for the imminent phase). -/
def PendHasInput (o : OutSt T V σ) : Prop :=
  ∀ a ∈ o.pending, ∃ e, lookupA o.sim a = some e ∧ e.inputs ≠ []

omit [LinearOrderedRing T] [DecidableEq V] in
theorem pushInput_entry (o : OutSt T V σ) (aid : ℕ) (x : PinValue V)
    (hex : ∃ e, lookupA o.sim aid = some e) :
    ∀ a, ((∃ e, lookupA o.sim a = some e ∧ e.inputs ≠ []) ∨ a = aid) →
    ∃ e, lookupA (pushInput aid x o).sim a = some e ∧ e.inputs ≠ [] := by
  intro a ha
  by_cases heq : a = aid
  · subst heq
    obtain ⟨e, he⟩ := hex
    have hu := lookupA_updateA_self o.sim a
      (fun e0 => { e0 with inputs := e0.inputs ++ [x] })
    rw [he] at hu
    exact ⟨{ e with inputs := e.inputs ++ [x] }, hu, by simp⟩
  · rcases ha with ⟨e, he, hne⟩ | rfl
    · have hu := lookupA_updateA_ne o.sim aid a
        (fun e0 => { e0 with inputs := e0.inputs ++ [x] }) heq
      rw [he] at hu
      exact ⟨e, hu, hne⟩
    · exact absurd rfl heq

omit [LinearOrderedRing T] [DecidableEq V] in
theorem addPending_sim (aid : ℕ) (o : OutSt T V σ) :
    (addPending aid o).sim = o.sim := by
  rw [addPending]
  by_cases hmem : aid ∈ o.pending
  · rw [if_pos hmem]
  · rw [if_neg hmem]

omit [LinearOrderedRing T] [DecidableEq V] in
theorem addActive_pending (aid : ℕ) (o : OutSt T V σ) :
    (addActive aid o).pending = o.pending := by
  rw [addActive]
  by_cases hmem : aid ∈ o.sim.active
  · rw [if_pos hmem]
  · rw [if_neg hmem]

omit [LinearOrderedRing T] [DecidableEq V] in
theorem addActive_lookupA (aid : ℕ) (o : OutSt T V σ) (a : ℕ) :
    lookupA (addActive aid o).sim a = lookupA o.sim a := by
  rw [addActive]
  by_cases hmem : aid ∈ o.sim.active
  · rw [if_pos hmem]
  · rw [if_neg hmem]
    rfl

theorem deliver_pendInput {check : Bool} {src : ℕ} {v : V} :
    ∀ (cs : List (ℕ × ℕ)) (o o' : OutSt T V σ),
    deliver check src v cs o = Except.ok o' →
    PendHasInput o → PendHasInput o'
  | [], o, o', h, hinv => by
      cases h
      exact hinv
  | (pin, aid) :: rest, o, o', h, hinv => by
      rw [deliver] at h
      rcases hl : lookupA o.sim aid with _ | e
      · rw [hl] at h
        cases h
      rw [hl] at h
      dsimp only at h
      by_cases hm : e.isMealy = true
      · rw [if_pos hm] at h
        by_cases hc : check = true ∧ aid ∈ o.sim.active
        · rw [if_pos hc] at h
          cases h
        · rw [if_neg hc] at h
          refine deliver_pendInput rest _ o' h ?_
          intro a ha
          have hpend : a ∈ o.pending ∨ a = aid := by
            have ha2 : a ∈ (addPending aid o).pending := ha
            rw [addPending] at ha2
            by_cases hmem : aid ∈ o.pending
            · rw [if_pos hmem] at ha2
              exact Or.inl ha2
            · rw [if_neg hmem] at ha2
              rcases List.mem_append.mp ha2 with ha3 | ha3
              · exact Or.inl ha3
              · exact Or.inr (List.mem_singleton.mp ha3)
          refine pushInput_entry (addPending aid o) aid ⟨pin, v⟩
            ⟨e, by rw [addPending_sim]; exact hl⟩ a ?_
          rcases hpend with ha2 | rfl
          · refine Or.inl ?_
            rw [addPending_sim]
            exact hinv a ha2
          · exact Or.inr rfl
      · rw [if_neg hm] at h
        refine deliver_pendInput rest _ o' h ?_
        intro a ha
        have ha2 : a ∈ (addActive aid o).pending := ha
        rw [addActive_pending] at ha2
        refine pushInput_entry (addActive aid o) aid ⟨pin, v⟩
          ⟨e, by rw [addActive_lookupA]; exact hl⟩ a ?_
        obtain ⟨e2, he2, hne⟩ := hinv a ha2
        exact Or.inl ⟨e2, by rw [addActive_lookupA]; exact he2, hne⟩

theorem routeOutputs_pendInput {check : Bool} {src : ℕ} :
    ∀ (ys : List (PinValue V)) (o o' : OutSt T V σ),
    routeOutputs check src ys o = Except.ok o' →
    PendHasInput o → PendHasInput o'
  | [], o, o', h, hinv => by
      cases h
      exact hinv
  | y :: rest, o, o', h, hinv => by
      rw [routeOutputs] at h
      rcases hr : routeOutput check src y o with e1 | o1
      · rw [hr] at h
        cases h
      rw [hr] at h
      refine routeOutputs_pendInput rest o1 o' h ?_
      rw [routeOutput] at hr
      exact deliver_pendInput _ _ o1 hr hinv

theorem routeInjected_pendInput :
    ∀ (ys : List (PinValue V)) (o o' : OutSt T V σ),
    routeInjected ys o = Except.ok o' →
    PendHasInput o → PendHasInput o'
  | [], o, o', h, hinv => by
      cases h
      exact hinv
  | y :: rest, o, o', h, hinv => by
      rw [routeInjected] at h
      rcases hr : deliver false 0 y.value (route o.sim.graph y.pin) o with e1 | o1
      · rw [hr] at h
        cases h
      rw [hr] at h
      exact routeInjected_pendInput rest o1 o' h (deliver_pendInput _ _ o1 hr hinv)

omit [LinearOrderedRing T] [DecidableEq V] in
theorem deliver_trace_sub {check : Bool} {src : ℕ} {v : V} :
    ∀ (cs : List (ℕ × ℕ)) (o o' : OutSt T V σ),
    deliver check src v cs o = Except.ok o' →
    ∀ ev ∈ o'.sim.trace, ev ∈ o.sim.trace ∨ ∃ a x, ev = Ev.inputDelivered a x
  | [], o, o', h => by
      cases h
      exact fun ev hev => Or.inl hev
  | (pin, aid) :: rest, o, o', h => by
      rw [deliver] at h
      rcases hl : lookupA o.sim aid with _ | e
      · rw [hl] at h
        cases h
      rw [hl] at h
      dsimp only at h
      have hnext : ∀ (o1 : OutSt T V σ), deliver check src v rest o1 = Except.ok o' →
          o1.sim.trace = o.sim.trace ++ [Ev.inputDelivered aid ⟨pin, v⟩] →
          ∀ ev ∈ o'.sim.trace, ev ∈ o.sim.trace ∨ ∃ a x, ev = Ev.inputDelivered a x := by
        intro o1 h1 htr ev hev
        rcases deliver_trace_sub rest o1 o' h1 ev hev with hin | hd
        · rw [htr] at hin
          rcases List.mem_append.mp hin with hin | hin
          · exact Or.inl hin
          · exact Or.inr ⟨aid, ⟨pin, v⟩, List.mem_singleton.mp hin⟩
        · exact Or.inr hd
      by_cases hm : e.isMealy = true
      · rw [if_pos hm] at h
        by_cases hc : check = true ∧ aid ∈ o.sim.active
        · rw [if_pos hc] at h
          cases h
        · rw [if_neg hc] at h
          refine hnext _ h ?_
          rw [addPending]
          by_cases hmem : aid ∈ o.pending
          · rw [if_pos hmem]
            rfl
          · rw [if_neg hmem]
            rfl
      · rw [if_neg hm] at h
        refine hnext _ h ?_
        rw [addActive]
        by_cases hmem : aid ∈ o.sim.active
        · rw [if_pos hmem]
          rfl
        · rw [if_neg hmem]
          rfl

omit [LinearOrderedRing T] [DecidableEq V] in
theorem routeOutput_trace_sub {check : Bool} {src : ℕ} {y : PinValue V}
    {o o' : OutSt T V σ} (h : routeOutput check src y o = Except.ok o') :
    ∀ ev ∈ o'.sim.trace, ev ∈ o.sim.trace ∨ (∃ a z, ev = Ev.outputEvent a z) ∨
      ∃ a x, ev = Ev.inputDelivered a x := by
  intro ev hev
  rw [routeOutput] at h
  rcases deliver_trace_sub _ _ o' h ev hev with hin | hd
  · rcases List.mem_append.mp hin with hin | hin
    · exact Or.inl hin
    · exact Or.inr (Or.inl ⟨src, y, List.mem_singleton.mp hin⟩)
  · exact Or.inr (Or.inr hd)

omit [LinearOrderedRing T] [DecidableEq V] in
theorem routeOutputs_trace_sub {check : Bool} {src : ℕ} :
    ∀ (ys : List (PinValue V)) (o o' : OutSt T V σ),
    routeOutputs check src ys o = Except.ok o' →
    ∀ ev ∈ o'.sim.trace, ev ∈ o.sim.trace ∨ (∃ a z, ev = Ev.outputEvent a z) ∨
      ∃ a x, ev = Ev.inputDelivered a x
  | [], o, o', h => by
      cases h
      exact fun ev hev => Or.inl hev
  | y :: rest, o, o', h => by
      rw [routeOutputs] at h
      rcases hr : routeOutput check src y o with e1 | o1
      · rw [hr] at h
        cases h
      rw [hr] at h
      intro ev hev
      rcases routeOutputs_trace_sub rest o1 o' h ev hev with hin | hd
      · exact routeOutput_trace_sub hr ev hin
      · exact Or.inr hd

omit [LinearOrderedRing T] [DecidableEq V] in
theorem routeInjected_trace_sub :
    ∀ (ys : List (PinValue V)) (o o' : OutSt T V σ),
    routeInjected ys o = Except.ok o' →
    ∀ ev ∈ o'.sim.trace, ev ∈ o.sim.trace ∨ ∃ a x, ev = Ev.inputDelivered a x
  | [], o, o', h => by
      cases h
      exact fun ev hev => Or.inl hev
  | y :: rest, o, o', h => by
      rw [routeInjected] at h
      rcases hr : deliver false 0 y.value (route o.sim.graph y.pin) o with e1 | o1
      · rw [hr] at h
        cases h
      rw [hr] at h
      intro ev hev
      rcases routeInjected_trace_sub rest o1 o' h ev hev with hin | hd
      · exact deliver_trace_sub _ _ _ hr ev hin
      · exact Or.inr hd

end Seq

end Adevs

namespace Adevs

namespace Seq

variable {T V σ : Type} [LinearOrderedRing T] [DecidableEq V]

omit [LinearOrderedRing T] [DecidableEq V] in
theorem addActive_trace (aid : ℕ) (o : OutSt T V σ) :
    (addActive aid o).sim.trace = o.sim.trace := by
  rw [addActive]
  by_cases hmem : aid ∈ o.sim.active
  · rw [if_pos hmem]
  · rw [if_neg hmem]

/-- While every pending model has an input, the Mealy output loop only
appends delivery events, output events, and `mealyConf` or `mealyExt`
output computations to the trace: it never invokes the plain
`output_func()` of an imminent model (`moore` or `mealyInt` kind). -/
theorem pendingLoop_trace_sub :
    ∀ (fuel : ℕ) (o o2 : OutSt T V σ),
    pendingLoop fuel o = Except.ok o2 → PendHasInput o →
    ∀ ev ∈ o2.sim.trace, ev ∈ o.sim.trace ∨
      (∃ a x, ev = Ev.inputDelivered a x) ∨ (∃ a z, ev = Ev.outputEvent a z) ∨
      (∃ a, ev = Ev.outputComputed a OutKind.mealyConf) ∨
      (∃ a, ev = Ev.outputComputed a OutKind.mealyExt)
  | 0, o, o2, h, _ => by
      rw [pendingLoop] at h
      rcases hp : o.pending with _ | ⟨aid, rest⟩
      · rw [hp] at h
        cases h
        exact fun ev hev => Or.inl hev
      · rw [hp] at h
        cases h
  | fuel + 1, o, o2, h, hinv => by
      rw [pendingLoop] at h
      rcases hp : o.pending with _ | ⟨aid, rest⟩
      · rw [hp] at h
        cases h
        exact fun ev hev => Or.inl hev
      rw [hp] at h
      dsimp only at h
      rcases hl : lookupA o.sim aid with _ | e
      · rw [hl] at h
        cases h
      rw [hl] at h
      dsimp only at h
      obtain ⟨e0, he0, hne⟩ := hinv aid (by rw [hp]; exact List.mem_cons_self aid rest)
      rw [hl] at he0
      injection he0 with he0
      subst he0
      set yk : List (PinValue V) × OutKind :=
        (if e.inputs = [] ∧ e.tN = o.sim.tNext then
            (e.output_fn e.st, OutKind.mealyInt)
          else if e.tN = o.sim.tNext then
            (e.confluent_output_fn e.inputs e.st, OutKind.mealyConf)
          else
            (e.external_output_fn (o.sim.tNext - e.tL) e.inputs e.st,
              OutKind.mealyExt)) with hyk
      have hk : yk.2 = OutKind.mealyConf ∨ yk.2 = OutKind.mealyExt := by
        rw [hyk, if_neg (fun hcon => hne hcon.1)]
        by_cases htn : e.tN = o.sim.tNext
        · rw [if_pos htn]
          exact Or.inl rfl
        · rw [if_neg htn]
          exact Or.inr rfl
      rcases hr : routeOutputs true aid (e.outputs ++ yk.1)
          (pushTrace (Ev.outputComputed aid yk.2)
            { (addActive aid { o with pending := rest }) with
              sim := updateA (addActive aid { o with pending := rest }).sim aid
                (fun e0 => { e0 with outputs := e.outputs ++ yk.1 }) })
        with e1 | o3
      · rw [hr] at h
        cases h
      rw [hr] at h
      have hpi2 : PendHasInput
          (pushTrace (Ev.outputComputed aid yk.2)
            { (addActive aid { o with pending := rest }) with
              sim := updateA (addActive aid { o with pending := rest }).sim aid
                (fun e0 => { e0 with outputs := e.outputs ++ yk.1 }) }) := by
        intro a ha
        have ha2 : a ∈ (addActive aid { o with pending := rest }).pending := ha
        rw [addActive_pending] at ha2
        by_cases heq : a = aid
        · subst heq
          have hu := lookupA_updateA_self
            (addActive a { o with pending := rest }).sim a
            (fun e0 => { e0 with outputs := e.outputs ++ yk.1 })
          rw [addActive_lookupA] at hu
          rw [show lookupA ({ o with pending := rest } :
            OutSt T V σ).sim a = some e from hl] at hu
          exact ⟨{ e with outputs := e.outputs ++ yk.1 }, hu, hne⟩
        · have hu := lookupA_updateA_ne
            (addActive aid { o with pending := rest }).sim aid a
            (fun e0 => { e0 with outputs := e.outputs ++ yk.1 }) heq
          rw [addActive_lookupA] at hu
          obtain ⟨e2, he2, hne2⟩ :=
            hinv a (by rw [hp]; exact List.mem_cons_of_mem aid ha2)
          refine ⟨e2, ?_, hne2⟩
          have hg : lookupA
              (updateA (addActive aid { o with pending := rest }).sim aid
                (fun e0 => { e0 with outputs := e.outputs ++ yk.1 })) a =
              some e2 := by
            rw [hu]
            exact he2
          exact hg
      intro ev hev
      rcases pendingLoop_trace_sub fuel o3 o2 h
          (routeOutputs_pendInput _ _ _ hr hpi2) ev hev with hin | hrest
      · rcases routeOutputs_trace_sub _ _ _ hr ev hin with hin2 | hd
        · have hin3 : ev ∈ (addActive aid { o with pending := rest }).sim.trace ++
              [Ev.outputComputed aid yk.2] := hin2
          rw [addActive_trace] at hin3
          rcases List.mem_append.mp hin3 with hin4 | hin4
          · exact Or.inl hin4
          · have hev2 : ev = Ev.outputComputed aid yk.2 := List.mem_singleton.mp hin4
            rcases hk with hk2 | hk2
            · exact Or.inr (Or.inr (Or.inr (Or.inl ⟨aid, by rw [hev2, hk2]⟩)))
            · exact Or.inr (Or.inr (Or.inr (Or.inr ⟨aid, by rw [hev2, hk2]⟩)))
        · rcases hd with ⟨a, z, hz⟩ | ⟨a, x, hx⟩
          · exact Or.inr (Or.inr (Or.inl ⟨a, z, hz⟩))
          · exact Or.inr (Or.inl ⟨a, x, hx⟩)
      · exact Or.inr hrest

end Seq

end Adevs

/-! ### Claim C10 -/

namespace Adevs

namespace Seq

/-- A simulator state whose schedule minimum is `9`: one Moore atomic
scheduled at `9`, fed by pin 5, with one injected input `(5, 7)`. -/
def c10Entry : AtomicEntry ℤ ℕ ℕ :=
  ⟨false, fun _ => (9 : ℤ), id, fun _ _ => id, fun _ => id,
    fun _ => [], fun _ _ => [], fun _ _ _ => [], 0, 0, 9, [], []⟩

def c10Test : SimState ℤ ℕ ℕ :=
  ⟨⟨[(0, c10Entry)], [], [(5, 0)], true, []⟩, [⟨5, 7⟩], [], [(0, 9)], 9,
    2 ^ 62, 0, []⟩

end Seq

end Adevs

/-- C10: after `setNextTime t` with `t` different from the schedule
minimum, `computeNextOutput` equals the injected-only pipeline (the
imminent-model phase is skipped), and every event a successful call
adds to the trace is an injected-input delivery or a Mealy
`confluent`/`external` output computation: no imminent model's
`output_func()` (a `moore` or `mealyInt` output computation) is
invoked. -/
theorem Adevs.Seq.c10_imminent_gated_by_min_priority {T V σ : Type}
    [LinearOrderedRing T] [DecidableEq V]
    (t : T) (s : Adevs.Seq.SimState T V σ)
    (hne : Adevs.Seq.minPriority s.inf s.sched ≠ t) :
    Adevs.Seq.computeNextOutput (Adevs.Seq.setNextTime t s) =
      Adevs.Seq.computeInjectedOnly (Adevs.Seq.setNextTime t s) ∧
    ∀ s2, Adevs.Seq.computeNextOutput (Adevs.Seq.setNextTime t s) = Except.ok s2 →
      ∀ ev ∈ s2.trace, ev ∈ s.trace ∨
        ((∀ a, ev ≠ Adevs.Seq.Ev.outputComputed a Adevs.Seq.OutKind.moore) ∧
         (∀ a, ev ≠ Adevs.Seq.Ev.outputComputed a Adevs.Seq.OutKind.mealyInt)) := by
  have hcf := Adevs.Seq.clearActive_fields (Adevs.Seq.setNextTime t s)
  have hmain : Adevs.Seq.computeNextOutput (Adevs.Seq.setNextTime t s) =
      Adevs.Seq.computeInjectedOnly (Adevs.Seq.setNextTime t s) := by
    rw [Adevs.Seq.computeNextOutput, Adevs.Seq.computeInjectedOnly]
    rcases hr : Adevs.Seq.routeInjected
        (Adevs.Seq.clearActive (Adevs.Seq.setNextTime t s)).external_input
        (⟨{ Adevs.Seq.clearActive (Adevs.Seq.setNextTime t s) with
            external_input := [] }, []⟩ : Adevs.Seq.OutSt T V σ) with e1 | o1
    · rfl
    · dsimp only
      obtain ⟨-, hT, hI, -, hS, -, -, -, -, -⟩ :=
        Adevs.Seq.stable_routeInjected _ _ _ hr
      have hcond : ¬ (Adevs.Seq.minPriority o1.sim.inf o1.sim.sched
          = o1.sim.tNext) := by
        intro hcontra
        apply hne
        have hI2 : o1.sim.inf = s.inf := by
          rw [hI]
          exact hcf.2.2.1
        have hS2 : o1.sim.sched = s.sched := by
          rw [hS]
          exact hcf.2.2.2.2.1
        have hT2 : o1.sim.tNext = t := by
          rw [hT]
          exact hcf.2.1
        rw [hI2, hS2, hT2] at hcontra
        exact hcontra
      rw [if_neg hcond]
  refine ⟨hmain, ?_⟩
  intro s2 h ev hev
  rw [hmain, Adevs.Seq.computeInjectedOnly] at h
  rcases hr : Adevs.Seq.routeInjected
      (Adevs.Seq.clearActive (Adevs.Seq.setNextTime t s)).external_input
      (⟨{ Adevs.Seq.clearActive (Adevs.Seq.setNextTime t s) with
          external_input := [] }, []⟩ : Adevs.Seq.OutSt T V σ) with e1 | o1
  · rw [hr] at h
    cases h
  rw [hr] at h
  dsimp only at h
  rcases hp2 : Adevs.Seq.pendingLoop
      (o1.sim.graph.atomics.length + o1.pending.length + 1) o1 with e3 | o3
  · rw [hp2] at h
    cases h
  rw [hp2] at h
  cases h
  have hpi1 : Adevs.Seq.PendHasInput o1 := by
    refine Adevs.Seq.routeInjected_pendInput _ _ _ hr ?_
    intro a ha
    have ha2 : a ∈ ([] : List ℕ) := ha
    exact absurd ha2 (List.not_mem_nil a)
  rcases Adevs.Seq.pendingLoop_trace_sub _ _ _ hp2 hpi1 ev hev with hin | hd
  · rcases Adevs.Seq.routeInjected_trace_sub _ _ _ hr ev hin with hin2 | hd2
    · left
      have hin3 : ev ∈ (Adevs.Seq.clearActive (Adevs.Seq.setNextTime t s)).trace :=
        hin2
      rw [hcf.2.2.2.2.2.2.2.1] at hin3
      exact hin3
    · right
      obtain ⟨a0, x0, rfl⟩ := hd2
      exact ⟨fun a hcon => Adevs.Seq.Ev.noConfusion hcon,
        fun a hcon => Adevs.Seq.Ev.noConfusion hcon⟩
  · right
    rcases hd with ⟨a0, x0, rfl⟩ | ⟨a0, z0, rfl⟩ | ⟨a0, rfl⟩ | ⟨a0, rfl⟩
    · exact ⟨fun a hcon => Adevs.Seq.Ev.noConfusion hcon,
        fun a hcon => Adevs.Seq.Ev.noConfusion hcon⟩
    · exact ⟨fun a hcon => Adevs.Seq.Ev.noConfusion hcon,
        fun a hcon => Adevs.Seq.Ev.noConfusion hcon⟩
    · refine ⟨fun a hcon => ?_, fun a hcon => ?_⟩
      · injection hcon with h1 h2
        exact Adevs.Seq.OutKind.noConfusion h2
      · injection hcon with h1 h2
        exact Adevs.Seq.OutKind.noConfusion h2
    · refine ⟨fun a hcon => ?_, fun a hcon => ?_⟩
      · injection hcon with h1 h2
        exact Adevs.Seq.OutKind.noConfusion h2
      · injection hcon with h1 h2
        exact Adevs.Seq.OutKind.noConfusion h2

/-- Witness for C10: on the concrete state with schedule minimum `9`,
forcing `tNext := 4` makes `computeNextOutput` agree with the
injected-only pipeline. -/
theorem Adevs.Seq.c10_imminent_gated_by_min_priority_witness :
    Adevs.Seq.minPriority Adevs.Seq.c10Test.inf Adevs.Seq.c10Test.sched ≠ (4 : ℤ) ∧
    Adevs.Seq.computeNextOutput (Adevs.Seq.setNextTime 4 Adevs.Seq.c10Test) =
      Adevs.Seq.computeInjectedOnly (Adevs.Seq.setNextTime 4 Adevs.Seq.c10Test) :=
  ⟨by decide,
    (Adevs.Seq.c10_imminent_gated_by_min_priority (4 : ℤ) Adevs.Seq.c10Test
      (by decide)).1⟩

/-! ### Claim C1 -/

namespace Adevs

namespace Seq

variable {T V σ : Type} [LinearOrderedRing T] [DecidableEq V]

omit [LinearOrderedRing T] [DecidableEq V] in
/-- The state-transition events recorded for model `a`, in order: one
entry per `delta_int`/`delta_conf`/`delta_ext` call on `a`. -/
def transEvents (a : ℕ) (tr : List (Ev T V)) : List (TransKind T V) :=
  tr.filterMap (fun ev => match ev with
    | Ev.transition b k => if b = a then some k else none
    | _ => none)

omit [LinearOrderedRing T] [DecidableEq V] in
theorem transEvents_append (a : ℕ) (l1 l2 : List (Ev T V)) :
    transEvents a (l1 ++ l2) = transEvents a l1 ++ transEvents a l2 :=
  List.filterMap_append l1 l2 _

omit [LinearOrderedRing T] [DecidableEq V] in
theorem transEvents_cons_other (a : ℕ) (ev : Ev T V) (l : List (Ev T V))
    (h : ∀ k, ev ≠ Ev.transition a k) :
    transEvents a (ev :: l) = transEvents a l := by
  cases ev with
  | outputEvent b y => rfl
  | inputDelivered b x => rfl
  | outputComputed b k => rfl
  | inputEvent b x => rfl
  | stateChange b => rfl
  | transition b k =>
      have hb : ¬ b = a := fun hba => h k (by rw [hba])
      rw [transEvents, transEvents, List.filterMap_cons]
      dsimp only
      rw [if_neg hb]

omit [LinearOrderedRing T] [DecidableEq V] in
theorem transEvents_cons_self (a : ℕ) (k : TransKind T V) (l : List (Ev T V)) :
    transEvents a (Ev.transition a k :: l) = k :: transEvents a l := by
  rw [transEvents, transEvents, List.filterMap_cons]
  dsimp only
  rw [if_pos rfl]

omit [LinearOrderedRing T] [DecidableEq V] in
theorem transEvents_nil (a : ℕ) :
    ∀ (l : List (Ev T V)), (∀ ev ∈ l, ∀ k, ev ≠ Ev.transition a k) →
    transEvents a l = []
  | [], _ => rfl
  | ev :: rest, h => by
      rw [transEvents_cons_other a ev rest (h ev (List.mem_cons_self ev rest))]
      exact transEvents_nil a rest (fun e he k => h e (List.mem_cons_of_mem ev he) k)

omit [LinearOrderedRing T] [DecidableEq V] in
theorem transEvents_map_inputEvent (a b : ℕ) :
    ∀ (xs : List (PinValue V)),
    transEvents a (xs.map (fun x => Ev.inputEvent b x)) = ([] : List (TransKind T V))
  | [] => rfl
  | x :: rest => by
      rw [List.map_cons,
        transEvents_cons_other a _ _ (fun k hcon => Ev.noConfusion hcon)]
      exact transEvents_map_inputEvent a b rest

/-- What one `schedule(model, t)` call leaves untouched, plus the
effect on the scheduled model's entry (only its clocks change). -/
theorem scheduleA_shape {s s1 : SimState T V σ} {aid : ℕ} {t : T}
    (h : scheduleA s aid t = Except.ok s1) :
    s1.trace = s.trace ∧ s1.graph.pending = s.graph.pending ∧
    (∀ b, b ≠ aid → lookupA s1 b = lookupA s b) ∧
    (∀ e, lookupA s aid = some e → ∃ e2, lookupA s1 aid = some e2 ∧
      e2.st = e.st ∧ e2.inputs = e.inputs) := by
  rw [scheduleA] at h
  rcases hl : lookupA s aid with _ | e
  · rw [hl] at h
    cases h
  rw [hl] at h
  dsimp only at h
  by_cases h1 : e.ta e.st = s.inf
  · rw [if_pos h1] at h
    cases h
    refine ⟨rfl, rfl, fun b hb => lookupA_updateA_ne s aid b
      (fun e2 => { e2 with tL := t, tN := s.inf }) hb, fun e0 he0 => ?_⟩
    injection he0 with he0
    subst he0
    have hu := lookupA_updateA_self s aid
      (fun e2 => { e2 with tL := t, tN := s.inf })
    rw [hl] at hu
    exact ⟨_, hu, rfl, rfl⟩
  · rw [if_neg h1] at h
    by_cases h2 : e.ta e.st < 0
    · rw [if_pos h2] at h
      cases h
    · rw [if_neg h2] at h
      cases h
      refine ⟨rfl, rfl, fun b hb => lookupA_updateA_ne s aid b
        (fun e2 => { e2 with tL := t, tN := t + e.ta e.st }) hb, fun e0 he0 => ?_⟩
      injection he0 with he0
      subst he0
      have hu := lookupA_updateA_self s aid
        (fun e2 => { e2 with tL := t, tN := t + e.ta e.st })
      rw [hl] at hu
      exact ⟨_, hu, rfl, rfl⟩

/-- One `computeNextState` loop iteration on model `b` leaves the
entry and the recorded transitions of every other model unchanged. -/
theorem cnsStep_other {tnx t : T} {s s1 : SimState T V σ} {b a : ℕ}
    (h : cnsStep tnx t s b = Except.ok s1) (hne : a ≠ b) :
    lookupA s1 a = lookupA s a ∧ transEvents a s1.trace = transEvents a s.trace := by
  rw [cnsStep] at h
  rcases hl : lookupA s b with _ | e
  · rw [hl] at h
    cases h
  rw [hl] at h
  dsimp only at h
  set r : σ × TransKind T V × List (PinValue V) :=
    (if e.inputs = [] then (e.delta_int e.st, TransKind.int, e.inputs)
     else if e.tN = tnx then
       (e.delta_conf e.inputs e.st, TransKind.conf e.inputs, [])
     else (e.delta_ext (tnx - e.tL) e.inputs e.st,
       TransKind.ext (tnx - e.tL) e.inputs, [])) with hr
  obtain ⟨htr, -, hlkne, -⟩ := scheduleA_shape h
  constructor
  · rw [hlkne a hne]
    exact lookupA_updateA_ne
      { s with trace := s.trace ++ e.inputs.map (fun x => Ev.inputEvent b x) } b a
      (fun e0 => { e0 with st := r.1, inputs := r.2.2, outputs := [] }) hne
  · rw [htr]
    have hm1 : transEvents a (e.inputs.map (fun x => Ev.inputEvent b x)) =
        ([] : List (TransKind T V)) :=
      transEvents_map_inputEvent a b e.inputs
    have hm2 : transEvents a [Ev.transition b r.2.1, Ev.stateChange b] = [] := by
      rw [transEvents_cons_other a _ _
          (fun k hcon => by injection hcon with h1 h2; exact hne h1.symm),
        transEvents_cons_other a _ _ (fun k hcon => Ev.noConfusion hcon)]
      rfl
    have hmain : transEvents a
        ((s.trace ++ e.inputs.map (fun x => Ev.inputEvent b x)) ++
          [Ev.transition b r.2.1, Ev.stateChange b]) = transEvents a s.trace := by
      rw [transEvents_append, transEvents_append, hm1, hm2,
        List.append_nil, List.append_nil]
    exact hmain

/-- One `computeNextState` loop iteration on model `a` itself records
exactly one transition for `a`, dispatched by the input/imminence
rule, and stores the dispatched function's result as the new state. -/
theorem cnsStep_self {tnx t : T} {s s1 : SimState T V σ} {a : ℕ}
    {e : AtomicEntry T V σ}
    (h : cnsStep tnx t s a = Except.ok s1) (hl : lookupA s a = some e) :
    transEvents a s1.trace = transEvents a s.trace ++
      [if e.inputs = [] then TransKind.int
       else if e.tN = tnx then TransKind.conf e.inputs
       else TransKind.ext (tnx - e.tL) e.inputs] ∧
    ∃ e2, lookupA s1 a = some e2 ∧ e2.st =
      (if e.inputs = [] then e.delta_int e.st
       else if e.tN = tnx then e.delta_conf e.inputs e.st
       else e.delta_ext (tnx - e.tL) e.inputs e.st) := by
  rw [cnsStep] at h
  rw [hl] at h
  dsimp only at h
  set r : σ × TransKind T V × List (PinValue V) :=
    (if e.inputs = [] then (e.delta_int e.st, TransKind.int, e.inputs)
     else if e.tN = tnx then
       (e.delta_conf e.inputs e.st, TransKind.conf e.inputs, [])
     else (e.delta_ext (tnx - e.tL) e.inputs e.st,
       TransKind.ext (tnx - e.tL) e.inputs, [])) with hr
  have hk : r.2.1 = (if e.inputs = [] then TransKind.int
      else if e.tN = tnx then TransKind.conf e.inputs
      else TransKind.ext (tnx - e.tL) e.inputs) := by
    rw [hr]
    by_cases h1 : e.inputs = []
    · rw [if_pos h1, if_pos h1]
    · rw [if_neg h1, if_neg h1]
      by_cases h2 : e.tN = tnx
      · rw [if_pos h2, if_pos h2]
      · rw [if_neg h2, if_neg h2]
  have hstEq : r.1 = (if e.inputs = [] then e.delta_int e.st
      else if e.tN = tnx then e.delta_conf e.inputs e.st
      else e.delta_ext (tnx - e.tL) e.inputs e.st) := by
    rw [hr]
    by_cases h1 : e.inputs = []
    · rw [if_pos h1, if_pos h1]
    · rw [if_neg h1, if_neg h1]
      by_cases h2 : e.tN = tnx
      · rw [if_pos h2, if_pos h2]
      · rw [if_neg h2, if_neg h2]
  obtain ⟨htr, -, -, hlself⟩ := scheduleA_shape h
  constructor
  · rw [htr]
    have hm1 : transEvents a (e.inputs.map (fun x => Ev.inputEvent a x)) =
        ([] : List (TransKind T V)) :=
      transEvents_map_inputEvent a a e.inputs
    have hmain : transEvents a
        ((s.trace ++ e.inputs.map (fun x => Ev.inputEvent a x)) ++
          [Ev.transition a r.2.1, Ev.stateChange a]) =
        transEvents a s.trace ++
          [if e.inputs = [] then TransKind.int
           else if e.tN = tnx then TransKind.conf e.inputs
           else TransKind.ext (tnx - e.tL) e.inputs] := by
      rw [transEvents_append, transEvents_append, hm1, List.append_nil,
        transEvents_cons_self,
        transEvents_cons_other a (Ev.stateChange a) []
          (fun k hcon => Ev.noConfusion hcon), hk]
      rfl
    exact hmain
  · have hu := lookupA_updateA_self
      ({ s with trace := s.trace ++ e.inputs.map (fun x => Ev.inputEvent a x) } :
        SimState T V σ) a
      (fun e0 => { e0 with st := r.1, inputs := r.2.2, outputs := [] })
    rw [show lookupA ({ s with trace :=
        s.trace ++ e.inputs.map (fun x => Ev.inputEvent a x) } :
        SimState T V σ) a = some e from hl] at hu
    obtain ⟨e2, he2, hst2, -⟩ := hlself _ hu
    exact ⟨e2, he2, hst2.trans hstEq⟩

theorem cnsStep_pending {tnx t : T} {s s1 : SimState T V σ} {b : ℕ}
    (h : cnsStep tnx t s b = Except.ok s1) :
    s1.graph.pending = s.graph.pending := by
  rw [cnsStep] at h
  rcases hl : lookupA s b with _ | e
  · rw [hl] at h
    cases h
  rw [hl] at h
  dsimp only at h
  exact (scheduleA_shape h).2.1

theorem cnsLoop_pending {tnx t : T} :
    ∀ (l : List ℕ) (s s1 : SimState T V σ),
    cnsLoop tnx t l s = Except.ok s1 → s1.graph.pending = s.graph.pending
  | [], s, s1, h => by
      cases h
      rfl
  | b :: rest, s, s1, h => by
      rw [cnsLoop] at h
      rcases hc : cnsStep tnx t s b with er | s2
      · rw [hc] at h
        cases h
      rw [hc] at h
      rw [cnsLoop_pending rest s2 s1 h]
      exact cnsStep_pending hc

theorem cnsLoop_not_mem {tnx t : T} :
    ∀ (l : List ℕ) (s s1 : SimState T V σ) (a : ℕ),
    cnsLoop tnx t l s = Except.ok s1 → a ∉ l →
    lookupA s1 a = lookupA s a ∧ transEvents a s1.trace = transEvents a s.trace
  | [], s, s1, a, h, _ => by
      cases h
      exact ⟨rfl, rfl⟩
  | b :: rest, s, s1, a, h, hna => by
      rw [cnsLoop] at h
      rcases hc : cnsStep tnx t s b with er | s2
      · rw [hc] at h
        cases h
      rw [hc] at h
      have hab : a ≠ b := fun hx => hna (hx ▸ List.mem_cons_self b rest)
      obtain ⟨hlk2, htr2⟩ := cnsStep_other hc hab
      obtain ⟨hlk3, htr3⟩ := cnsLoop_not_mem rest s2 s1 a h
        (fun hx => hna (List.mem_cons_of_mem b hx))
      exact ⟨by rw [hlk3, hlk2], by rw [htr3, htr2]⟩

/-- Across the whole active loop, a model appearing once in the list
gets exactly one transition, dispatched by the input/imminence rule
from its entry at loop entry. -/
theorem cnsLoop_dispatch {tnx t : T} :
    ∀ (l : List ℕ) (s s1 : SimState T V σ) (a : ℕ) (e : AtomicEntry T V σ),
    cnsLoop tnx t l s = Except.ok s1 → a ∈ l → l.Nodup → lookupA s a = some e →
    transEvents a s1.trace = transEvents a s.trace ++
      [if e.inputs = [] then TransKind.int
       else if e.tN = tnx then TransKind.conf e.inputs
       else TransKind.ext (tnx - e.tL) e.inputs] ∧
    ∃ e2, lookupA s1 a = some e2 ∧ e2.st =
      (if e.inputs = [] then e.delta_int e.st
       else if e.tN = tnx then e.delta_conf e.inputs e.st
       else e.delta_ext (tnx - e.tL) e.inputs e.st)
  | [], s, s1, a, e, h, hmem, _, _ => absurd hmem (List.not_mem_nil a)
  | b :: rest, s, s1, a, e, h, hmem, hnd, hl => by
      rw [cnsLoop] at h
      rcases hc : cnsStep tnx t s b with er | s2
      · rw [hc] at h
        cases h
      rw [hc] at h
      rcases List.mem_cons.mp hmem with rfl | hmem2
      · obtain ⟨htr2, e2, he2, hst2⟩ := cnsStep_self hc hl
        obtain ⟨hlk3, htr3⟩ := cnsLoop_not_mem rest s2 s1 a h
          (List.nodup_cons.mp hnd).1
        constructor
        · rw [htr3, htr2]
        · refine ⟨e2, ?_, hst2⟩
          rw [hlk3]
          exact he2
      · have hab : a ≠ b := fun hx =>
          (List.nodup_cons.mp hnd).1 (hx ▸ hmem2)
        obtain ⟨hlk2, htr2⟩ := cnsStep_other hc hab
        have hl2 : lookupA s2 a = some e := by
          rw [hlk2]
          exact hl
        obtain ⟨htr3, hex⟩ := cnsLoop_dispatch rest s2 s1 a e h hmem2
          (List.nodup_cons.mp hnd).2 hl2
        exact ⟨by rw [htr3, htr2], hex⟩

end Seq

end Adevs

namespace Adevs

namespace Seq

/-- One Moore atomic with an input on its list and `tN = 4` equal to
`tNext`: the confluent case of the dispatch. -/
def c1Entry : AtomicEntry ℤ ℕ ℕ :=
  ⟨false, fun _ => (9 : ℤ), id, fun _ _ => id, fun _ st => st + 1,
    fun _ => [], fun _ _ => [], fun _ _ _ => [], 0, 0, 4, [⟨5, 7⟩], []⟩

def c1Test : SimState ℤ ℕ ℕ :=
  ⟨⟨[(0, c1Entry)], [], [], true, []⟩, [], [0], [(0, 4)], 4, 2 ^ 62, 1, []⟩

/-- The state `computeNextState` produces on `c1Test`: `delta_conf`
was applied, the model was rescheduled at `t = 5` with `tN = 14`. -/
def c1After : SimState ℤ ℕ ℕ :=
  ⟨⟨[(0, { c1Entry with st := 1, tL := 5, tN := 14, inputs := [] })],
      [], [], true, []⟩,
    [], [], [(0, 14)], 14, 2 ^ 62, 1,
    [.inputEvent 0 ⟨5, 7⟩, .transition 0 (.conf [⟨5, 7⟩]), .stateChange 0]⟩

theorem c1_run : computeNextState c1Test = Except.ok (5, c1After) := rfl

end Seq

end Adevs

/-- C1: a successful `computeNextState` gives each model of the active
set (taken without duplicates) exactly one new transition event:
`delta_int` when its input list is empty, `delta_conf(inputs)` when it
has input and its `tN` equals the current `tNext`, and
`delta_ext(tNext - tL, inputs)` otherwise, with the elapsed time equal
to `tNext` minus the model's last-event time; the model's new state is
the result of exactly that dispatched function. -/
theorem Adevs.Seq.c1_transition_dispatch {T V σ : Type}
    [LinearOrderedRing T] [DecidableEq V]
    (s : Adevs.Seq.SimState T V σ) (t2 : T) (s2 : Adevs.Seq.SimState T V σ)
    (a : ℕ) (e : Adevs.Seq.AtomicEntry T V σ)
    (hok : Adevs.Seq.computeNextState s = Except.ok (t2, s2))
    (ha : a ∈ s.active) (hnd : s.active.Nodup)
    (hl : Adevs.Seq.lookupA s a = some e) (hpend : s.graph.pending = []) :
    Adevs.Seq.transEvents a s2.trace = Adevs.Seq.transEvents a s.trace ++
      [if e.inputs = [] then Adevs.Seq.TransKind.int
       else if e.tN = s.tNext then Adevs.Seq.TransKind.conf e.inputs
       else Adevs.Seq.TransKind.ext (s.tNext - e.tL) e.inputs] ∧
    ∃ e2, Adevs.Seq.lookupA s2 a = some e2 ∧ e2.st =
      (if e.inputs = [] then e.delta_int e.st
       else if e.tN = s.tNext then e.delta_conf e.inputs e.st
       else e.delta_ext (s.tNext - e.tL) e.inputs e.st) := by
  rw [Adevs.Seq.computeNextState] at hok
  rcases hc : Adevs.Seq.cnsLoop s.tNext (s.tNext + s.eps) s.active s with er | sl
  · rw [hc] at hok
    cases hok
  rw [hc] at hok
  dsimp only at hok
  rw [show sl.graph.pending = ([] : List (Adevs.Seq.GraphOp T V σ)) from
    (Adevs.Seq.cnsLoop_pending s.active s sl hc).trans hpend] at hok
  rw [Adevs.Seq.drainOps] at hok
  dsimp only at hok
  injection hok with hok
  injection hok with h1 h2
  subst h2
  obtain ⟨htr, e2, he2, hst⟩ :=
    Adevs.Seq.cnsLoop_dispatch s.active s sl a e hc ha hnd hl
  exact ⟨htr, e2, he2, hst⟩

/-- Witness for C1: on the concrete state, the imminent model with
input gets exactly one `delta_conf(inputs)` transition and its new
state is `delta_conf([⟨5, 7⟩], 0) = 1`. -/
theorem Adevs.Seq.c1_transition_dispatch_witness :
    Adevs.Seq.transEvents 0 Adevs.Seq.c1After.trace =
      Adevs.Seq.transEvents 0 Adevs.Seq.c1Test.trace ++
        [Adevs.Seq.TransKind.conf [⟨5, 7⟩]] ∧
    ∃ e2, Adevs.Seq.lookupA Adevs.Seq.c1After 0 = some e2 ∧
      e2.st = Adevs.Seq.c1Entry.delta_conf [⟨5, 7⟩] Adevs.Seq.c1Entry.st :=
  Adevs.Seq.c1_transition_dispatch Adevs.Seq.c1Test 5 Adevs.Seq.c1After 0
    Adevs.Seq.c1Entry Adevs.Seq.c1_run (by decide) (by decide) rfl rfl

/-! ### Claim C7: definitions and trace-delta lemmas -/

namespace Adevs

namespace Seq

variable {T V σ : Type} [LinearOrderedRing T] [DecidableEq V]

omit [LinearOrderedRing T] [DecidableEq V] in
/-- No model ever receives an input after a Mealy output computation
of its own: in trace order, an `outputComputed a k` event with
`k ≠ moore` is never followed by an `inputDelivered a x` event. -/
def NoLate (tr : List (Ev T V)) : Prop :=
  List.Pairwise (fun e1 e2 => ∀ a k x, e1 = Ev.outputComputed a k →
    k ≠ OutKind.moore → e2 ≠ Ev.inputDelivered a x) tr

omit [LinearOrderedRing T] [DecidableEq V] in
/-- Every output computation recorded so far is a Moore one. -/
def NoMealyOut (tr : List (Ev T V)) : Prop :=
  ∀ a k, Ev.outputComputed a k ∈ tr → k = OutKind.moore

/-- Every model whose Mealy output has been computed is in the active
set and is a Mealy model. -/
def MealyOutOK (o : OutSt T V σ) : Prop :=
  ∀ a k, Ev.outputComputed a k ∈ o.sim.trace → k ≠ OutKind.moore →
    a ∈ o.sim.active ∧ ∃ e, lookupA o.sim a = some e ∧ e.isMealy = true

/-- Every model in `pending_active` is a Mealy model. -/
def PendMealy (o : OutSt T V σ) : Prop :=
  ∀ a ∈ o.pending, ∃ e, lookupA o.sim a = some e ∧ e.isMealy = true

/-- The invariant of `computeNextOutput` that forbids late Mealy
inputs. -/
def Inv7 (o : OutSt T V σ) : Prop :=
  NoLate o.sim.trace ∧ MealyOutOK o ∧ PendMealy o

omit [LinearOrderedRing T] [DecidableEq V] in
theorem noLate_append (tr : List (Ev T V)) (ev : Ev T V) (h : NoLate tr)
    (hev : ∀ a k, Ev.outputComputed a k ∈ tr → k ≠ OutKind.moore →
      ∀ x, ev ≠ Ev.inputDelivered a x) : NoLate (tr ++ [ev]) := by
  rw [NoLate, List.pairwise_append]
  refine ⟨h, List.pairwise_singleton _ _, ?_⟩
  intro e1 he1 e2 he2
  rw [List.mem_singleton] at he2
  subst he2
  intro a k x h1 h2
  exact hev a k (h1 ▸ he1) h2 x

omit [LinearOrderedRing T] [DecidableEq V] in
theorem noMealyOut_append (tr d : List (Ev T V)) (h : NoMealyOut tr)
    (hd : ∀ ev ∈ d, ∀ a k, ev = Ev.outputComputed a k → k = OutKind.moore) :
    NoMealyOut (tr ++ d) := by
  intro a k hk
  rcases List.mem_append.mp hk with h1 | h1
  · exact h a k h1
  · exact hd _ h1 a k rfl

omit [LinearOrderedRing T] [DecidableEq V] in
theorem deliver_delta {check : Bool} {src : ℕ} {v : V} :
    ∀ (cs : List (ℕ × ℕ)) (o o' : OutSt T V σ),
    deliver check src v cs o = Except.ok o' →
    ∃ d, o'.sim.trace = o.sim.trace ++ d ∧
      ∀ ev ∈ d, ∃ a x, ev = Ev.inputDelivered a x
  | [], o, o', h => by
      cases h
      exact ⟨[], by simp, fun ev hev => absurd hev (List.not_mem_nil ev)⟩
  | (pin, aid) :: rest, o, o', h => by
      rw [deliver] at h
      rcases hl : lookupA o.sim aid with _ | e
      · rw [hl] at h
        cases h
      rw [hl] at h
      dsimp only at h
      have hnext : ∀ (o1 : OutSt T V σ), deliver check src v rest o1 = Except.ok o' →
          o1.sim.trace = o.sim.trace ++ [Ev.inputDelivered aid ⟨pin, v⟩] →
          ∃ d, o'.sim.trace = o.sim.trace ++ d ∧
            ∀ ev ∈ d, ∃ a x, ev = Ev.inputDelivered a x := by
        intro o1 h1 htr
        obtain ⟨d, hd, hall⟩ := deliver_delta rest o1 o' h1
        refine ⟨[Ev.inputDelivered aid ⟨pin, v⟩] ++ d, ?_, ?_⟩
        · rw [hd, htr, List.append_assoc]
        · intro ev hev
          rcases List.mem_append.mp hev with h2 | h2
          · exact ⟨aid, ⟨pin, v⟩, List.mem_singleton.mp h2⟩
          · exact hall ev h2
      by_cases hm : e.isMealy = true
      · rw [if_pos hm] at h
        by_cases hc : check = true ∧ aid ∈ o.sim.active
        · rw [if_pos hc] at h
          cases h
        · rw [if_neg hc] at h
          refine hnext _ h ?_
          rw [addPending]
          by_cases hmem : aid ∈ o.pending
          · rw [if_pos hmem]
            rfl
          · rw [if_neg hmem]
            rfl
      · rw [if_neg hm] at h
        refine hnext _ h ?_
        rw [addActive]
        by_cases hmem : aid ∈ o.sim.active
        · rw [if_pos hmem]
          rfl
        · rw [if_neg hmem]
          rfl

omit [LinearOrderedRing T] [DecidableEq V] in
theorem routeOutput_delta {check : Bool} {src : ℕ} {y : PinValue V}
    {o o' : OutSt T V σ} (h : routeOutput check src y o = Except.ok o') :
    ∃ d, o'.sim.trace = o.sim.trace ++ d ∧
      ∀ ev ∈ d, (∃ a z, ev = Ev.outputEvent a z) ∨
        ∃ a x, ev = Ev.inputDelivered a x := by
  rw [routeOutput] at h
  obtain ⟨d, hd, hall⟩ := deliver_delta _ _ _ h
  refine ⟨[Ev.outputEvent src y] ++ d, ?_, ?_⟩
  · rw [show o'.sim.trace = (o.sim.trace ++ [Ev.outputEvent src y]) ++ d from hd,
      List.append_assoc]
  · intro ev hev
    rcases List.mem_append.mp hev with h2 | h2
    · exact Or.inl ⟨src, y, List.mem_singleton.mp h2⟩
    · exact Or.inr (hall ev h2)

omit [LinearOrderedRing T] [DecidableEq V] in
theorem routeOutputs_delta {check : Bool} {src : ℕ} :
    ∀ (ys : List (PinValue V)) (o o' : OutSt T V σ),
    routeOutputs check src ys o = Except.ok o' →
    ∃ d, o'.sim.trace = o.sim.trace ++ d ∧
      ∀ ev ∈ d, (∃ a z, ev = Ev.outputEvent a z) ∨
        ∃ a x, ev = Ev.inputDelivered a x
  | [], o, o', h => by
      cases h
      exact ⟨[], by simp, fun ev hev => absurd hev (List.not_mem_nil ev)⟩
  | y :: rest, o, o', h => by
      rw [routeOutputs] at h
      rcases hr : routeOutput check src y o with e1 | o1
      · rw [hr] at h
        cases h
      rw [hr] at h
      obtain ⟨d1, hd1, hall1⟩ := routeOutput_delta hr
      obtain ⟨d2, hd2, hall2⟩ := routeOutputs_delta rest o1 o' h
      refine ⟨d1 ++ d2, by rw [hd2, hd1, List.append_assoc], ?_⟩
      intro ev hev
      rcases List.mem_append.mp hev with h2 | h2
      · exact hall1 ev h2
      · exact hall2 ev h2

omit [LinearOrderedRing T] [DecidableEq V] in
theorem routeInjected_delta :
    ∀ (ys : List (PinValue V)) (o o' : OutSt T V σ),
    routeInjected ys o = Except.ok o' →
    ∃ d, o'.sim.trace = o.sim.trace ++ d ∧
      ∀ ev ∈ d, ∃ a x, ev = Ev.inputDelivered a x
  | [], o, o', h => by
      cases h
      exact ⟨[], by simp, fun ev hev => absurd hev (List.not_mem_nil ev)⟩
  | y :: rest, o, o', h => by
      rw [routeInjected] at h
      rcases hr : deliver false 0 y.value (route o.sim.graph y.pin) o with e1 | o1
      · rw [hr] at h
        cases h
      rw [hr] at h
      obtain ⟨d1, hd1, hall1⟩ := deliver_delta _ _ _ hr
      obtain ⟨d2, hd2, hall2⟩ := routeInjected_delta rest o1 o' h
      refine ⟨d1 ++ d2, by rw [hd2, hd1, List.append_assoc], ?_⟩
      intro ev hev
      rcases List.mem_append.mp hev with h2 | h2
      · exact hall1 ev h2
      · exact hall2 ev h2

theorem imminentPhase_delta :
    ∀ (l : List ℕ) (o o' : OutSt T V σ),
    imminentPhase l o = Except.ok o' →
    ∃ d, o'.sim.trace = o.sim.trace ++ d ∧
      ∀ ev ∈ d, (∃ a x, ev = Ev.inputDelivered a x) ∨
        (∃ a z, ev = Ev.outputEvent a z) ∨
        ∃ a, ev = Ev.outputComputed a OutKind.moore
  | [], o, o', h => by
      cases h
      exact ⟨[], by simp, fun ev hev => absurd hev (List.not_mem_nil ev)⟩
  | aid :: rest, o, o', h => by
      rw [imminentPhase] at h
      rcases hl : lookupA o.sim aid with _ | e
      · rw [hl] at h
        cases h
      rw [hl] at h
      dsimp only at h
      by_cases hm : e.isMealy = true
      · rw [if_pos hm] at h
        obtain ⟨d, hd, hall⟩ := imminentPhase_delta rest _ o' h
        refine ⟨d, ?_, hall⟩
        rw [hd, addPending_sim]
      · rw [if_neg hm] at h
        rcases hr : routeOutputs false aid (e.outputs ++ e.output_fn e.st)
            (pushTrace (.outputComputed aid .moore)
              { (addActive aid o) with
                sim := updateA (addActive aid o).sim aid
                  (fun e0 => { e0 with outputs := e.outputs ++ e.output_fn e.st }) })
          with e1 | o2
        · rw [hr] at h
          cases h
        rw [hr] at h
        obtain ⟨d2, hd2, hall2⟩ := routeOutputs_delta _ _ _ hr
        obtain ⟨d3, hd3, hall3⟩ := imminentPhase_delta rest o2 o' h
        have htr : (pushTrace (Ev.outputComputed aid OutKind.moore)
            { (addActive aid o) with
              sim := updateA (addActive aid o).sim aid
                (fun e0 => { e0 with outputs := e.outputs ++ e.output_fn e.st }) }).sim.trace
            = o.sim.trace ++ [Ev.outputComputed aid OutKind.moore] := by
          have h0 : (addActive aid o).sim.trace = o.sim.trace := addActive_trace aid o
          show (addActive aid o).sim.trace ++ [Ev.outputComputed aid OutKind.moore] = _
          rw [h0]
        refine ⟨([Ev.outputComputed aid OutKind.moore] ++ d2) ++ d3, ?_, ?_⟩
        · rw [hd3, hd2, htr]
          simp only [List.append_assoc]
        · intro ev hev
          rcases List.mem_append.mp hev with h2 | h2
          · rcases List.mem_append.mp h2 with h3 | h3
            · exact Or.inr (Or.inr ⟨aid, List.mem_singleton.mp h3⟩)
            · rcases hall2 ev h3 with h4 | h4
              · exact Or.inr (Or.inl h4)
              · exact Or.inl h4
          · exact hall3 ev h2

theorem pendingLoop_delta :
    ∀ (fuel : ℕ) (o o' : OutSt T V σ),
    pendingLoop fuel o = Except.ok o' →
    ∃ d, o'.sim.trace = o.sim.trace ++ d ∧
      ∀ ev ∈ d, (∃ a x, ev = Ev.inputDelivered a x) ∨
        (∃ a z, ev = Ev.outputEvent a z) ∨
        ∃ a k, ev = Ev.outputComputed a k ∧ k ≠ OutKind.moore
  | 0, o, o', h => by
      rw [pendingLoop] at h
      rcases hp : o.pending with _ | ⟨aid, rest⟩
      · rw [hp] at h
        cases h
        exact ⟨[], by simp, fun ev hev => absurd hev (List.not_mem_nil ev)⟩
      · rw [hp] at h
        cases h
  | fuel + 1, o, o', h => by
      rw [pendingLoop] at h
      rcases hp : o.pending with _ | ⟨aid, rest⟩
      · rw [hp] at h
        cases h
        exact ⟨[], by simp, fun ev hev => absurd hev (List.not_mem_nil ev)⟩
      rw [hp] at h
      dsimp only at h
      rcases hl : lookupA o.sim aid with _ | e
      · rw [hl] at h
        cases h
      rw [hl] at h
      dsimp only at h
      set yk : List (PinValue V) × OutKind :=
        (if e.inputs = [] ∧ e.tN = o.sim.tNext then
            (e.output_fn e.st, OutKind.mealyInt)
          else if e.tN = o.sim.tNext then
            (e.confluent_output_fn e.inputs e.st, OutKind.mealyConf)
          else
            (e.external_output_fn (o.sim.tNext - e.tL) e.inputs e.st,
              OutKind.mealyExt)) with hyk
      have hk : yk.2 ≠ OutKind.moore := by
        rw [hyk]
        by_cases h1 : e.inputs = [] ∧ e.tN = o.sim.tNext
        · rw [if_pos h1]
          exact fun hcon => OutKind.noConfusion hcon
        · rw [if_neg h1]
          by_cases h2 : e.tN = o.sim.tNext
          · rw [if_pos h2]
            exact fun hcon => OutKind.noConfusion hcon
          · rw [if_neg h2]
            exact fun hcon => OutKind.noConfusion hcon
      rcases hr : routeOutputs true aid (e.outputs ++ yk.1)
          (pushTrace (Ev.outputComputed aid yk.2)
            { (addActive aid { o with pending := rest }) with
              sim := updateA (addActive aid { o with pending := rest }).sim aid
                (fun e0 => { e0 with outputs := e.outputs ++ yk.1 }) })
        with e1 | o3
      · rw [hr] at h
        cases h
      rw [hr] at h
      obtain ⟨d2, hd2, hall2⟩ := routeOutputs_delta _ _ _ hr
      obtain ⟨d3, hd3, hall3⟩ := pendingLoop_delta fuel o3 o' h
      have htr : (pushTrace (Ev.outputComputed aid yk.2)
          { (addActive aid { o with pending := rest }) with
            sim := updateA (addActive aid { o with pending := rest }).sim aid
              (fun e0 => { e0 with outputs := e.outputs ++ yk.1 }) }).sim.trace
          = o.sim.trace ++ [Ev.outputComputed aid yk.2] := by
        have h0 : (addActive aid { o with pending := rest }).sim.trace =
            o.sim.trace := addActive_trace aid { o with pending := rest }
        show (addActive aid { o with pending := rest }).sim.trace ++
          [Ev.outputComputed aid yk.2] = _
        rw [h0]
      refine ⟨([Ev.outputComputed aid yk.2] ++ d2) ++ d3, ?_, ?_⟩
      · rw [hd3, hd2, htr]
        simp only [List.append_assoc]
      · intro ev hev
        rcases List.mem_append.mp hev with h2 | h2
        · rcases List.mem_append.mp h2 with h3 | h3
          · exact Or.inr (Or.inr ⟨aid, yk.2, List.mem_singleton.mp h3, hk⟩)
          · rcases hall2 ev h3 with h4 | h4
            · exact Or.inr (Or.inl h4)
            · exact Or.inl h4
        · exact hall3 ev h2

theorem imminentPhase_computes :
    ∀ (l : List ℕ) (o o' : OutSt T V σ),
    imminentPhase l o = Except.ok o' →
    ∀ a ∈ l, ∀ e, lookupA o.sim a = some e → e.isMealy = false →
    Ev.outputComputed a OutKind.moore ∈ o'.sim.trace
  | [], o, o', h => fun a ha => absurd ha (List.not_mem_nil a)
  | aid :: rest, o, o', h => by
      intro a ha e he hmoore
      rw [imminentPhase] at h
      rcases hl : lookupA o.sim aid with _ | e1
      · rw [hl] at h
        cases h
      rw [hl] at h
      dsimp only at h
      rcases List.mem_cons.mp ha with rfl | ha2
      · rw [hl] at he
        injection he with he2
        have hmoore1 : e1.isMealy = false := by
          rw [he2]
          exact hmoore
        have hm2 : ¬ (e1.isMealy = true) := by
          rw [hmoore1]
          exact Bool.false_ne_true
        rw [if_neg hm2] at h
        rcases hr : routeOutputs false a (e1.outputs ++ e1.output_fn e1.st)
            (pushTrace (.outputComputed a .moore)
              { (addActive a o) with
                sim := updateA (addActive a o).sim a
                  (fun e0 => { e0 with outputs := e1.outputs ++ e1.output_fn e1.st }) })
          with er | o2
        · rw [hr] at h
          cases h
        rw [hr] at h
        refine mem_trace_of_stable (stable_imminentPhase rest o2 o' h) ?_
        refine mem_trace_of_stable (stable_routeOutputs _ _ _ hr) ?_
        exact List.mem_append_right _ (List.mem_singleton_self _)
      · by_cases hm : e1.isMealy = true
        · rw [if_pos hm] at h
          refine imminentPhase_computes rest _ o' h a ha2 e ?_ hmoore
          rw [addPending_sim]
          exact he
        · rw [if_neg hm] at h
          rcases hr : routeOutputs false aid (e1.outputs ++ e1.output_fn e1.st)
              (pushTrace (.outputComputed aid .moore)
                { (addActive aid o) with
                  sim := updateA (addActive aid o).sim aid
                    (fun e0 => { e0 with outputs := e1.outputs ++ e1.output_fn e1.st }) })
            with er | o2
          · rw [hr] at h
            cases h
          rw [hr] at h
          have hst : Stable o o2 := by
            refine stable_trans (stable_addActive aid o)
              (stable_trans ?_ (stable_routeOutputs _ _ _ hr))
            exact stable_trans (stable_updOutputs aid _ (addActive aid o))
              (stable_pushTrace _ _)
          obtain ⟨e2, he2, hm3, -, -, -, -, -⟩ :=
            hst.2.2.2.2.2.2.2.2.2 a e he
          exact imminentPhase_computes rest o2 o' h a ha2 e2 he2
            (hm3.trans hmoore)

end Seq

end Adevs

namespace Adevs

namespace Seq

variable {T V σ : Type} [LinearOrderedRing T] [DecidableEq V]

omit [LinearOrderedRing T] [DecidableEq V] in
theorem addActive_active_mono (aid : ℕ) (o : OutSt T V σ) (a : ℕ)
    (h : a ∈ o.sim.active) : a ∈ (addActive aid o).sim.active := by
  rw [addActive]
  by_cases hmem : aid ∈ o.sim.active
  · rw [if_pos hmem]
    exact h
  · rw [if_neg hmem]
    exact List.mem_append_left _ h

omit [LinearOrderedRing T] [DecidableEq V] in
theorem addActive_active_self (aid : ℕ) (o : OutSt T V σ) :
    aid ∈ (addActive aid o).sim.active := by
  rw [addActive]
  by_cases hmem : aid ∈ o.sim.active
  · rw [if_pos hmem]
    exact hmem
  · rw [if_neg hmem]
    exact List.mem_append_right _ (List.mem_singleton_self _)

omit [LinearOrderedRing T] [DecidableEq V] in
theorem updateA_lookup_isMealy (s : SimState T V σ) (aid : ℕ)
    (f : AtomicEntry T V σ → AtomicEntry T V σ)
    (hf : ∀ e0, (f e0).isMealy = e0.isMealy) (a : ℕ) (e2 : AtomicEntry T V σ)
    (he2 : lookupA s a = some e2) :
    ∃ e3, lookupA (updateA s aid f) a = some e3 ∧ e3.isMealy = e2.isMealy := by
  by_cases heq : a = aid
  · subst heq
    have hu := lookupA_updateA_self s a f
    rw [he2] at hu
    exact ⟨f e2, hu, hf e2⟩
  · have hu := lookupA_updateA_ne s aid a f heq
    rw [he2] at hu
    exact ⟨e2, hu, rfl⟩

omit [LinearOrderedRing T] [DecidableEq V] in
theorem pushInput_lookup_isMealy (aid : ℕ) (x : PinValue V) (o : OutSt T V σ)
    (a : ℕ) (e2 : AtomicEntry T V σ) (he2 : lookupA o.sim a = some e2) :
    ∃ e3, lookupA (pushInput aid x o).sim a = some e3 ∧ e3.isMealy = e2.isMealy :=
  updateA_lookup_isMealy o.sim aid
    (fun e0 => { e0 with inputs := e0.inputs ++ [x] }) (fun _ => rfl) a e2 he2

omit [LinearOrderedRing T] [DecidableEq V] in
theorem inv7_pushTrace_outputEvent (src : ℕ) (y : PinValue V) (o : OutSt T V σ)
    (hi : Inv7 o) : Inv7 (pushTrace (Ev.outputEvent src y) o) := by
  obtain ⟨hnl, hmo, hpm⟩ := hi
  refine ⟨noLate_append _ _ hnl
    (fun a k hk hkm x hcon => Ev.noConfusion hcon), ?_, hpm⟩
  intro a k hk hkm
  have hk2 : Ev.outputComputed a k ∈ o.sim.trace ++ [Ev.outputEvent src y] := hk
  rcases List.mem_append.mp hk2 with h1 | h1
  · exact hmo a k h1 hkm
  · rw [List.mem_singleton] at h1
    exact absurd h1 (fun hcon => Ev.noConfusion hcon)

theorem inv7_pushInput_addPending (aid : ℕ) (x : PinValue V) (o : OutSt T V σ)
    (hi : Inv7 o) (e : AtomicEntry T V σ) (hl : lookupA o.sim aid = some e)
    (hm : e.isMealy = true)
    (hno : ∀ k, Ev.outputComputed aid k ∈ o.sim.trace → k = OutKind.moore) :
    Inv7 (pushInput aid x (addPending aid o)) := by
  obtain ⟨hnl, hmo, hpm⟩ := hi
  have hOsim : (addPending aid o).sim = o.sim := addPending_sim aid o
  have htr : (pushInput aid x (addPending aid o)).sim.trace =
      o.sim.trace ++ [Ev.inputDelivered aid x] := by
    show (addPending aid o).sim.trace ++ [Ev.inputDelivered aid x] = _
    rw [hOsim]
  refine ⟨?_, ?_, ?_⟩
  · rw [htr]
    refine noLate_append _ _ hnl ?_
    intro a k hk hkm x2 hcon
    injection hcon with h1 h2
    subst h1
    exact hkm (hno k hk)
  · intro a k hk hkm
    rw [htr] at hk
    rcases List.mem_append.mp hk with h1 | h1
    · obtain ⟨hact, e2, he2, hm2⟩ := hmo a k h1 hkm
      constructor
      · have h3 : a ∈ (addPending aid o).sim.active := by
          rw [hOsim]
          exact hact
        exact h3
      · obtain ⟨e3, he4, hm3⟩ := pushInput_lookup_isMealy aid x (addPending aid o)
          a e2 (by rw [hOsim]; exact he2)
        exact ⟨e3, he4, hm3.trans hm2⟩
    · rw [List.mem_singleton] at h1
      exact absurd h1 (fun hcon => Ev.noConfusion hcon)
  · intro a ha
    have ha2 : a ∈ (addPending aid o).pending := ha
    have hcase : a ∈ o.pending ∨ a = aid := by
      rw [addPending] at ha2
      by_cases hmem : aid ∈ o.pending
      · rw [if_pos hmem] at ha2
        exact Or.inl ha2
      · rw [if_neg hmem] at ha2
        rcases List.mem_append.mp ha2 with h1 | h1
        · exact Or.inl h1
        · exact Or.inr (List.mem_singleton.mp h1)
    rcases hcase with h1 | heq
    · obtain ⟨e2, he2, hm2⟩ := hpm a h1
      obtain ⟨e3, he4, hm3⟩ := pushInput_lookup_isMealy aid x (addPending aid o)
        a e2 (by rw [hOsim]; exact he2)
      exact ⟨e3, he4, hm3.trans hm2⟩
    · obtain ⟨e3, he4, hm3⟩ := pushInput_lookup_isMealy aid x (addPending aid o)
        a e (by rw [hOsim, heq]; exact hl)
      exact ⟨e3, he4, hm3.trans hm⟩

theorem inv7_pushInput_addActive (aid : ℕ) (x : PinValue V) (o : OutSt T V σ)
    (hi : Inv7 o) (e : AtomicEntry T V σ) (hl : lookupA o.sim aid = some e)
    (hm : e.isMealy = false) :
    Inv7 (pushInput aid x (addActive aid o)) := by
  obtain ⟨hnl, hmo, hpm⟩ := hi
  have htr : (pushInput aid x (addActive aid o)).sim.trace =
      o.sim.trace ++ [Ev.inputDelivered aid x] := by
    show (addActive aid o).sim.trace ++ [Ev.inputDelivered aid x] = _
    rw [addActive_trace]
  refine ⟨?_, ?_, ?_⟩
  · rw [htr]
    refine noLate_append _ _ hnl ?_
    intro a k hk hkm x2 hcon
    injection hcon with h1 h2
    obtain ⟨hact, e2, he2, hm2⟩ := hmo a k hk hkm
    rw [← h1, hl] at he2
    injection he2 with he3
    rw [← he3, hm] at hm2
    exact Bool.false_ne_true hm2
  · intro a k hk hkm
    rw [htr] at hk
    rcases List.mem_append.mp hk with h1 | h1
    · obtain ⟨hact, e2, he2, hm2⟩ := hmo a k h1 hkm
      refine ⟨addActive_active_mono aid o a hact, ?_⟩
      obtain ⟨e3, he4, hm3⟩ := pushInput_lookup_isMealy aid x (addActive aid o)
        a e2 (by rw [addActive_lookupA]; exact he2)
      exact ⟨e3, he4, hm3.trans hm2⟩
    · rw [List.mem_singleton] at h1
      exact absurd h1 (fun hcon => Ev.noConfusion hcon)
  · intro a ha
    have ha2 : a ∈ (addActive aid o).pending := ha
    rw [addActive_pending] at ha2
    obtain ⟨e2, he2, hm2⟩ := hpm a ha2
    obtain ⟨e3, he4, hm3⟩ := pushInput_lookup_isMealy aid x (addActive aid o)
      a e2 (by rw [addActive_lookupA]; exact he2)
    exact ⟨e3, he4, hm3.trans hm2⟩

theorem inv7_deliver {check : Bool} {src : ℕ} {v : V} :
    ∀ (cs : List (ℕ × ℕ)) (o o' : OutSt T V σ),
    deliver check src v cs o = Except.ok o' →
    Inv7 o → (check = true ∨ NoMealyOut o.sim.trace) → Inv7 o'
  | [], o, o', h, hi, _ => by
      cases h
      exact hi
  | (pin, aid) :: rest, o, o', h, hi, hsafe => by
      rw [deliver] at h
      rcases hl : lookupA o.sim aid with _ | e
      · rw [hl] at h
        cases h
      rw [hl] at h
      dsimp only at h
      by_cases hm : e.isMealy = true
      · rw [if_pos hm] at h
        by_cases hc : check = true ∧ aid ∈ o.sim.active
        · rw [if_pos hc] at h
          cases h
        · rw [if_neg hc] at h
          have hno : ∀ k, Ev.outputComputed aid k ∈ o.sim.trace →
              k = OutKind.moore := by
            intro k hk
            by_contra hkm
            rcases hsafe with hck | hnomealy
            · exact hc ⟨hck, (hi.2.1 aid k hk hkm).1⟩
            · exact hkm (hnomealy aid k hk)
          refine inv7_deliver rest _ o' h
            (inv7_pushInput_addPending aid ⟨pin, v⟩ o hi e hl hm hno) ?_
          rcases hsafe with hck | hnomealy
          · exact Or.inl hck
          · refine Or.inr ?_
            have htr : (pushInput aid ⟨pin, v⟩ (addPending aid o)).sim.trace =
                o.sim.trace ++ [Ev.inputDelivered aid ⟨pin, v⟩] := by
              show (addPending aid o).sim.trace ++ _ = _
              rw [addPending_sim]
            rw [htr]
            refine noMealyOut_append _ _ hnomealy ?_
            intro ev hev a k hcon
            rw [List.mem_singleton.mp hev] at hcon
            exact Ev.noConfusion hcon
      · rw [if_neg hm] at h
        have hmf : e.isMealy = false := by
          cases hbe : e.isMealy
          · rfl
          · exact absurd hbe hm
        refine inv7_deliver rest _ o' h
          (inv7_pushInput_addActive aid ⟨pin, v⟩ o hi e hl hmf) ?_
        rcases hsafe with hck | hnomealy
        · exact Or.inl hck
        · refine Or.inr ?_
          have htr : (pushInput aid ⟨pin, v⟩ (addActive aid o)).sim.trace =
              o.sim.trace ++ [Ev.inputDelivered aid ⟨pin, v⟩] := by
            show (addActive aid o).sim.trace ++ _ = _
            rw [addActive_trace]
          rw [htr]
          refine noMealyOut_append _ _ hnomealy ?_
          intro ev hev a k hcon
          rw [List.mem_singleton.mp hev] at hcon
          exact Ev.noConfusion hcon

theorem inv7_routeOutput {check : Bool} {src : ℕ} {y : PinValue V}
    {o o' : OutSt T V σ} (h : routeOutput check src y o = Except.ok o')
    (hi : Inv7 o) (hsafe : check = true ∨ NoMealyOut o.sim.trace) : Inv7 o' := by
  rw [routeOutput] at h
  refine inv7_deliver _ _ o' h (inv7_pushTrace_outputEvent src y o hi) ?_
  rcases hsafe with hck | hno
  · exact Or.inl hck
  · refine Or.inr ?_
    show NoMealyOut (o.sim.trace ++ [Ev.outputEvent src y])
    refine noMealyOut_append _ _ hno ?_
    intro ev hev a k hcon
    rw [List.mem_singleton.mp hev] at hcon
    exact Ev.noConfusion hcon

theorem inv7_routeOutputs {check : Bool} {src : ℕ} :
    ∀ (ys : List (PinValue V)) (o o' : OutSt T V σ),
    routeOutputs check src ys o = Except.ok o' →
    Inv7 o → (check = true ∨ NoMealyOut o.sim.trace) → Inv7 o'
  | [], o, o', h, hi, _ => by
      cases h
      exact hi
  | y :: rest, o, o', h, hi, hsafe => by
      rw [routeOutputs] at h
      rcases hr : routeOutput check src y o with e1 | o1
      · rw [hr] at h
        cases h
      rw [hr] at h
      refine inv7_routeOutputs rest o1 o' h (inv7_routeOutput hr hi hsafe) ?_
      rcases hsafe with hck | hno
      · exact Or.inl hck
      · obtain ⟨d, hd, hall⟩ := routeOutput_delta hr
        refine Or.inr ?_
        rw [hd]
        refine noMealyOut_append _ _ hno ?_
        intro ev hev a k hcon
        rcases hall ev hev with ⟨a2, z2, hz⟩ | ⟨a2, x2, hx⟩
        · rw [hz] at hcon
          exact Ev.noConfusion hcon
        · rw [hx] at hcon
          exact Ev.noConfusion hcon

theorem inv7_routeInjected :
    ∀ (ys : List (PinValue V)) (o o' : OutSt T V σ),
    routeInjected ys o = Except.ok o' →
    Inv7 o → NoMealyOut o.sim.trace → Inv7 o' ∧ NoMealyOut o'.sim.trace
  | [], o, o', h, hi, hno => by
      cases h
      exact ⟨hi, hno⟩
  | y :: rest, o, o', h, hi, hno => by
      rw [routeInjected] at h
      rcases hr : deliver false 0 y.value (route o.sim.graph y.pin) o with e1 | o1
      · rw [hr] at h
        cases h
      rw [hr] at h
      have hno1 : NoMealyOut o1.sim.trace := by
        obtain ⟨d, hd, hall⟩ := deliver_delta _ _ _ hr
        rw [hd]
        refine noMealyOut_append _ _ hno ?_
        intro ev hev a k hcon
        obtain ⟨a2, x2, hx⟩ := hall ev hev
        rw [hx] at hcon
        exact Ev.noConfusion hcon
      exact inv7_routeInjected rest o1 o' h
        (inv7_deliver _ _ _ hr hi (Or.inr hno)) hno1

end Seq

end Adevs

namespace Adevs

namespace Seq

variable {T V σ : Type} [LinearOrderedRing T] [DecidableEq V]

theorem inv7_imminentPhase :
    ∀ (l : List ℕ) (o o' : OutSt T V σ),
    imminentPhase l o = Except.ok o' →
    Inv7 o → NoMealyOut o.sim.trace → Inv7 o' ∧ NoMealyOut o'.sim.trace
  | [], o, o', h, hi, hno => by
      cases h
      exact ⟨hi, hno⟩
  | aid :: rest, o, o', h, hi, hno => by
      rw [imminentPhase] at h
      rcases hl : lookupA o.sim aid with _ | e
      · rw [hl] at h
        cases h
      rw [hl] at h
      dsimp only at h
      obtain ⟨hnl, hmo, hpm⟩ := hi
      by_cases hm : e.isMealy = true
      · rw [if_pos hm] at h
        have hOsim : (addPending aid o).sim = o.sim := addPending_sim aid o
        refine inv7_imminentPhase rest _ o' h ⟨?_, ?_, ?_⟩ ?_
        · rw [hOsim]
          exact hnl
        · intro a k hk hkm
          rw [hOsim] at hk
          rw [hOsim]
          exact hmo a k hk hkm
        · intro a ha
          have ha2 : a ∈ (addPending aid o).pending := ha
          have hcase : a ∈ o.pending ∨ a = aid := by
            rw [addPending] at ha2
            by_cases hmem : aid ∈ o.pending
            · rw [if_pos hmem] at ha2
              exact Or.inl ha2
            · rw [if_neg hmem] at ha2
              rcases List.mem_append.mp ha2 with h1 | h1
              · exact Or.inl h1
              · exact Or.inr (List.mem_singleton.mp h1)
          rcases hcase with h1 | heq
          · obtain ⟨e2, he2, hm2⟩ := hpm a h1
            refine ⟨e2, ?_, hm2⟩
            rw [hOsim]
            exact he2
          · refine ⟨e, ?_, hm⟩
            rw [hOsim, heq]
            exact hl
        · rw [hOsim]
          exact hno
      · rw [if_neg hm] at h
        rcases hr : routeOutputs false aid (e.outputs ++ e.output_fn e.st)
            (pushTrace (.outputComputed aid .moore)
              { (addActive aid o) with
                sim := updateA (addActive aid o).sim aid
                  (fun e0 => { e0 with outputs := e.outputs ++ e.output_fn e.st }) })
          with e1 | o2
        · rw [hr] at h
          cases h
        rw [hr] at h
        have htr : (pushTrace (Ev.outputComputed aid OutKind.moore)
            { (addActive aid o) with
              sim := updateA (addActive aid o).sim aid
                (fun e0 => { e0 with
                  outputs := e.outputs ++ e.output_fn e.st }) }).sim.trace =
            o.sim.trace ++ [Ev.outputComputed aid OutKind.moore] := by
          show (addActive aid o).sim.trace ++ _ = _
          rw [addActive_trace]
        have hiO2 : Inv7 (pushTrace (Ev.outputComputed aid OutKind.moore)
            { (addActive aid o) with
              sim := updateA (addActive aid o).sim aid
                (fun e0 => { e0 with
                  outputs := e.outputs ++ e.output_fn e.st }) }) := by
          refine ⟨?_, ?_, ?_⟩
          · rw [htr]
            exact noLate_append _ _ hnl
              (fun a k hk hkm x hcon => Ev.noConfusion hcon)
          · intro a k hk hkm
            rw [htr] at hk
            rcases List.mem_append.mp hk with h1 | h1
            · obtain ⟨hact, e2, he2, hm2⟩ := hmo a k h1 hkm
              refine ⟨addActive_active_mono aid o a hact, ?_⟩
              obtain ⟨e3, he4, hm3⟩ := updateA_lookup_isMealy
                (addActive aid o).sim aid
                (fun e0 => { e0 with outputs := e.outputs ++ e.output_fn e.st })
                (fun _ => rfl) a e2 (by rw [addActive_lookupA]; exact he2)
              exact ⟨e3, he4, hm3.trans hm2⟩
            · rw [List.mem_singleton] at h1
              injection h1 with h2 h3
              exact absurd h3.symm (fun hx => hkm hx.symm)
          · intro a ha
            have ha2 : a ∈ (addActive aid o).pending := ha
            rw [addActive_pending] at ha2
            obtain ⟨e2, he2, hm2⟩ := hpm a ha2
            obtain ⟨e3, he4, hm3⟩ := updateA_lookup_isMealy
              (addActive aid o).sim aid
              (fun e0 => { e0 with outputs := e.outputs ++ e.output_fn e.st })
              (fun _ => rfl) a e2 (by rw [addActive_lookupA]; exact he2)
            exact ⟨e3, he4, hm3.trans hm2⟩
        have hnoO2 : NoMealyOut (pushTrace (Ev.outputComputed aid OutKind.moore)
            { (addActive aid o) with
              sim := updateA (addActive aid o).sim aid
                (fun e0 => { e0 with
                  outputs := e.outputs ++ e.output_fn e.st }) }).sim.trace := by
          rw [htr]
          refine noMealyOut_append _ _ hno ?_
          intro ev hev a k hcon
          rw [List.mem_singleton.mp hev] at hcon
          injection hcon with h2 h3
          exact h3.symm
        have hno2 : NoMealyOut o2.sim.trace := by
          obtain ⟨d, hd, hall⟩ := routeOutputs_delta _ _ _ hr
          rw [hd]
          refine noMealyOut_append _ _ hnoO2 ?_
          intro ev hev a k hcon
          rcases hall ev hev with ⟨a2, z2, hz⟩ | ⟨a2, x2, hx⟩
          · rw [hz] at hcon
            exact Ev.noConfusion hcon
          · rw [hx] at hcon
            exact Ev.noConfusion hcon
        exact inv7_imminentPhase rest o2 o' h
          (inv7_routeOutputs _ _ _ hr hiO2 (Or.inr hnoO2)) hno2

theorem inv7_pendingLoop :
    ∀ (fuel : ℕ) (o o' : OutSt T V σ),
    pendingLoop fuel o = Except.ok o' → Inv7 o → Inv7 o'
  | 0, o, o', h, hi => by
      rw [pendingLoop] at h
      rcases hp : o.pending with _ | ⟨aid, rest⟩
      · rw [hp] at h
        cases h
        exact hi
      · rw [hp] at h
        cases h
  | fuel + 1, o, o', h, hi => by
      rw [pendingLoop] at h
      rcases hp : o.pending with _ | ⟨aid, rest⟩
      · rw [hp] at h
        cases h
        exact hi
      rw [hp] at h
      dsimp only at h
      rcases hl : lookupA o.sim aid with _ | e
      · rw [hl] at h
        cases h
      rw [hl] at h
      dsimp only at h
      obtain ⟨hnl, hmo, hpm⟩ := hi
      obtain ⟨epm, hepm, hmealy⟩ := hpm aid (by
        rw [hp]
        exact List.mem_cons_self aid rest)
      rw [hl] at hepm
      injection hepm with hepm2
      have hmTrue : e.isMealy = true := by
        rw [hepm2]
        exact hmealy
      set yk : List (PinValue V) × OutKind :=
        (if e.inputs = [] ∧ e.tN = o.sim.tNext then
            (e.output_fn e.st, OutKind.mealyInt)
          else if e.tN = o.sim.tNext then
            (e.confluent_output_fn e.inputs e.st, OutKind.mealyConf)
          else
            (e.external_output_fn (o.sim.tNext - e.tL) e.inputs e.st,
              OutKind.mealyExt)) with hyk
      rcases hr : routeOutputs true aid (e.outputs ++ yk.1)
          (pushTrace (Ev.outputComputed aid yk.2)
            { (addActive aid { o with pending := rest }) with
              sim := updateA (addActive aid { o with pending := rest }).sim aid
                (fun e0 => { e0 with outputs := e.outputs ++ yk.1 }) })
        with e1 | o3
      · rw [hr] at h
        cases h
      rw [hr] at h
      have htr : (pushTrace (Ev.outputComputed aid yk.2)
          { (addActive aid { o with pending := rest }) with
            sim := updateA (addActive aid { o with pending := rest }).sim aid
              (fun e0 => { e0 with outputs := e.outputs ++ yk.1 }) }).sim.trace =
          o.sim.trace ++ [Ev.outputComputed aid yk.2] := by
        show (addActive aid { o with pending := rest }).sim.trace ++ _ = _
        rw [addActive_trace aid { o with pending := rest }]
      have hiO2 : Inv7 (pushTrace (Ev.outputComputed aid yk.2)
          { (addActive aid { o with pending := rest }) with
            sim := updateA (addActive aid { o with pending := rest }).sim aid
              (fun e0 => { e0 with outputs := e.outputs ++ yk.1 }) }) := by
        refine ⟨?_, ?_, ?_⟩
        · rw [htr]
          exact noLate_append _ _ hnl
            (fun a k hk hkm x hcon => Ev.noConfusion hcon)
        · intro a k hk hkm
          rw [htr] at hk
          rcases List.mem_append.mp hk with h1 | h1
          · obtain ⟨hact, e2, he2, hm2⟩ := hmo a k h1 hkm
            constructor
            · exact addActive_active_mono aid { o with pending := rest } a hact
            · obtain ⟨e3, he4, hm3⟩ := updateA_lookup_isMealy
                (addActive aid { o with pending := rest }).sim aid
                (fun e0 => { e0 with outputs := e.outputs ++ yk.1 })
                (fun _ => rfl) a e2 (by rw [addActive_lookupA]; exact he2)
              exact ⟨e3, he4, hm3.trans hm2⟩
          · rw [List.mem_singleton] at h1
            injection h1 with h2 h3
            constructor
            · exact h2 ▸ addActive_active_self aid { o with pending := rest }
            · obtain ⟨e3, he4, hm3⟩ := updateA_lookup_isMealy
                (addActive aid { o with pending := rest }).sim aid
                (fun e0 => { e0 with outputs := e.outputs ++ yk.1 })
                (fun _ => rfl) aid e (by rw [addActive_lookupA]; exact hl)
              exact ⟨e3, h2 ▸ he4, hm3.trans hmTrue⟩
        · intro a ha
          have ha2 : a ∈ (addActive aid { o with pending := rest }).pending := ha
          rw [addActive_pending] at ha2
          obtain ⟨e2, he2, hm2⟩ := hpm a (by
            rw [hp]
            exact List.mem_cons_of_mem aid ha2)
          obtain ⟨e3, he4, hm3⟩ := updateA_lookup_isMealy
            (addActive aid { o with pending := rest }).sim aid
            (fun e0 => { e0 with outputs := e.outputs ++ yk.1 })
            (fun _ => rfl) a e2 (by rw [addActive_lookupA]; exact he2)
          exact ⟨e3, he4, hm3.trans hm2⟩
      exact inv7_pendingLoop fuel o3 o' h
        (inv7_routeOutputs _ _ _ hr hiO2 (Or.inl rfl))

end Seq

end Adevs

namespace Adevs

namespace Seq

/-- A one-atomic state for exercising `computeNextOutput` with an
empty starting trace: a Moore atomic imminent at `tNext = 9`. -/
def c7Entry : AtomicEntry ℤ ℕ ℕ :=
  ⟨false, fun _ => (9 : ℤ), id, fun _ _ => id, fun _ => id,
    fun _ => [], fun _ _ => [], fun _ _ _ => [], 0, 0, 9, [], []⟩

def c7Test : SimState ℤ ℕ ℕ :=
  ⟨⟨[(0, c7Entry)], [], [(5, 0)], true, []⟩, [], [], [(0, 9)], 9,
    2 ^ 62, 0, []⟩

/-- The state `computeNextOutput` produces on `c7Test`: the imminent
Moore atomic's output was computed. -/
def c7After : SimState ℤ ℕ ℕ :=
  ⟨⟨[(0, c7Entry)], [], [(5, 0)], true, []⟩, [], [0], [(0, 9)], 9,
    2 ^ 62, 0, [.outputComputed 0 .moore]⟩

theorem c7_run : computeNextOutput c7Test = Except.ok c7After := rfl

end Seq

end Adevs

/-- C7: in a successful `computeNextOutput` from an empty trace, the
trace splits into a prefix in which every output computation is a
Moore one (and which, when the schedule minimum equals `tNext`,
contains the output computation of every imminent Moore atomic) and a
suffix containing no Moore output computation — so every imminent
Moore output is computed and routed before any Mealy output
computation; moreover no model ever receives an input after a Mealy
output computation of its own, and a delivery to a Mealy model already
in the active set raises the feedback-loop error instead. -/
theorem Adevs.Seq.c7_moore_before_mealy {T V σ : Type}
    [LinearOrderedRing T] [DecidableEq V]
    (s s2 : Adevs.Seq.SimState T V σ)
    (htr0 : s.trace = [])
    (hok : Adevs.Seq.computeNextOutput s = Except.ok s2) :
    (∃ pre post, s2.trace = pre ++ post ∧
      (∀ ev ∈ pre, ∀ a k, ev = Adevs.Seq.Ev.outputComputed a k →
        k = Adevs.Seq.OutKind.moore) ∧
      (∀ ev ∈ post, ∀ a,
        ev ≠ Adevs.Seq.Ev.outputComputed a Adevs.Seq.OutKind.moore) ∧
      (Adevs.Seq.minPriority s.inf s.sched = s.tNext →
        ∀ a e, a ∈ Adevs.Seq.visitImminent s.inf s.sched →
          Adevs.Seq.lookupA s a = some e → e.isMealy = false →
          Adevs.Seq.Ev.outputComputed a Adevs.Seq.OutKind.moore ∈ pre)) ∧
    Adevs.Seq.NoLate s2.trace ∧
    (∀ (o : Adevs.Seq.OutSt T V σ) pin aid rest src v
      (e : Adevs.Seq.AtomicEntry T V σ),
      Adevs.Seq.lookupA o.sim aid = some e → e.isMealy = true →
      aid ∈ o.sim.active →
      Adevs.Seq.deliver true src v ((pin, aid) :: rest) o =
        Except.error (Adevs.Seq.SimErr.mealyFeedback src)) := by
  rw [Adevs.Seq.computeNextOutput] at hok
  rcases hr : Adevs.Seq.routeInjected (Adevs.Seq.clearActive s).external_input
      (⟨{ Adevs.Seq.clearActive s with external_input := [] }, []⟩ :
        Adevs.Seq.OutSt T V σ) with e1 | o1
  · rw [hr] at hok
    cases hok
  rw [hr] at hok
  dsimp only at hok
  rcases hiph : (if Adevs.Seq.minPriority o1.sim.inf o1.sim.sched = o1.sim.tNext
      then Adevs.Seq.imminentPhase
        (Adevs.Seq.visitImminent o1.sim.inf o1.sim.sched) o1
      else Except.ok o1) with e2 | o2
  · rw [hiph] at hok
    cases hok
  rw [hiph] at hok
  dsimp only at hok
  rcases hpl : Adevs.Seq.pendingLoop
      (o2.sim.graph.atomics.length + o2.pending.length + 1) o2 with e3 | o3
  · rw [hpl] at hok
    cases hok
  rw [hpl] at hok
  cases hok
  have h0 : (Adevs.Seq.clearActive s).trace = [] :=
    ((Adevs.Seq.clearActive_fields s).2.2.2.2.2.2.2.1).trans htr0
  have hstart : Adevs.Seq.Inv7
      (⟨{ Adevs.Seq.clearActive s with external_input := [] }, []⟩ :
        Adevs.Seq.OutSt T V σ) := by
    refine ⟨?_, ?_, ?_⟩
    · show Adevs.Seq.NoLate (Adevs.Seq.clearActive s).trace
      rw [h0]
      exact List.Pairwise.nil
    · intro a k hk hkm
      have hk2 : Adevs.Seq.Ev.outputComputed a k ∈
          (Adevs.Seq.clearActive s).trace := hk
      rw [h0] at hk2
      exact absurd hk2 (List.not_mem_nil _)
    · intro a ha
      exact absurd ha (List.not_mem_nil a)
  have hnostart : Adevs.Seq.NoMealyOut
      (⟨{ Adevs.Seq.clearActive s with external_input := [] }, []⟩ :
        Adevs.Seq.OutSt T V σ).sim.trace := by
    intro a k hk
    have hk2 : Adevs.Seq.Ev.outputComputed a k ∈
        (Adevs.Seq.clearActive s).trace := hk
    rw [h0] at hk2
    exact absurd hk2 (List.not_mem_nil _)
  obtain ⟨hi1, hno1⟩ := Adevs.Seq.inv7_routeInjected _ _ _ hr hstart hnostart
  have h2pair : Adevs.Seq.Inv7 o2 ∧ Adevs.Seq.NoMealyOut o2.sim.trace := by
    by_cases hmin2 : Adevs.Seq.minPriority o1.sim.inf o1.sim.sched = o1.sim.tNext
    · rw [if_pos hmin2] at hiph
      exact Adevs.Seq.inv7_imminentPhase _ _ _ hiph hi1 hno1
    · rw [if_neg hmin2] at hiph
      cases hiph
      exact ⟨hi1, hno1⟩
  have hi3 : Adevs.Seq.Inv7 o3 := Adevs.Seq.inv7_pendingLoop _ _ _ hpl h2pair.1
  obtain ⟨d3, hd3, hall3⟩ := Adevs.Seq.pendingLoop_delta _ _ _ hpl
  have hst1 := Adevs.Seq.stable_routeInjected _ _ _ hr
  refine ⟨⟨o2.sim.trace, d3, hd3, ?_, ?_, ?_⟩, hi3.1, ?_⟩
  · intro ev hev a k hcon
    exact h2pair.2 a k (hcon ▸ hev)
  · intro ev hev a hcon
    rcases hall3 ev hev with ⟨a2, x2, hx⟩ | ⟨a2, z2, hz⟩ | ⟨a2, k2, hk2, hkm2⟩
    · rw [hx] at hcon
      exact Adevs.Seq.Ev.noConfusion hcon
    · rw [hz] at hcon
      exact Adevs.Seq.Ev.noConfusion hcon
    · rw [hk2] at hcon
      injection hcon with hq1 hq2
      exact hkm2 hq2
  · intro hmin a e hvis hlk hmoore
    have hI2 : o1.sim.inf = s.inf := by
      rw [hst1.2.2.1]
      exact (Adevs.Seq.clearActive_fields s).2.2.1
    have hS2 : o1.sim.sched = s.sched := by
      rw [hst1.2.2.2.2.1]
      exact (Adevs.Seq.clearActive_fields s).2.2.2.2.1
    have hT2 : o1.sim.tNext = s.tNext := by
      rw [hst1.2.1]
      exact (Adevs.Seq.clearActive_fields s).2.1
    have hcond : Adevs.Seq.minPriority o1.sim.inf o1.sim.sched = o1.sim.tNext := by
      rw [hI2, hS2, hT2]
      exact hmin
    rw [if_pos hcond] at hiph
    obtain ⟨ec, hec, hmc, -, -, -, -⟩ := Adevs.Seq.clearActive_lookup s a e hlk
    obtain ⟨e1, he1, hm1, -, -, -, -, -⟩ :=
      hst1.2.2.2.2.2.2.2.2.2 a ec
        (show Adevs.Seq.lookupA
          (⟨{ Adevs.Seq.clearActive s with external_input := [] }, []⟩ :
            Adevs.Seq.OutSt T V σ).sim a = some ec from hec)
    have hvismem : a ∈ Adevs.Seq.visitImminent o1.sim.inf o1.sim.sched := by
      rw [hI2, hS2]
      exact hvis
    have hmoore1 : e1.isMealy = false := by
      rw [hm1, hmc]
      exact hmoore
    exact Adevs.Seq.imminentPhase_computes _ _ _ hiph a hvismem e1 he1 hmoore1
  · intro o pin aid rest src v e hlook hmealy hmem
    rw [Adevs.Seq.deliver, hlook]
    dsimp only
    rw [if_pos (show e.isMealy = true from hmealy), if_pos ⟨rfl, hmem⟩]

/-- Witness for C7: the concrete one-atomic run starts from the empty
trace; its result trace satisfies the no-late-Mealy-input ordering. -/
theorem Adevs.Seq.c7_moore_before_mealy_witness :
    Adevs.Seq.c7Test.trace = ([] : List (Adevs.Seq.Ev ℤ ℕ)) ∧
    Adevs.Seq.NoLate Adevs.Seq.c7After.trace :=
  ⟨rfl, (Adevs.Seq.c7_moore_before_mealy Adevs.Seq.c7Test Adevs.Seq.c7After
    rfl Adevs.Seq.c7_run).2.1⟩
